import Mathlib

/-!
# Verification of the dapol DAPOL+ Merkle Sum Tree implementation

A shallow embedding of the core data model and algorithms of the `dapol`
crate (Sparse Merkle Sum Tree with non-deterministic mapping, parallel
builder, inclusion proofs), together with theorems settling the claims of
the natural-language specification.

Modelling conventions:

* `u64` values are `Nat` together with explicit `% 2^64` where the Rust code
  performs wrapping arithmetic (release-mode `+` on `u64`).
* Curve25519/Ristretto scalars are `ZMod ristrettoOrder`.  A Pedersen
  commitment `g1^v * g2^b` over independent generators is modelled as the
  pair of exponents `(v, b)` in the scalar field, which is a faithful model
  of the group generated by two independent generators.
* The Blake3 hash is modelled as a free term algebra: distinct hashing
  structures give distinct terms, identical structures give identical terms.
  No theorem below relies on collision *resistance*; the free model is only
  used for the functional equalities the code itself relies on.
-/

set_option maxRecDepth 4000

namespace Dapol

/-- Order of the Ristretto255 scalar field (the prime ℓ = 2^252 + δ). -/
def ristrettoOrder : ℕ := 2^252 + 27742317777372353535851937790883648493

/-- Ristretto scalar, `curve25519_dalek::scalar::Scalar`. -/
abbrev Scalar : Type := ZMod ristrettoOrder

theorem ristrettoOrder_pos : 0 < ristrettoOrder := by
  unfold ristrettoOrder; positivity

instance : NeZero ristrettoOrder := ⟨Nat.pos_iff_ne_zero.mp ristrettoOrder_pos⟩

/-- `2^64`, the modulus of Rust's `u64` type. -/
def U64 : ℕ := 2 ^ 64

/-- A Pedersen commitment `g1^v * g2^b` over the two independent Ristretto
generators of `bulletproofs::PedersenGens::default()`, modelled by its pair
of exponents (value component, blinding component). -/
structure Com where
  vc : Scalar
  bc : Scalar
deriving DecidableEq

/-- Group operation on commitments (`RistrettoPoint` addition). -/
def Com.add (a b : Com) : Com := ⟨a.vc + b.vc, a.bc + b.bc⟩

instance : Add Com := ⟨Com.add⟩

theorem Com.add_def (a b : Com) : a + b = ⟨a.vc + b.vc, a.bc + b.bc⟩ := rfl

/-- `PedersenGens::default().commit(Scalar::from(v), b)`. -/
def pedersen (v : ℕ) (b : Scalar) : Com := ⟨(v : Scalar), b⟩

/-- Tree coordinate, `binary_tree::Coordinate`: `y` is the layer (0 = bottom),
`x` the horizontal index inside the layer. -/
structure Coordinate where
  y : ℕ
  x : ℕ
deriving DecidableEq, Repr

/-- The 256-bit Blake3 output, modelled as a free term algebra over the three
hashing structures used by the code: leaf hashes (`H("leaf" | id | salt)`),
padding hashes (`H("pad" | coord | salt)`) and merge hashes
(`H(C(L) | C(R) | H(L) | H(R))`), plus arbitrary opaque values `raw` used
for adversarial inputs. -/
inductive HashVal : Type
  | leaf (entityId : String) (salt : ℕ)
  | pad (coord : Coordinate) (salt : ℕ)
  | node (cl cr : Com) (hl hr : HashVal)
  | raw (tag : ℕ)
deriving DecidableEq

/-- `node_types::full_node::FullNodeContent` / `binary_tree`'s full node
content: plaintext liability (a `u64`), blinding factor, Pedersen commitment
and hash. -/
structure FullNodeContent where
  liability : ℕ
  blindingFactor : Scalar
  commitment : Com
  hash : HashVal
deriving DecidableEq

namespace FullNodeContent

/-- `FullNodeContent::new_leaf`: commitment `g1^liability * g2^bf`, hash
`H("leaf" | entity_id | salt)`.  The wrapping `% U64` records that the field
is a `u64`. -/
def new_leaf (liability : ℕ) (blindingFactor : Scalar) (entityId : String)
    (salt : ℕ) : FullNodeContent :=
  { liability := liability % U64
    blindingFactor := blindingFactor
    commitment := pedersen (liability % U64) blindingFactor
    hash := .leaf entityId salt }

/-- `FullNodeContent::new_pad`: liability 0, commitment `g1^0 * g2^bf`, hash
`H("pad" | coord | salt)`. -/
def new_pad (blindingFactor : Scalar) (coord : Coordinate) (salt : ℕ) :
    FullNodeContent :=
  { liability := 0
    blindingFactor := blindingFactor
    commitment := pedersen 0 blindingFactor
    hash := .pad coord salt }

/-- `Mergeable::merge` for `FullNodeContent`
(src/node_types/full_node.rs lines 126-148): the parent liability is the
unchecked `u64` sum of the children (wrapping in release builds, hence
`% U64`), blinding factors and commitments are added, and the parent hash is
`H(C(L) | C(R) | H(L) | H(R))`. -/
def merge (lch rch : FullNodeContent) : FullNodeContent :=
  { liability := (lch.liability + rch.liability) % U64
    blindingFactor := lch.blindingFactor + rch.blindingFactor
    commitment := lch.commitment + rch.commitment
    hash := .node lch.commitment rch.commitment lch.hash rch.hash }

end FullNodeContent

/-- Hidden node content (commitment + hash only), used for proof siblings.
The defining file `binary_tree/node_content/hidden_node.rs` is not part of
the source snapshot; the structure is modelled from the spec (§3
`HiddenNodeContent`) and from the uses in `inclusion_proof.rs` and
`path_siblings.rs`. -/
structure HiddenNodeContent where
  commitment : Com
  hash : HashVal
deriving DecidableEq

namespace HiddenNodeContent

/-- Modelled from the spec: `PartialEq for HiddenNodeContent` "compares only
the hash" (spec §4.8 note, and the comment at
src/inclusion_proof.rs lines 208-209); the commitment is ignored. -/
def partialEq (a b : HiddenNodeContent) : Bool := a.hash == b.hash

/-- Modelled from the spec: `Mergeable::merge` for hidden content follows the
same merge law as full content minus the secret fields (spec §3 merge law). -/
def merge (lch rch : HiddenNodeContent) : HiddenNodeContent :=
  { commitment := lch.commitment + rch.commitment
    hash := .node lch.commitment rch.commitment lch.hash rch.hash }

end HiddenNodeContent

/-- `From<FullNodeContent> for HiddenNodeContent`: drop the secrets. -/
def FullNodeContent.toHidden (c : FullNodeContent) : HiddenNodeContent :=
  { commitment := c.commitment, hash := c.hash }

/-- Dropping secrets commutes with merging. -/
theorem toHidden_merge (l r : FullNodeContent) :
    (FullNodeContent.merge l r).toHidden =
      HiddenNodeContent.merge l.toHidden r.toHidden := rfl

/-- A tree node: a coordinate and a generic content (`binary_tree::Node<C>`).
Rust derives `PartialEq`, which compares the coordinate *and* the content. -/
structure Node (C : Type) where
  coord : Coordinate
  content : C
deriving DecidableEq

/-- `binary_tree::InputLeafNode<C>`: bottom-layer leaf given to the builder. -/
structure InputLeafNode (C : Type) where
  content : C
  xCoord : ℕ
deriving DecidableEq

/-- `InputLeafNode::into_node` / `to_node`: place the leaf at `y = 0`. -/
def InputLeafNode.toNode {C : Type} (n : InputLeafNode C) : Node C :=
  ⟨⟨0, n.xCoord⟩, n.content⟩

namespace Coordinate

/-- `Coordinate`'s sibling: flip between `x` and `x ± 1` depending on parity
(`get_sibling_coord` / `sibling_coord`). -/
def siblingCoord (c : Coordinate) : Coordinate :=
  if c.x % 2 = 0 then ⟨c.y, c.x + 1⟩ else ⟨c.y, c.x - 1⟩

/-- `Coordinate`'s parent: `(y + 1, x / 2)` (`get_parent_coord`). -/
def parentCoord (c : Coordinate) : Coordinate := ⟨c.y + 1, c.x / 2⟩

end Coordinate

namespace Node

/-- `Node::is_left_sibling_of`: self is a left node (even x) living directly
to the left of `other`. -/
def isLeftSiblingOf {C : Type} (self other : Node C) : Bool :=
  decide (self.coord.x % 2 = 0) &&
    (decide (self.coord.y = other.coord.y) && decide (self.coord.x + 1 = other.coord.x))

/-- `Node::is_right_sibling_of`: self is a right node (odd x, positive)
living directly to the right of `other`. -/
def isRightSiblingOf {C : Type} (self other : Node C) : Bool :=
  decide (self.coord.x % 2 = 1) &&
    (decide (0 < self.coord.x) &&
      (decide (self.coord.y = other.coord.y) && decide (self.coord.x - 1 = other.coord.x)))

/-- `new_sibling_padding_node(_arc)`: build the padding sibling of a node via
the padding-content closure. -/
def newSiblingPaddingNode {C : Type} (padF : Coordinate → C) (n : Node C) : Node C :=
  let c := n.coord.siblingCoord
  ⟨c, padF c⟩

end Node

/-- `MatchedPair::merge`: parent node at `(y + 1, x / 2)` with merged
content. -/
def pairMergeNodes {C : Type} (mergeC : C → C → C) (left right : Node C) : Node C :=
  ⟨⟨left.coord.y + 1, left.coord.x / 2⟩, mergeC left.content right.content⟩

/-- Modelled from the spec: the `From<(Node<C>, Node<C>)>` impl for
`MatchedPair` lives in a file absent from the source snapshot; it orients the
two sibling nodes so that the even-`x` node becomes the left one (spec §4.3
orientation by `x mod 2`). -/
def matchedPairOf {C : Type} (a b : Node C) : Node C × Node C :=
  if a.coord.x % 2 = 0 then (a, b) else (b, a)

-- -----------------------------------------------------------------------------------------------
-- The canonical (mathematical) tree used to relate the two build algorithms.

/-- The leaves of `leaves` whose x-coordinate falls in `[lo, lo + size)`. -/
def leavesInRange {C : Type} (leaves : List (Node C)) (lo size : ℕ) : List (Node C) :=
  leaves.filter (fun n => decide (lo ≤ n.coord.x) && decide (n.coord.x < lo + size))

/-- The mathematical node of the sparse padded Merkle tree at coordinate
`(y, x)`: a leaf position holds the input leaf content (or padding), an empty
subtree is a padding node generated directly at its root coordinate, and any
other internal node is the merge of its two children.  Both build algorithms
are proven below to compute exactly this node. -/
def canonicalNode {C : Type} (mergeC : C → C → C) (padF : Coordinate → C)
    (leaves : List (Node C)) : ℕ → ℕ → Node C
  | 0, x =>
    match leaves.find? (fun n => decide (n.coord.x = x)) with
    | some n => ⟨⟨0, x⟩, n.content⟩
    | none => ⟨⟨0, x⟩, padF ⟨0, x⟩⟩
  | y + 1, x =>
    if (leavesInRange leaves (x * 2 ^ (y + 1)) (2 ^ (y + 1))).isEmpty then
      ⟨⟨y + 1, x⟩, padF ⟨y + 1, x⟩⟩
    else
      pairMergeNodes mergeC (canonicalNode mergeC padF leaves y (2 * x))
        (canonicalNode mergeC padF leaves y (2 * x + 1))

-- -----------------------------------------------------------------------------------------------
-- Node store.

/-- The node store: the multiset of `(coordinate, node)` insertions performed
into the concurrent map during the build.  Keys are unique (each node is
produced by exactly one recursion path), so the set of insertions determines
the final map. -/
abbrev StoreList (C : Type) := List (Coordinate × Node C)

/-- Map lookup. -/
def storeGet {C : Type} (s : StoreList C) (c : Coordinate) : Option (Node C) :=
  (s.find? (fun p => decide (p.1 = c))).map Prod.snd

/-- `binary_tree::BinaryTree<C>`: root node, node store, height.  (The struct
definition file is absent from the snapshot; fields are taken from the uses
in `multi_threaded.rs` and `path_siblings.rs`.) -/
structure BinaryTree (C : Type) where
  root : Node C
  store : StoreList C
  height : ℕ

/-- `BinaryTree::get_node`: store lookup by coordinate. -/
def BinaryTree.getNode {C : Type} (t : BinaryTree C) (c : Coordinate) : Option (Node C) :=
  storeGet t.store c

/-- `BinaryTree::get_leaf_node`: store lookup at `(x, y = 0)`. -/
def BinaryTree.getLeafNode {C : Type} (t : BinaryTree C) (x : ℕ) : Option (Node C) :=
  t.getNode ⟨0, x⟩

-- -----------------------------------------------------------------------------------------------
-- Multi-threaded builder (binary_tree/tree_builder/multi_threaded.rs).

/-- `RecursionParams` for the multi-threaded builder (thread-pool fields are
replaced by the scheduling oracle passed to `buildNode`). -/
structure RecursionParams where
  xMin : ℕ
  xMid : ℕ
  xMax : ℕ
  y : ℕ
  height : ℕ
  storeDepth : ℕ
deriving DecidableEq, Repr

/-- `RecursionParams::into_left_child`. -/
def RecursionParams.intoLeftChild (p : RecursionParams) : RecursionParams :=
  { p with xMax := p.xMid, xMid := (p.xMin + p.xMid) / 2, y := p.y - 1 }

/-- `RecursionParams::into_right_child`. -/
def RecursionParams.intoRightChild (p : RecursionParams) : RecursionParams :=
  { p with xMin := p.xMid + 1, xMid := (p.xMid + 1 + p.xMax) / 2, y := p.y - 1 }

/-- Result of `num_nodes_left_of` (the `Partial` case is called `split`
here). -/
inductive NumNodes : Type
  | full
  | empty
  | split (index : ℕ)
deriving DecidableEq, Repr

/-- `Iterator::rposition`: index (from the front) of the last element
satisfying the predicate. -/
def rposition {α : Type} (p : α → Bool) : List α → Option ℕ
  | [] => none
  | a :: as =>
    match rposition p as with
    | some i => some (i + 1)
    | none => if p a then some 0 else none

/-- `num_nodes_left_of`: classify how the sorted leaves fall around
`x_coord_mid`. -/
def numNodesLeftOf {C : Type} (mid : ℕ) (nodes : List (Node C)) : NumNodes :=
  match rposition (fun n => decide (n.coord.x ≤ mid)) nodes with
  | none => .empty
  | some i => if i = nodes.length - 1 then .full else .split i

/-- `multi_threaded::build_node`, the recursive parallel build function.

The first argument is the layer `params.y_coord`, taken out of the params as
an explicit structural-recursion argument: every call site passes exactly
`params.y` (the `into_left_child`/`into_right_child` conversions decrement
`y_coord` by one, matching the decremented layer argument).

`spawn` is the scheduling oracle: it abstracts the mutex-protected
`thread_count < max_thread_count` test.  Both branches of the Rust
`if spawn_thread` compute the same pair of child nodes with identical
arguments (one on a spawned thread, one inline); the only observable
difference is the interleaving of store insertions, which is modelled by the
order of the returned insertion list.

`none` models a `panic!`/`assert!` failure (the five entry assertions, the
thread-join panic, and the `u8` underflow that `y_coord - 1` would hit at
`y = 0`). -/
def buildNodeGo {C : Type} (mergeC : C → C → C) (padF : Coordinate → C)
    (spawn : RecursionParams → Bool) (yLayer : ℕ) (params : RecursionParams)
    (leaves : List (Node C)) : Option (StoreList C × Node C) :=
  if ¬ (leaves.length ≤ 2 ^ params.y) then none
  else if leaves.length = 0 then none
  else if ¬ (params.xMin % 2 = 0) then none
  else if ¬ (params.xMax % 2 = 1) then none
  else if ¬ ((params.xMax - params.xMin + 1) &&& (params.xMax - params.xMin + 1 - 1) = 0)
    then none
  else
    match yLayer with
      | 0 => none
      | 1 =>
        match leaves with
        | [l, r] =>
          let pair := matchedPairOf l r
          some ([(l.coord, l), (r.coord, r)], pairMergeNodes mergeC pair.1 pair.2)
        | [node] =>
          let sibling := node.newSiblingPaddingNode padF
          let inserts :=
            if params.storeDepth = params.height then
              [(node.coord, node), (sibling.coord, sibling)]
            else [(node.coord, node)]
          let pair := matchedPairOf node sibling
          some (inserts, pairMergeNodes mergeC pair.1 pair.2)
        | _ => none
      | yl + 2 =>
        let withinStore := params.height - params.storeDepth < params.y
        match numNodesLeftOf params.xMid leaves with
        | .split i =>
          let rightLeaves := leaves.drop (i + 1)
          let leftLeaves := leaves.take (i + 1)
          if spawn params then
            match buildNodeGo mergeC padF spawn (yl + 1) params.intoRightChild rightLeaves,
                buildNodeGo mergeC padF spawn (yl + 1) params.intoLeftChild leftLeaves with
            | some (insR, right), some (insL, left) =>
              let pair := matchedPairOf left right
              let here :=
                if withinStore then [(pair.1.coord, pair.1), (pair.2.coord, pair.2)] else []
              some (insL ++ insR ++ here, pairMergeNodes mergeC pair.1 pair.2)
            | _, _ => none
          else
            match buildNodeGo mergeC padF spawn (yl + 1) params.intoRightChild rightLeaves,
                buildNodeGo mergeC padF spawn (yl + 1) params.intoLeftChild leftLeaves with
            | some (insR, right), some (insL, left) =>
              let pair := matchedPairOf left right
              let here :=
                if withinStore then [(pair.1.coord, pair.1), (pair.2.coord, pair.2)] else []
              some (insR ++ insL ++ here, pairMergeNodes mergeC pair.1 pair.2)
            | _, _ => none
        | .full =>
          match buildNodeGo mergeC padF spawn (yl + 1) params.intoLeftChild leaves with
          | some (insL, left) =>
            let pair := matchedPairOf left (left.newSiblingPaddingNode padF)
            let here :=
              if withinStore then [(pair.1.coord, pair.1), (pair.2.coord, pair.2)] else []
            some (insL ++ here, pairMergeNodes mergeC pair.1 pair.2)
          | none => none
        | .empty =>
          match buildNodeGo mergeC padF spawn (yl + 1) params.intoRightChild leaves with
          | some (insR, right) =>
            let pair := matchedPairOf right (right.newSiblingPaddingNode padF)
            let here :=
              if withinStore then [(pair.1.coord, pair.1), (pair.2.coord, pair.2)] else []
            some (insR ++ here, pairMergeNodes mergeC pair.1 pair.2)
          | none => none

/-- `multi_threaded::build_node` proper: the layer argument starts at
`params.y_coord`. -/
def buildNode {C : Type} (mergeC : C → C → C) (padF : Coordinate → C)
    (spawn : RecursionParams → Bool) (params : RecursionParams)
    (leaves : List (Node C)) : Option (StoreList C × Node C) :=
  buildNodeGo mergeC padF spawn params.y params leaves

-- -----------------------------------------------------------------------------------------------
-- Build errors and the top-level build pipelines.

/-- `binary_tree::TreeBuildError` (tree_builder.rs). -/
inductive TreeBuildError : Type
  | NoLeafNodesProvided
  | NoHeightProvided
  | NoPaddingNodeContentGeneratorProvided
  | TooManyLeaves
  | EmptyLeaves
  | InvalidXCoord
  | HeightTooSmall
  | DuplicateLeaves
  | StoreOwnershipFailure
deriving DecidableEq, Repr

/-- Result of a build: success, a returned error, or a `panic!`. -/
inductive BuildResult (C : Type) : Type
  | ok (t : BinaryTree C)
  | err (e : TreeBuildError)
  | panic

/-- `MIN_HEIGHT` (height.rs). -/
def MIN_HEIGHT : ℕ := 2

/-- `MAX_HEIGHT` (height.rs). -/
def MAX_HEIGHT : ℕ := 64

/-- `max_bottom_layer_nodes` / `num_bottom_layer_nodes`: `2^(height - 1)`. -/
def maxBottomLayerNodes (height : ℕ) : ℕ := 2 ^ (height - 1)

/-- `verify_no_duplicate_leaves` (tree_builder.rs): expects the input sorted
by x-coord, errors if two adjacent leaves share an x-coord. -/
def verifyNoDuplicateLeaves {C : Type} (leafNodes : List (InputLeafNode C)) :
    Except TreeBuildError Unit :=
  if (leafNodes.zip leafNodes.tail).any (fun p => decide (p.1.xCoord = p.2.xCoord)) then
    .error .DuplicateLeaves
  else .ok ()

/-- The sort performed by `input_leaf_nodes.par_sort_by(|a, b| a.x_coord.cmp(&b.x_coord))`:
a stable sort by x-coord. -/
def sortLeafNodes {C : Type} (l : List (InputLeafNode C)) : List (InputLeafNode C) :=
  List.insertionSort (fun a b => a.xCoord ≤ b.xCoord) l

/-- `multi_threaded::build_tree`: sort, check duplicates, convert to nodes,
run the recursive build, insert the root into the store. -/
def buildTreeMulti {C : Type} (mergeC : C → C → C) (padF : Coordinate → C)
    (spawn : RecursionParams → Bool) (height storeDepth : ℕ)
    (inputLeafNodes : List (InputLeafNode C)) : BuildResult C :=
  let sorted := sortLeafNodes inputLeafNodes
  match verifyNoDuplicateLeaves sorted with
  | .error e => .err e
  | .ok _ =>
    let leafNodes := sorted.map InputLeafNode.toNode
    let params : RecursionParams :=
      { xMin := 0
        xMid := (0 + (maxBottomLayerNodes height - 1)) / 2
        xMax := maxBottomLayerNodes height - 1
        y := height - 1
        height := height
        storeDepth := storeDepth }
    match buildNode mergeC padF spawn params leafNodes with
    | none => .panic
    | some (ins, root) => .ok ⟨root, (root.coord, root) :: ins, height⟩

/-- `TreeBuilder::height` (tree_builder.rs): reject an unset height or one
below `MIN_HEIGHT`. -/
def treeBuilderHeight (height : Option ℕ) : Except TreeBuildError ℕ :=
  match height with
  | none => .error .NoHeightProvided
  | some h => if h < MIN_HEIGHT then .error .HeightTooSmall else .ok h

/-- `TreeBuilder::leaf_nodes` (tree_builder.rs lines 163-185): reject unset
or empty leaves, too many leaves, and run the x-coord bound check.  Note the
bound check inspects only `leaf_nodes.last()`, and it runs *before* the sort
(sorting happens downstream in `build_tree`). -/
def treeBuilderLeafNodes {C : Type} (height : ℕ)
    (leafNodes : Option (List (InputLeafNode C))) :
    Except TreeBuildError (List (InputLeafNode C)) :=
  match leafNodes with
  | none => .error .NoLeafNodesProvided
  | some l =>
    if l.length = 0 then .error .EmptyLeaves
    else if maxBottomLayerNodes height < l.length then .error .TooManyLeaves
    else
      match l.getLast? with
      | some lastNode =>
        if lastNode.xCoord < maxBottomLayerNodes height then .ok l
        else .error .InvalidXCoord
      | none => .error .InvalidXCoord

/-- `TreeBuilder::store_depth`: default to `height / 2`
(`DEFAULT_STORE_DEPTH_RATIO = 2`). -/
def treeBuilderStoreDepth (storeDepth : Option ℕ) (height : ℕ) : ℕ :=
  storeDepth.getD (height / 2)

/-- `TreeBuilder::build_using_multi_threaded_algorithm`: validate the builder
fields, then run `multi_threaded::build_tree`. -/
def buildUsingMultiThreadedAlgorithm {C : Type} (mergeC : C → C → C)
    (padF : Coordinate → C) (spawn : RecursionParams → Bool)
    (height : Option ℕ) (storeDepth : Option ℕ)
    (leafNodes : Option (List (InputLeafNode C))) : BuildResult C :=
  match treeBuilderHeight height with
  | .error e => .err e
  | .ok h =>
    let sd := treeBuilderStoreDepth storeDepth h
    match treeBuilderLeafNodes h leafNodes with
    | .error e => .err e
    | .ok l => buildTreeMulti mergeC padF spawn h sd l

-- -----------------------------------------------------------------------------------------------
-- Single-threaded builder (binary_tree/single_threaded_builder.rs).

/-- `MaybeUnmatchedPair`: a pair of sibling nodes, one of which may be
absent. -/
abbrev MaybePair (C : Type) := Option (Node C) × Option (Node C)

/-- One step of the fold that sorts a layer's nodes into sibling pairs
(single_threaded_builder.rs lines 65-98). -/
def pairUpStep {C : Type} (pairs : List (MaybePair C)) (node : Node C) :
    List (MaybePair C) :=
  if node.coord.x % 2 = 0 then pairs ++ [(some node, none)]
  else
    match pairs.getLast? with
    | some (some l, _r) =>
      if node.isRightSiblingOf l then pairs.dropLast ++ [(some l, some node)]
      else pairs ++ [(none, some node)]
    | _ => pairs ++ [(none, some node)]

/-- Complete an unmatched pair with a padding sibling
(single_threaded_builder.rs lines 101-115); `none` models the
`(None, None)` panic. -/
def padPair {C : Type} (padF : Coordinate → C) : MaybePair C → Option (Node C × Node C)
  | (some l, some r) => some (l, r)
  | (some l, none) => some (l, l.newSiblingPaddingNode padF)
  | (none, some r) => some (r.newSiblingPaddingNode padF, r)
  | (none, none) => none

/-- Build one layer of parents from the current layer's nodes, recording the
store insertions of the paired children. -/
def singleLayerUp {C : Type} (mergeC : C → C → C) (padF : Coordinate → C)
    (nodes : List (Node C)) : Option (StoreList C × List (Node C)) := do
  let pairs := nodes.foldl pairUpStep []
  let matched ← pairs.mapM (padPair padF)
  let inserts := matched.flatMap (fun p => [(p.1.coord, p.1), (p.2.coord, p.2)])
  some (inserts, matched.map (fun p => pairMergeNodes mergeC p.1 p.2))

/-- Iterate `singleLayerUp` for the requested number of layers. -/
def singleLayers {C : Type} (mergeC : C → C → C) (padF : Coordinate → C) :
    ℕ → List (Node C) → Option (StoreList C × List (Node C))
  | 0, nodes => some ([], nodes)
  | k + 1, nodes => do
    let (ins1, next) ← singleLayerUp mergeC padF nodes
    let (ins2, final) ← singleLayers mergeC padF k next
    some (ins1 ++ ins2, final)

/-- `single_threaded_builder::build_tree`: run `height - 1` layer steps, pop
the root, store it.  `none` models the root-extraction panics. -/
def buildTreeSingle {C : Type} (mergeC : C → C → C) (padF : Coordinate → C)
    (nodes : List (Node C)) (height : ℕ) : Option (StoreList C × Node C) := do
  let (ins, final) ← singleLayers mergeC padF (height - 1) nodes
  match final with
  | [root] => some ((root.coord, root) :: ins, root)
  | _ => none

-- -----------------------------------------------------------------------------------------------
-- Properties of the canonical tree and of sorted leaf lists.

section CanonicalLemmas

variable {C : Type} (mergeC : C → C → C) (padF : Coordinate → C)

/-- The canonical node at `(y, x)` carries coordinate `(y, x)`. -/
theorem canonicalNode_coord (l : List (Node C)) (y x : ℕ) :
    (canonicalNode mergeC padF l y x).coord = ⟨y, x⟩ := by
  cases y with
  | zero =>
    unfold canonicalNode
    cases l.find? (fun n => decide (n.coord.x = x)) <;> rfl
  | succ y =>
    unfold canonicalNode
    by_cases h : (leavesInRange l (x * 2 ^ (y + 1)) (2 ^ (y + 1))).isEmpty
    · simp [h]
    · have hc := canonicalNode_coord l y (2 * x)
      have hx : 2 * x / 2 = x := by omega
      simp only [h, Bool.false_eq_true, if_false, pairMergeNodes, hc, hx]

theorem mem_leavesInRange (l : List (Node C)) (lo size : ℕ) (n : Node C) :
    n ∈ leavesInRange l lo size ↔ n ∈ l ∧ lo ≤ n.coord.x ∧ n.coord.x < lo + size := by
  simp [leavesInRange, List.mem_filter, and_assoc]

/-- Strictly increasing x-coords. -/
def XSorted (l : List (Node C)) : Prop :=
  l.Pairwise (fun a b => a.coord.x < b.coord.x)

theorem XSorted.leavesInRange {l : List (Node C)} (h : XSorted l) (lo size : ℕ) :
    XSorted (Dapol.leavesInRange l lo size) :=
  List.Pairwise.filter _ h

/-- A strictly x-sorted list whose x-coords all lie in a window of size `k`
has at most `k` elements. -/
theorem xsorted_window_length {l : List (Node C)} (hs : XSorted l) :
    ∀ (lo k : ℕ), (∀ n ∈ l, lo ≤ n.coord.x ∧ n.coord.x < lo + k) → l.length ≤ k := by
  induction l with
  | nil => intro lo k _; simp
  | cons a t ih =>
    intro lo k hw
    have ha := hw a (by simp)
    have hk : 1 ≤ k := by omega
    have hs' : XSorted t := (List.pairwise_cons.mp hs).2
    have hlt := (List.pairwise_cons.mp hs).1
    have : t.length ≤ k - 1 := by
      refine ih hs' (a.coord.x + 1) (k - 1) ?_
      intro n hn
      have h1 := hlt n hn
      have h2 := hw n (by simp [hn])
      omega
    simp only [List.length_cons]
    omega

/-- Splitting a range filter of a sorted list at an intermediate point. -/
theorem leavesInRange_split {l : List (Node C)} (hs : XSorted l) (lo s1 s2 : ℕ) :
    leavesInRange l lo (s1 + s2) =
      leavesInRange l lo s1 ++ leavesInRange l (lo + s1) s2 := by
  induction l with
  | nil => simp [leavesInRange]
  | cons a t ih =>
    have hs' : XSorted t := (List.pairwise_cons.mp hs).2
    have hlt := (List.pairwise_cons.mp hs).1
    by_cases h1 : lo ≤ a.coord.x ∧ a.coord.x < lo + s1
    · -- `a` goes in the first chunk
      simp only [leavesInRange, List.filter_cons] at *
      have c1 : (decide (lo ≤ a.coord.x) && decide (a.coord.x < lo + (s1 + s2))) = true := by
        simp; omega
      have c2 : (decide (lo ≤ a.coord.x) && decide (a.coord.x < lo + s1)) = true := by
        simp; omega
      have c3 : (decide (lo + s1 ≤ a.coord.x) && decide (a.coord.x < lo + s1 + s2)) = false := by
        simp; omega
      simp only [c1, c2, c3, if_true, if_false, cond_true, cond_false]
      rw [ih hs']
      simp
    · by_cases h2 : lo + s1 ≤ a.coord.x ∧ a.coord.x < lo + s1 + s2
      · -- `a` goes in the second chunk; first chunk of the tail is empty
        have hfirst : leavesInRange t lo s1 = [] := by
          simp only [leavesInRange, List.filter_eq_nil_iff]
          intro n hn
          have := hlt n hn
          simp; omega
        have hfirsta : leavesInRange (a :: t) lo s1 = [] := by
          simp only [leavesInRange, List.filter_cons]
          have c2 : (decide (lo ≤ a.coord.x) && decide (a.coord.x < lo + s1)) = false := by
            simp; omega
          simp only [c2, cond_false]
          exact hfirst
        have hrest : leavesInRange t lo (s1 + s2) = leavesInRange t (lo + s1) s2 := by
          unfold leavesInRange
          apply List.filter_congr
          intro n hn
          have := hlt n hn
          rw [Bool.eq_iff_iff]
          simp
          omega
        simp only [leavesInRange, List.filter_cons] at *
        have c1 : (decide (lo ≤ a.coord.x) && decide (a.coord.x < lo + (s1 + s2))) = true := by
          simp; omega
        have c3 : (decide (lo + s1 ≤ a.coord.x) && decide (a.coord.x < lo + s1 + s2)) = true := by
          simp; omega
        simp only [c1, c3, cond_true, cond_false] at *
        rw [hfirsta]
        simp only [List.nil_append]
        rw [hrest]
      · -- `a` is outside the whole range
        simp only [leavesInRange, List.filter_cons] at *
        have c1 : (decide (lo ≤ a.coord.x) && decide (a.coord.x < lo + (s1 + s2))) = false := by
          simp; omega
        have c2 : (decide (lo ≤ a.coord.x) && decide (a.coord.x < lo + s1)) = false := by
          simp; omega
        have c3 : (decide (lo + s1 ≤ a.coord.x) && decide (a.coord.x < lo + s1 + s2)) = false := by
          simp; omega
        simp only [c1, c2, c3, cond_false]
        exact ih hs'

/-- The part of a layer's node list with x-coord at most `mid`. -/
def leFilter (mid : ℕ) (l : List (Node C)) : List (Node C) :=
  l.filter (fun n => decide (n.coord.x ≤ mid))

/-- The part of a layer's node list with x-coord above `mid`. -/
def gtFilter (mid : ℕ) (l : List (Node C)) : List (Node C) :=
  l.filter (fun n => !decide (n.coord.x ≤ mid))

theorem le_gt_filter_append (mid : ℕ) {l : List (Node C)} (hs : XSorted l) :
    leFilter mid l ++ gtFilter mid l = l := by
  induction l with
  | nil => rfl
  | cons a t ih =>
    have hs' : XSorted t := (List.pairwise_cons.mp hs).2
    have hlt := (List.pairwise_cons.mp hs).1
    by_cases ha : a.coord.x ≤ mid
    · have h1 : leFilter mid (a :: t) = a :: leFilter mid t := by
        simp [leFilter, List.filter_cons, ha]
      have h2 : gtFilter mid (a :: t) = gtFilter mid t := by
        simp [gtFilter, List.filter_cons, ha]
      rw [h1, h2, List.cons_append, ih hs']
    · have hle : leFilter mid t = [] := by
        simp only [leFilter, List.filter_eq_nil_iff]
        intro n hn
        have := hlt n hn
        simp; omega
      have h1 : leFilter mid (a :: t) = leFilter mid t := by
        simp [leFilter, List.filter_cons, ha]
      have h2 : gtFilter mid (a :: t) = a :: gtFilter mid t := by
        simp [gtFilter, List.filter_cons, ha]
      have h3 : gtFilter mid t = t := by
        have h4 := ih hs'
        rw [hle, List.nil_append] at h4
        exact h4
      rw [h1, hle, List.nil_append, h2, h3]

theorem rposition_le_eq (mid : ℕ) {l : List (Node C)} (hs : XSorted l) :
    rposition (fun n => decide (n.coord.x ≤ mid)) l =
      match (leFilter mid l).length with
      | 0 => none
      | k + 1 => some k := by
  induction l with
  | nil => rfl
  | cons a t ih =>
    have hs' : XSorted t := (List.pairwise_cons.mp hs).2
    have hlt := (List.pairwise_cons.mp hs).1
    have iht := ih hs'
    by_cases ha : a.coord.x ≤ mid
    · have h1 : leFilter mid (a :: t) = a :: leFilter mid t := by
        simp [leFilter, List.filter_cons, ha]
      simp only [rposition, iht, h1, List.length_cons]
      rcases hlen : (leFilter mid t).length with _ | k
      · simp [hlen, ha]
      · simp [hlen]
    · have hle : leFilter mid t = [] := by
        simp only [leFilter, List.filter_eq_nil_iff]
        intro n hn
        have := hlt n hn
        simp; omega
      have h1 : leFilter mid (a :: t) = leFilter mid t := by
        simp [leFilter, List.filter_cons, ha]
      simp only [rposition, iht, h1, hle]
      simp [ha]

theorem numNodesLeftOf_empty_iff (mid : ℕ) {l : List (Node C)} (hs : XSorted l) :
    numNodesLeftOf mid l = .empty ↔ leFilter mid l = [] := by
  unfold numNodesLeftOf
  rw [rposition_le_eq mid hs]
  rcases hlen : (leFilter mid l).length with _ | k
  · have : leFilter mid l = [] := List.length_eq_zero.mp hlen
    simp [hlen, this]
  · have hne : leFilter mid l ≠ [] := by
      intro h
      rw [h] at hlen
      simp at hlen
    simp only []
    constructor
    · intro h
      split at h <;> simp_all
    · intro h
      exact absurd h hne

theorem numNodesLeftOf_full (mid : ℕ) {l : List (Node C)} (hs : XSorted l)
    (h : numNodesLeftOf mid l = .full) : gtFilter mid l = [] := by
  unfold numNodesLeftOf at h
  rw [rposition_le_eq mid hs] at h
  rcases hlen : (leFilter mid l).length with _ | k
  · rw [hlen] at h; simp at h
  · rw [hlen] at h
    simp only [] at h
    split at h
    · rename_i hk
      have happ := le_gt_filter_append mid hs
      have hsum : (leFilter mid l).length + (gtFilter mid l).length = l.length := by
        have h5 := congrArg List.length happ
        simpa using h5
      have : (gtFilter mid l).length = 0 := by omega
      exact List.length_eq_zero.mp this
    · simp at h

theorem numNodesLeftOf_split (mid : ℕ) {l : List (Node C)} (hs : XSorted l) {i : ℕ}
    (h : numNodesLeftOf mid l = .split i) :
    l.take (i + 1) = leFilter mid l ∧ l.drop (i + 1) = gtFilter mid l ∧
      leFilter mid l ≠ [] ∧ gtFilter mid l ≠ [] := by
  unfold numNodesLeftOf at h
  rw [rposition_le_eq mid hs] at h
  rcases hlen : (leFilter mid l).length with _ | k
  · rw [hlen] at h; simp at h
  · rw [hlen] at h
    simp only [] at h
    split at h
    · simp at h
    · rename_i hk
      have hik : i = k := by
        have := h
        simp at this
        omega
      subst hik
      have happ := le_gt_filter_append mid hs
      have hsum : (leFilter mid l).length + (gtFilter mid l).length = l.length := by
        have h5 := congrArg List.length happ
        simpa using h5
      have htake : l.take (i + 1) = leFilter mid l := by
        conv_lhs => rw [← happ]
        rw [← hlen, List.take_left]
      have hdrop : l.drop (i + 1) = gtFilter mid l := by
        conv_lhs => rw [← happ]
        rw [← hlen, List.drop_left]
      refine ⟨htake, hdrop, ?_, ?_⟩
      · intro hnil; rw [hnil] at hlen; simp at hlen
      · intro hnil
        rw [hnil] at hsum
        simp at hsum
        omega

/-- Two leaves of a strictly x-sorted list with the same x-coord are the
same leaf. -/
theorem xsorted_inj {l : List (Node C)} (hs : XSorted l) :
    ∀ a ∈ l, ∀ b ∈ l, a.coord.x = b.coord.x → a = b := by
  induction l with
  | nil => intro a ha; simp at ha
  | cons c t ih =>
    have hs' : XSorted t := (List.pairwise_cons.mp hs).2
    have hlt := (List.pairwise_cons.mp hs).1
    intro a ha b hb hab
    rcases List.mem_cons.mp ha with rfl | ha' <;>
      rcases List.mem_cons.mp hb with rfl | hb'
    · rfl
    · have := hlt b hb'; omega
    · have := hlt a ha'; omega
    · exact ih hs' a ha' b hb' hab

/-- The canonical bottom-layer node at an occupied position is the leaf
itself. -/
theorem canonicalNode_leaf {l : List (Node C)} (hs : XSorted l)
    (hy0 : ∀ n ∈ l, n.coord.y = 0) {n : Node C} (hn : n ∈ l) :
    canonicalNode mergeC padF l 0 n.coord.x = n := by
  unfold canonicalNode
  have hex : ∃ m ∈ l, (fun m => decide (m.coord.x = n.coord.x)) m = true :=
    ⟨n, hn, by simp⟩
  rcases Option.isSome_iff_exists.mp (List.find?_isSome.mpr hex) with ⟨m, hm⟩
  have hmem := List.mem_of_find?_eq_some hm
  have hpx : m.coord.x = n.coord.x := by
    have := List.find?_some hm
    simpa using this
  have hmn : m = n := xsorted_inj hs m hmem n hn hpx
  rw [hm, hmn]
  have hy := hy0 n hn
  cases n with
  | mk c cont =>
    cases c with
    | mk cy cx => simp at hy ⊢; omega

/-- The canonical bottom-layer node at an unoccupied position is a padding
node. -/
theorem canonicalNode_leaf_pad (l : List (Node C)) (x : ℕ)
    (hnone : ∀ n ∈ l, n.coord.x ≠ x) :
    canonicalNode mergeC padF l 0 x = ⟨⟨0, x⟩, padF ⟨0, x⟩⟩ := by
  unfold canonicalNode
  have : l.find? (fun n => decide (n.coord.x = x)) = none := by
    rw [List.find?_eq_none]
    intro m hm
    simp [hnone m hm]
  rw [this]

/-- The canonical internal node over an empty leaf range is a padding node. -/
theorem canonicalNode_pad (l : List (Node C)) (y x : ℕ) (hy : 1 ≤ y)
    (hempty : leavesInRange l (x * 2 ^ y) (2 ^ y) = []) :
    canonicalNode mergeC padF l y x = ⟨⟨y, x⟩, padF ⟨y, x⟩⟩ := by
  cases y with
  | zero => omega
  | succ y =>
    unfold canonicalNode
    simp [hempty]

/-- The canonical internal node over a non-empty leaf range is the merge of
its two children. -/
theorem canonicalNode_merge (l : List (Node C)) (y x : ℕ) (hy : 1 ≤ y)
    (hne : leavesInRange l (x * 2 ^ y) (2 ^ y) ≠ []) :
    canonicalNode mergeC padF l y x =
      pairMergeNodes mergeC (canonicalNode mergeC padF l (y - 1) (2 * x))
        (canonicalNode mergeC padF l (y - 1) (2 * x + 1)) := by
  cases y with
  | zero => omega
  | succ y =>
    simp only [Nat.add_sub_cancel]
    have hcond : ¬ (leavesInRange l (x * 2 ^ (y + 1)) (2 ^ (y + 1))).isEmpty = true := by
      simpa [List.isEmpty_iff] using hne
    conv_lhs => rw [canonicalNode]
    simp only [hcond, Bool.false_eq_true, if_false]

end CanonicalLemmas

-- -----------------------------------------------------------------------------------------------
-- Canonical recursion parameters and their arithmetic.

/-- The recursion parameters that the multi-threaded builder carries at the
subtree rooted at `(y, x)`. -/
def canonParams (h sd y x : ℕ) : RecursionParams :=
  { xMin := x * 2 ^ y
    xMid := x * 2 ^ y + 2 ^ (y - 1) - 1
    xMax := x * 2 ^ y + 2 ^ y - 1
    y := y
    height := h
    storeDepth := sd }

theorem canonParams_intoLeftChild (h sd y x : ℕ) (hy : 2 ≤ y) :
    (canonParams h sd y x).intoLeftChild = canonParams h sd (y - 1) (2 * x) := by
  obtain ⟨k, rfl⟩ : ∃ k, y = k + 2 := ⟨y - 2, by omega⟩
  simp only [canonParams, RecursionParams.intoLeftChild, RecursionParams.mk.injEq]
  simp only [show k + 2 - 1 = k + 1 by omega, show k + 1 - 1 = k by omega]
  obtain ⟨p, hp0, hp1, hp2, hp4⟩ :
      ∃ p, (2 : ℕ) ^ k = p ∧ 1 ≤ p ∧ (2 : ℕ) ^ (k + 1) = 2 * p ∧ (2 : ℕ) ^ (k + 2) = 4 * p :=
    ⟨2 ^ k, rfl, Nat.one_le_two_pow, by ring, by ring⟩
  rw [hp2, hp4, hp0]
  refine ⟨by ring, ?_, by rw [show x * (4 * p) = 2 * x * (2 * p) from by ring], trivial, trivial,
    trivial⟩
  have h1 : x * (4 * p) = 4 * (x * p) := by ring
  have h2 : 2 * x * (2 * p) = 4 * (x * p) := by ring
  rw [h1, h2]
  generalize x * p = u
  omega

theorem canonParams_intoRightChild (h sd y x : ℕ) (hy : 2 ≤ y) :
    (canonParams h sd y x).intoRightChild = canonParams h sd (y - 1) (2 * x + 1) := by
  obtain ⟨k, rfl⟩ : ∃ k, y = k + 2 := ⟨y - 2, by omega⟩
  simp only [canonParams, RecursionParams.intoRightChild, RecursionParams.mk.injEq]
  simp only [show k + 2 - 1 = k + 1 by omega, show k + 1 - 1 = k by omega]
  obtain ⟨p, hp0, hp1, hp2, hp4⟩ :
      ∃ p, (2 : ℕ) ^ k = p ∧ 1 ≤ p ∧ (2 : ℕ) ^ (k + 1) = 2 * p ∧ (2 : ℕ) ^ (k + 2) = 4 * p :=
    ⟨2 ^ k, rfl, Nat.one_le_two_pow, by ring, by ring⟩
  rw [hp2, hp4, hp0]
  have h1 : x * (4 * p) = 4 * (x * p) := by ring
  have h2 : (2 * x + 1) * (2 * p) = 4 * (x * p) + 2 * p := by ring
  rw [h1, h2]
  refine ⟨?_, ?_, ?_, trivial, trivial, trivial⟩ <;>
    · generalize x * p = u
      omega

-- -----------------------------------------------------------------------------------------------
-- Unfolding lemmas for the recursive builder.

theorem pow_and_pred (y : ℕ) : ((2:ℕ) ^ y) &&& (2 ^ y - 1) = 0 := by
  rw [Nat.and_pow_two_sub_one_eq_mod]
  exact Nat.mod_self _

theorem canonParams_guard_xMin (h sd y x : ℕ) (hy : 1 ≤ y) :
    (canonParams h sd y x).xMin % 2 = 0 := by
  simp only [canonParams]
  obtain ⟨k, rfl⟩ : ∃ k, y = k + 1 := ⟨y - 1, by omega⟩
  rw [pow_succ]
  have e : x * (2 ^ k * 2) = 2 * (x * 2 ^ k) := by ring
  rw [e]
  generalize x * 2 ^ k = u
  omega

theorem canonParams_guard_xMax (h sd y x : ℕ) (hy : 1 ≤ y) :
    (canonParams h sd y x).xMax % 2 = 1 := by
  simp only [canonParams]
  obtain ⟨k, rfl⟩ : ∃ k, y = k + 1 := ⟨y - 1, by omega⟩
  rw [pow_succ]
  have : 1 ≤ (2:ℕ)^k := Nat.one_le_two_pow
  generalize (2:ℕ)^k = p at *
  have e : x * (p * 2) = 2 * (x * p) := by ring
  rw [e]
  generalize x * p = u
  omega

theorem canonParams_guard_pow (h sd y x : ℕ) :
    ((canonParams h sd y x).xMax - (canonParams h sd y x).xMin + 1) &&&
      ((canonParams h sd y x).xMax - (canonParams h sd y x).xMin + 1 - 1) = 0 := by
  simp only [canonParams]
  have : 1 ≤ (2:ℕ)^y := Nat.one_le_two_pow
  have e : x * 2 ^ y + 2 ^ y - 1 - x * 2 ^ y + 1 = 2 ^ y := by omega
  rw [e]
  exact pow_and_pred y

theorem buildNodeGo_two {C : Type} (mergeC : C → C → C) (padF : Coordinate → C)
    (spawn : RecursionParams → Bool) (params : RecursionParams) (l r : Node C)
    (h1 : 2 ≤ 2 ^ params.y)
    (h3 : params.xMin % 2 = 0) (h4 : params.xMax % 2 = 1)
    (h5 : (params.xMax - params.xMin + 1) &&& (params.xMax - params.xMin + 1 - 1) = 0) :
    buildNodeGo mergeC padF spawn 1 params [l, r] =
      some ([(l.coord, l), (r.coord, r)],
        pairMergeNodes mergeC (matchedPairOf l r).1 (matchedPairOf l r).2) := by
  rw [buildNodeGo.eq_def]
  rw [if_neg (by simp only [List.length_cons, List.length_nil]; omega), if_neg (by simp),
    if_neg (by omega), if_neg (by omega), if_neg (by omega)]

theorem buildNodeGo_one {C : Type} (mergeC : C → C → C) (padF : Coordinate → C)
    (spawn : RecursionParams → Bool) (params : RecursionParams) (node : Node C)
    (h1 : 1 ≤ 2 ^ params.y)
    (h3 : params.xMin % 2 = 0) (h4 : params.xMax % 2 = 1)
    (h5 : (params.xMax - params.xMin + 1) &&& (params.xMax - params.xMin + 1 - 1) = 0) :
    buildNodeGo mergeC padF spawn 1 params [node] =
      some ((if params.storeDepth = params.height then
          [(node.coord, node),
            ((node.newSiblingPaddingNode padF).coord, node.newSiblingPaddingNode padF)]
        else [(node.coord, node)]),
        pairMergeNodes mergeC (matchedPairOf node (node.newSiblingPaddingNode padF)).1
          (matchedPairOf node (node.newSiblingPaddingNode padF)).2) := by
  rw [buildNodeGo.eq_def]
  rw [if_neg (by simp only [List.length_cons, List.length_nil]; omega), if_neg (by simp),
    if_neg (by omega), if_neg (by omega), if_neg (by omega)]

theorem buildNodeGo_split_case {C : Type} (mergeC : C → C → C) (padF : Coordinate → C)
    (spawn : RecursionParams → Bool) (yl : ℕ) (params : RecursionParams)
    (leaves : List (Node C)) (i : ℕ)
    (h1 : leaves.length ≤ 2 ^ params.y) (h2 : leaves.length ≠ 0)
    (h3 : params.xMin % 2 = 0) (h4 : params.xMax % 2 = 1)
    (h5 : (params.xMax - params.xMin + 1) &&& (params.xMax - params.xMin + 1 - 1) = 0)
    (hnn : numNodesLeftOf params.xMid leaves = .split i) :
    buildNodeGo mergeC padF spawn (yl + 2) params leaves =
      (if spawn params then
        match buildNodeGo mergeC padF spawn (yl + 1) params.intoRightChild (leaves.drop (i + 1)),
            buildNodeGo mergeC padF spawn (yl + 1) params.intoLeftChild (leaves.take (i + 1)) with
        | some (insR, right), some (insL, left) =>
          some (insL ++ insR ++
            (if params.height - params.storeDepth < params.y then
              [((matchedPairOf left right).1.coord, (matchedPairOf left right).1),
                ((matchedPairOf left right).2.coord, (matchedPairOf left right).2)]
            else []),
            pairMergeNodes mergeC (matchedPairOf left right).1 (matchedPairOf left right).2)
        | _, _ => none
      else
        match buildNodeGo mergeC padF spawn (yl + 1) params.intoRightChild (leaves.drop (i + 1)),
            buildNodeGo mergeC padF spawn (yl + 1) params.intoLeftChild (leaves.take (i + 1)) with
        | some (insR, right), some (insL, left) =>
          some (insR ++ insL ++
            (if params.height - params.storeDepth < params.y then
              [((matchedPairOf left right).1.coord, (matchedPairOf left right).1),
                ((matchedPairOf left right).2.coord, (matchedPairOf left right).2)]
            else []),
            pairMergeNodes mergeC (matchedPairOf left right).1 (matchedPairOf left right).2)
        | _, _ => none) := by
  rw [buildNodeGo.eq_def]
  rw [if_neg (by omega), if_neg h2, if_neg (by omega), if_neg (by omega), if_neg (by omega)]
  simp only [hnn]

theorem buildNodeGo_full_case {C : Type} (mergeC : C → C → C) (padF : Coordinate → C)
    (spawn : RecursionParams → Bool) (yl : ℕ) (params : RecursionParams)
    (leaves : List (Node C))
    (h1 : leaves.length ≤ 2 ^ params.y) (h2 : leaves.length ≠ 0)
    (h3 : params.xMin % 2 = 0) (h4 : params.xMax % 2 = 1)
    (h5 : (params.xMax - params.xMin + 1) &&& (params.xMax - params.xMin + 1 - 1) = 0)
    (hnn : numNodesLeftOf params.xMid leaves = .full) :
    buildNodeGo mergeC padF spawn (yl + 2) params leaves =
      match buildNodeGo mergeC padF spawn (yl + 1) params.intoLeftChild leaves with
      | some (insL, left) =>
        some (insL ++
          (if params.height - params.storeDepth < params.y then
            [((matchedPairOf left (left.newSiblingPaddingNode padF)).1.coord,
                (matchedPairOf left (left.newSiblingPaddingNode padF)).1),
              ((matchedPairOf left (left.newSiblingPaddingNode padF)).2.coord,
                (matchedPairOf left (left.newSiblingPaddingNode padF)).2)]
          else []),
          pairMergeNodes mergeC (matchedPairOf left (left.newSiblingPaddingNode padF)).1
            (matchedPairOf left (left.newSiblingPaddingNode padF)).2)
      | none => none := by
  rw [buildNodeGo.eq_def]
  rw [if_neg (by omega), if_neg h2, if_neg (by omega), if_neg (by omega), if_neg (by omega)]
  simp only [hnn]

theorem buildNodeGo_empty_case {C : Type} (mergeC : C → C → C) (padF : Coordinate → C)
    (spawn : RecursionParams → Bool) (yl : ℕ) (params : RecursionParams)
    (leaves : List (Node C))
    (h1 : leaves.length ≤ 2 ^ params.y) (h2 : leaves.length ≠ 0)
    (h3 : params.xMin % 2 = 0) (h4 : params.xMax % 2 = 1)
    (h5 : (params.xMax - params.xMin + 1) &&& (params.xMax - params.xMin + 1 - 1) = 0)
    (hnn : numNodesLeftOf params.xMid leaves = .empty) :
    buildNodeGo mergeC padF spawn (yl + 2) params leaves =
      match buildNodeGo mergeC padF spawn (yl + 1) params.intoRightChild leaves with
      | some (insR, right) =>
        some (insR ++
          (if params.height - params.storeDepth < params.y then
            [((matchedPairOf right (right.newSiblingPaddingNode padF)).1.coord,
                (matchedPairOf right (right.newSiblingPaddingNode padF)).1),
              ((matchedPairOf right (right.newSiblingPaddingNode padF)).2.coord,
                (matchedPairOf right (right.newSiblingPaddingNode padF)).2)]
          else []),
          pairMergeNodes mergeC (matchedPairOf right (right.newSiblingPaddingNode padF)).1
            (matchedPairOf right (right.newSiblingPaddingNode padF)).2)
      | none => none := by
  rw [buildNodeGo.eq_def]
  rw [if_neg (by omega), if_neg h2, if_neg (by omega), if_neg (by omega), if_neg (by omega)]
  simp only [hnn]

section MainInduction

variable {C : Type} (mergeC : C → C → C) (padF : Coordinate → C) (spawn : RecursionParams → Bool)

/-- The statement of the builder/canonical-tree correspondence: the build of
the subtree rooted at `(y, x)` succeeds, returns the canonical node, and its
store insertions are canonical nodes at their own coordinates, contain every
leaf of the subtree, and contain bottom-layer nodes beyond the subtree's
leaves only at full store depth. -/
def BuildInv (allLeaves : List (Node C)) (h sd y x : ℕ) (leaves : List (Node C)) : Prop :=
  ∃ ins,
    buildNodeGo mergeC padF spawn y (canonParams h sd y x) leaves =
      some (ins, canonicalNode mergeC padF allLeaves y x) ∧
    (∀ q ∈ ins, q.2.coord = q.1 ∧ q.2 = canonicalNode mergeC padF allLeaves q.1.y q.1.x) ∧
    (∀ n ∈ leaves, (n.coord, n) ∈ ins) ∧
    (∀ q ∈ ins, q.1.y = 0 → (q.2 ∈ leaves ∨ sd = h))

theorem buildNode_canonical_base (allLeaves : List (Node C)) (hsort : XSorted allLeaves)
    (hy0 : ∀ n ∈ allLeaves, n.coord.y = 0) (h sd x : ℕ)
    (leaves : List (Node C))
    (hleq : leaves = leavesInRange allLeaves (x * 2 ^ 1) (2 ^ 1))
    (hne : leaves ≠ []) :
    BuildInv mergeC padF spawn allLeaves h sd 1 x leaves := by
  have hls : XSorted leaves := by rw [hleq]; exact hsort.leavesInRange _ _
  have hlw : ∀ n ∈ leaves, x * 2 ^ 1 ≤ n.coord.x ∧ n.coord.x < x * 2 ^ 1 + 2 ^ 1 := by
    intro n hn
    rw [hleq] at hn
    exact ((mem_leavesInRange _ _ _ _).mp hn).2
  have hmem : ∀ n ∈ leaves, n ∈ allLeaves := by
    intro n hn
    rw [hleq] at hn
    exact ((mem_leavesInRange _ _ _ _).mp hn).1
  have hyl : ∀ n ∈ leaves, n.coord.y = 0 := fun n hn => hy0 n (hmem n hn)
  have hlen : leaves.length ≤ 2 ^ 1 := xsorted_window_length hls _ _ hlw
  -- the leaf coordinates of `allLeaves` inside the window are exactly those of `leaves`
  have hwin : ∀ n ∈ allLeaves, x * 2 ≤ n.coord.x → n.coord.x < x * 2 + 2 → n ∈ leaves := by
    intro n hn h1 h2
    rw [hleq]
    rw [mem_leavesInRange]
    constructor
    · exact hn
    · constructor <;> omega
  have hrange : leavesInRange allLeaves (x * 2 ^ 1) (2 ^ 1) ≠ [] := by rw [← hleq]; exact hne
  have hcanon := canonicalNode_merge mergeC padF allLeaves 1 x (by omega) hrange
  simp only [show (1:ℕ) - 1 = 0 from rfl] at hcanon
  have g1 : (1:ℕ) ≤ 2 ^ (canonParams h sd 1 x).y := by simp [canonParams]
  have g1' : (2:ℕ) ≤ 2 ^ (canonParams h sd 1 x).y := by simp [canonParams]
  have g3 := canonParams_guard_xMin h sd 1 x (by omega)
  have g4 := canonParams_guard_xMax h sd 1 x (by omega)
  have g5 := canonParams_guard_pow h sd 1 x
  match leaves, hne with
  | [a], _ =>
    have hax := hlw a (by simp)
    have hay := hyl a (by simp)
    have hamem := hmem a (by simp)
    simp only [pow_one] at hax
    have hacoord : a.coord = ⟨0, a.coord.x⟩ := by
      cases hc : a.coord with
      | mk cy cx =>
        rw [hc] at hay
        simp at hay
        simp [hay]
    unfold BuildInv
    rw [buildNodeGo_one mergeC padF spawn (canonParams h sd 1 x) a g1 g3 g4 g5]
    simp only [canonParams]
    by_cases hpar : a.coord.x % 2 = 0
    -- even leaf: `a` sits at 2x, padding sibling at 2x + 1
    · have hax2 : a.coord.x = 2 * x := by omega
      have hsib : a.newSiblingPaddingNode padF = ⟨⟨0, 2 * x + 1⟩, padF ⟨0, 2 * x + 1⟩⟩ := by
        unfold Node.newSiblingPaddingNode Coordinate.siblingCoord
        rw [hacoord]
        simp [hpar, hax2]
      have hcleft : canonicalNode mergeC padF allLeaves 0 (2 * x) = a := by
        have h6 := canonicalNode_leaf mergeC padF hsort hy0 hamem
        rw [hax2] at h6
        exact h6
      have hcright : canonicalNode mergeC padF allLeaves 0 (2 * x + 1) =
          ⟨⟨0, 2 * x + 1⟩, padF ⟨0, 2 * x + 1⟩⟩ := by
        apply canonicalNode_leaf_pad
        intro n hn hnx
        have h7 : n ∈ [a] := hwin n hn (by omega) (by omega)
        simp at h7
        rw [h7] at hnx
        omega
      have hpair : matchedPairOf a (a.newSiblingPaddingNode padF) =
          (a, a.newSiblingPaddingNode padF) := by
        unfold matchedPairOf
        simp [hpar]
      have hca : canonicalNode mergeC padF allLeaves a.coord.y a.coord.x = a := by
        rw [hay, hax2]
        exact hcleft
      refine ⟨if sd = h then
          [(a.coord, a),
            ((a.newSiblingPaddingNode padF).coord, a.newSiblingPaddingNode padF)]
        else [(a.coord, a)], ?_, ?_, ?_, ?_⟩
      · rw [hpair]
        simp only []
        rw [hcanon, hcleft, hcright, hsib]
      · intro q hq
        by_cases hsd : sd = h
        · rw [if_pos hsd] at hq
          simp only [List.mem_cons, List.not_mem_nil, or_false] at hq
          rcases hq with hq | hq
          · rw [hq]
            exact ⟨rfl, hca.symm⟩
          · rw [hq, hsib]
            exact ⟨rfl, hcright.symm⟩
        · rw [if_neg hsd] at hq
          simp only [List.mem_cons, List.not_mem_nil, or_false] at hq
          rw [hq]
          exact ⟨rfl, hca.symm⟩
      · intro n hn
        simp only [List.mem_cons, List.not_mem_nil, or_false] at hn
        subst hn
        by_cases hsd : sd = h
        · rw [if_pos hsd]; simp
        · rw [if_neg hsd]; simp
      · intro q hq hqy
        by_cases hsd : sd = h
        · right; exact hsd
        · rw [if_neg hsd] at hq
          simp only [List.mem_cons, List.not_mem_nil, or_false] at hq
          left
          rw [hq]
          simp
    -- odd leaf: `a` sits at 2x + 1, padding sibling at 2x
    · have hax2 : a.coord.x = 2 * x + 1 := by omega
      have hsib : a.newSiblingPaddingNode padF = ⟨⟨0, 2 * x⟩, padF ⟨0, 2 * x⟩⟩ := by
        unfold Node.newSiblingPaddingNode Coordinate.siblingCoord
        rw [hacoord, hax2]
        have hodd : ¬ ((2 * x + 1) % 2 = 0) := by omega
        simp [hodd]
      have hcright : canonicalNode mergeC padF allLeaves 0 (2 * x + 1) = a := by
        have h6 := canonicalNode_leaf mergeC padF hsort hy0 hamem
        rw [hax2] at h6
        exact h6
      have hcleft : canonicalNode mergeC padF allLeaves 0 (2 * x) =
          ⟨⟨0, 2 * x⟩, padF ⟨0, 2 * x⟩⟩ := by
        apply canonicalNode_leaf_pad
        intro n hn hnx
        have h7 : n ∈ [a] := hwin n hn (by omega) (by omega)
        simp at h7
        rw [h7] at hnx
        omega
      have hpair : matchedPairOf a (a.newSiblingPaddingNode padF) =
          (a.newSiblingPaddingNode padF, a) := by
        unfold matchedPairOf
        simp [hpar]
      have hca : canonicalNode mergeC padF allLeaves a.coord.y a.coord.x = a := by
        rw [hay, hax2]
        exact hcright
      refine ⟨if sd = h then
          [(a.coord, a),
            ((a.newSiblingPaddingNode padF).coord, a.newSiblingPaddingNode padF)]
        else [(a.coord, a)], ?_, ?_, ?_, ?_⟩
      · rw [hpair]
        simp only []
        rw [hcanon, hcleft, hcright, hsib]
      · intro q hq
        by_cases hsd : sd = h
        · rw [if_pos hsd] at hq
          simp only [List.mem_cons, List.not_mem_nil, or_false] at hq
          rcases hq with hq | hq
          · rw [hq]
            exact ⟨rfl, hca.symm⟩
          · rw [hq, hsib]
            exact ⟨rfl, hcleft.symm⟩
        · rw [if_neg hsd] at hq
          simp only [List.mem_cons, List.not_mem_nil, or_false] at hq
          rw [hq]
          exact ⟨rfl, hca.symm⟩
      · intro n hn
        simp only [List.mem_cons, List.not_mem_nil, or_false] at hn
        subst hn
        by_cases hsd : sd = h
        · rw [if_pos hsd]; simp
        · rw [if_neg hsd]; simp
      · intro q hq hqy
        by_cases hsd : sd = h
        · right; exact hsd
        · rw [if_neg hsd] at hq
          simp only [List.mem_cons, List.not_mem_nil, or_false] at hq
          left
          rw [hq]
          simp
  | [a, b], _ =>
    have hax := hlw a (by simp)
    have hbx := hlw b (by simp)
    have hay := hyl a (by simp)
    have hby := hyl b (by simp)
    have hamem := hmem a (by simp)
    have hbmem := hmem b (by simp)
    simp only [pow_one] at hax hbx
    have hab : a.coord.x < b.coord.x := by
      have := (List.pairwise_cons.mp hls).1 b (by simp)
      exact this
    have hax2 : a.coord.x = 2 * x := by omega
    have hbx2 : b.coord.x = 2 * x + 1 := by omega
    have hacoord : a.coord = ⟨0, 2 * x⟩ := by
      cases hc : a.coord with
      | mk cy cx =>
        rw [hc] at hay hax2
        simp at hay hax2
        simp [hay, hax2]
    have hbcoord : b.coord = ⟨0, 2 * x + 1⟩ := by
      cases hc : b.coord with
      | mk cy cx =>
        rw [hc] at hby hbx2
        simp at hby hbx2
        simp [hby, hbx2]
    have hcleft : canonicalNode mergeC padF allLeaves 0 (2 * x) = a := by
      have h6 := canonicalNode_leaf mergeC padF hsort hy0 hamem
      rw [hax2] at h6
      exact h6
    have hcright : canonicalNode mergeC padF allLeaves 0 (2 * x + 1) = b := by
      have h6 := canonicalNode_leaf mergeC padF hsort hy0 hbmem
      rw [hbx2] at h6
      exact h6
    have hpair : matchedPairOf a b = (a, b) := by
      unfold matchedPairOf
      simp [hax2]
    unfold BuildInv
    rw [buildNodeGo_two mergeC padF spawn (canonParams h sd 1 x) a b g1' g3 g4 g5]
    refine ⟨[(a.coord, a), (b.coord, b)], ?_, ?_, ?_, ?_⟩
    · rw [hpair]
      simp only []
      rw [hcanon, hcleft, hcright]
    · intro q hq
      simp only [List.mem_cons, List.not_mem_nil, or_false] at hq
      rcases hq with hq | hq
      · rw [hq]
        refine ⟨rfl, ?_⟩
        rw [hacoord]
        simp only []
        rw [hcleft]
      · rw [hq]
        refine ⟨rfl, ?_⟩
        rw [hbcoord]
        simp only []
        rw [hcright]
    · intro n hn
      simp only [List.mem_cons, List.not_mem_nil, or_false] at hn
      rcases hn with hn | hn <;> subst hn <;> simp
    · intro q hq hqy
      simp only [List.mem_cons, List.not_mem_nil, or_false] at hq
      left
      rcases hq with hq | hq <;> rw [hq] <;> simp
  | a :: b :: c :: t, _ =>
    exfalso
    simp only [List.length_cons, pow_one] at hlen
    omega

/-- The multi-threaded recursive builder computes the canonical tree:
main induction over the subtree height. -/
theorem buildNode_canonical (allLeaves : List (Node C)) (hsort : XSorted allLeaves)
    (hy0 : ∀ n ∈ allLeaves, n.coord.y = 0) (h sd : ℕ) :
    ∀ y, 1 ≤ y → ∀ x leaves,
      leaves = leavesInRange allLeaves (x * 2 ^ y) (2 ^ y) →
      leaves ≠ [] →
      BuildInv mergeC padF spawn allLeaves h sd y x leaves := by
  intro y
  induction y using Nat.strong_induction_on with
  | _ y ih =>
  intro hy x leaves hleq hne
  by_cases hy1 : y = 1
  · subst hy1
    exact buildNode_canonical_base mergeC padF spawn allLeaves hsort hy0 h sd x leaves hleq hne
  obtain ⟨yl, rfl⟩ : ∃ yl, y = yl + 2 := ⟨y - 2, by omega⟩
  clear hy hy1
  have hls : XSorted leaves := by rw [hleq]; exact hsort.leavesInRange _ _
  have hp1 : (1:ℕ) ≤ 2 ^ (yl + 1) := Nat.one_le_two_pow
  have hpow : (2:ℕ) ^ (yl + 2) = 2 ^ (yl + 1) + 2 ^ (yl + 1) := by ring
  have hmid : (canonParams h sd (yl + 2) x).xMid =
      x * 2 ^ (yl + 2) + 2 ^ (yl + 1) - 1 := by
    simp only [canonParams, show yl + 2 - 1 = yl + 1 from by omega]
  -- names for the two child leaf ranges
  have hsplit : leaves = leavesInRange allLeaves (x * 2 ^ (yl + 2)) (2 ^ (yl + 1))
      ++ leavesInRange allLeaves (x * 2 ^ (yl + 2) + 2 ^ (yl + 1)) (2 ^ (yl + 1)) := by
    have hs2 := leavesInRange_split hsort (x * 2 ^ (yl + 2)) (2 ^ (yl + 1)) (2 ^ (yl + 1))
    rw [← hpow] at hs2
    rw [hleq]
    exact hs2
  have hAeq : leavesInRange allLeaves (x * 2 ^ (yl + 2)) (2 ^ (yl + 1))
      = leavesInRange allLeaves (2 * x * 2 ^ (yl + 1)) (2 ^ (yl + 1)) := by
    have e : x * 2 ^ (yl + 2) = 2 * x * 2 ^ (yl + 1) := by ring
    rw [e]
  have hBeq : leavesInRange allLeaves (x * 2 ^ (yl + 2) + 2 ^ (yl + 1)) (2 ^ (yl + 1))
      = leavesInRange allLeaves ((2 * x + 1) * 2 ^ (yl + 1)) (2 ^ (yl + 1)) := by
    have e : x * 2 ^ (yl + 2) + 2 ^ (yl + 1) = (2 * x + 1) * 2 ^ (yl + 1) := by ring
    rw [e]
  have hAw := fun n hn => (mem_leavesInRange allLeaves (x * 2 ^ (yl + 2)) (2 ^ (yl + 1)) n).mp hn
  have hBw := fun n hn =>
    (mem_leavesInRange allLeaves (x * 2 ^ (yl + 2) + 2 ^ (yl + 1)) (2 ^ (yl + 1)) n).mp hn
  have hfLe : leFilter (x * 2 ^ (yl + 2) + 2 ^ (yl + 1) - 1) leaves =
      leavesInRange allLeaves (x * 2 ^ (yl + 2)) (2 ^ (yl + 1)) := by
    rw [hsplit]
    unfold leFilter
    rw [List.filter_append]
    have hA : List.filter (fun n => decide (n.coord.x ≤ x * 2 ^ (yl + 2) + 2 ^ (yl + 1) - 1))
        (leavesInRange allLeaves (x * 2 ^ (yl + 2)) (2 ^ (yl + 1))) =
        leavesInRange allLeaves (x * 2 ^ (yl + 2)) (2 ^ (yl + 1)) := by
      apply List.filter_eq_self.mpr
      intro n hn
      have := (hAw n hn).2
      simp
      omega
    have hB : List.filter (fun n => decide (n.coord.x ≤ x * 2 ^ (yl + 2) + 2 ^ (yl + 1) - 1))
        (leavesInRange allLeaves (x * 2 ^ (yl + 2) + 2 ^ (yl + 1)) (2 ^ (yl + 1))) = [] := by
      apply List.filter_eq_nil_iff.mpr
      intro n hn
      have := (hBw n hn).2
      simp
      omega
    rw [hA, hB, List.append_nil]
  have hfGt : gtFilter (x * 2 ^ (yl + 2) + 2 ^ (yl + 1) - 1) leaves =
      leavesInRange allLeaves (x * 2 ^ (yl + 2) + 2 ^ (yl + 1)) (2 ^ (yl + 1)) := by
    rw [hsplit]
    unfold gtFilter
    rw [List.filter_append]
    have hA : List.filter (fun n => !decide (n.coord.x ≤ x * 2 ^ (yl + 2) + 2 ^ (yl + 1) - 1))
        (leavesInRange allLeaves (x * 2 ^ (yl + 2)) (2 ^ (yl + 1))) = [] := by
      apply List.filter_eq_nil_iff.mpr
      intro n hn
      have := (hAw n hn).2
      simp
      omega
    have hB : List.filter (fun n => !decide (n.coord.x ≤ x * 2 ^ (yl + 2) + 2 ^ (yl + 1) - 1))
        (leavesInRange allLeaves (x * 2 ^ (yl + 2) + 2 ^ (yl + 1)) (2 ^ (yl + 1))) =
        leavesInRange allLeaves (x * 2 ^ (yl + 2) + 2 ^ (yl + 1)) (2 ^ (yl + 1)) := by
      apply List.filter_eq_self.mpr
      intro n hn
      have := (hBw n hn).2
      simp
      omega
    rw [hA, List.nil_append, hB]
  -- guards
  have g1 : leaves.length ≤ 2 ^ (canonParams h sd (yl + 2) x).y := by
    have hlw : ∀ n ∈ leaves,
        x * 2 ^ (yl + 2) ≤ n.coord.x ∧ n.coord.x < x * 2 ^ (yl + 2) + 2 ^ (yl + 2) := by
      intro n hn
      rw [hleq] at hn
      exact ((mem_leavesInRange _ _ _ _).mp hn).2
    have := xsorted_window_length hls _ _ hlw
    simpa [canonParams] using this
  have g2 : leaves.length ≠ 0 := by
    intro h0
    exact hne (List.length_eq_zero.mp h0)
  have g3 := canonParams_guard_xMin h sd (yl + 2) x (by omega)
  have g4 := canonParams_guard_xMax h sd (yl + 2) x (by omega)
  have g5 := canonParams_guard_pow h sd (yl + 2) x
  -- canonical merge at this node
  have hcanon := canonicalNode_merge mergeC padF allLeaves (yl + 2) x (by omega)
    (by rw [← hleq]; exact hne)
  simp only [show yl + 2 - 1 = yl + 1 from by omega] at hcanon
  have hLcoord := canonicalNode_coord mergeC padF allLeaves (yl + 1) (2 * x)
  have hRcoord := canonicalNode_coord mergeC padF allLeaves (yl + 1) (2 * x + 1)
  rcases hnn : numNodesLeftOf (x * 2 ^ (yl + 2) + 2 ^ (yl + 1) - 1) leaves with _ | _ | i
  -- FULL: every leaf is on the left side
  · have hBnil := numNodesLeftOf_full _ hls hnn
    rw [hfGt] at hBnil
    have hAall : leaves = leavesInRange allLeaves (x * 2 ^ (yl + 2)) (2 ^ (yl + 1)) := by
      rw [hsplit, hBnil, List.append_nil]
    obtain ⟨insL, heqL, hcanL, hinL, hy0L⟩ :=
      ih (yl + 1) (by omega) (by omega) (2 * x) leaves (by rw [hAall, hAeq]) hne
    have hnn' : numNodesLeftOf (canonParams h sd (yl + 2) x).xMid leaves = .full := by
      rw [hmid]; exact hnn
    unfold BuildInv
    rw [buildNodeGo_full_case mergeC padF spawn yl (canonParams h sd (yl + 2) x) leaves
      g1 g2 g3 g4 g5 hnn']
    rw [canonParams_intoLeftChild h sd (yl + 2) x (by omega)]
    simp only [show yl + 2 - 1 = yl + 1 from by omega] at heqL ⊢
    simp only [heqL]
    have hsib : (canonicalNode mergeC padF allLeaves (yl + 1) (2 * x)).newSiblingPaddingNode padF
        = canonicalNode mergeC padF allLeaves (yl + 1) (2 * x + 1) := by
      unfold Node.newSiblingPaddingNode Coordinate.siblingCoord
      rw [hLcoord]
      rw [canonicalNode_pad mergeC padF allLeaves (yl + 1) (2 * x + 1) (by omega)
        (by rw [← hBeq]; exact hBnil)]
      have he : (2 * x) % 2 = 0 := by omega
      simp [he]
    have hmp : matchedPairOf (canonicalNode mergeC padF allLeaves (yl + 1) (2 * x))
        (canonicalNode mergeC padF allLeaves (yl + 1) (2 * x + 1)) =
        (canonicalNode mergeC padF allLeaves (yl + 1) (2 * x),
          canonicalNode mergeC padF allLeaves (yl + 1) (2 * x + 1)) := by
      unfold matchedPairOf
      rw [hLcoord]
      have he : (2 * x) % 2 = 0 := by omega
      simp [he]
    rw [hsib, hmp]
    simp only []
    refine ⟨insL ++ (if (canonParams h sd (yl + 2) x).height -
          (canonParams h sd (yl + 2) x).storeDepth < (canonParams h sd (yl + 2) x).y then
        [((canonicalNode mergeC padF allLeaves (yl + 1) (2 * x)).coord,
            canonicalNode mergeC padF allLeaves (yl + 1) (2 * x)),
          ((canonicalNode mergeC padF allLeaves (yl + 1) (2 * x + 1)).coord,
            canonicalNode mergeC padF allLeaves (yl + 1) (2 * x + 1))]
      else []), ?_, ?_, ?_, ?_⟩
    · rw [hcanon]
    · intro q hq
      rcases List.mem_append.mp hq with hq | hq
      · exact hcanL q hq
      · by_cases hw : (canonParams h sd (yl + 2) x).height -
            (canonParams h sd (yl + 2) x).storeDepth < (canonParams h sd (yl + 2) x).y
        · rw [if_pos hw] at hq
          simp only [List.mem_cons, List.not_mem_nil, or_false] at hq
          rcases hq with hq | hq
          · rw [hq, hLcoord]
            exact ⟨rfl, rfl⟩
          · rw [hq, hRcoord]
            exact ⟨rfl, rfl⟩
        · rw [if_neg hw] at hq
          simp at hq
    · intro n hn
      exact List.mem_append_left _ (hinL n hn)
    · intro q hq hqy
      rcases List.mem_append.mp hq with hq | hq
      · exact hy0L q hq hqy
      · exfalso
        by_cases hw : (canonParams h sd (yl + 2) x).height -
            (canonParams h sd (yl + 2) x).storeDepth < (canonParams h sd (yl + 2) x).y
        · rw [if_pos hw] at hq
          simp only [List.mem_cons, List.not_mem_nil, or_false] at hq
          rcases hq with hq | hq
          · rw [hq, hLcoord] at hqy
            simp at hqy
          · rw [hq, hRcoord] at hqy
            simp at hqy
        · rw [if_neg hw] at hq
          simp at hq
  -- EMPTY: every leaf is on the right side
  · have hAnil := (numNodesLeftOf_empty_iff _ hls).mp hnn
    rw [hfLe] at hAnil
    have hBall : leaves =
        leavesInRange allLeaves (x * 2 ^ (yl + 2) + 2 ^ (yl + 1)) (2 ^ (yl + 1)) := by
      rw [hsplit, hAnil, List.nil_append]
    obtain ⟨insR, heqR, hcanR, hinR, hy0R⟩ :=
      ih (yl + 1) (by omega) (by omega) (2 * x + 1) leaves (by rw [hBall, hBeq]) hne
    have hnn' : numNodesLeftOf (canonParams h sd (yl + 2) x).xMid leaves = .empty := by
      rw [hmid]; exact hnn
    unfold BuildInv
    rw [buildNodeGo_empty_case mergeC padF spawn yl (canonParams h sd (yl + 2) x) leaves
      g1 g2 g3 g4 g5 hnn']
    rw [canonParams_intoRightChild h sd (yl + 2) x (by omega)]
    simp only [show yl + 2 - 1 = yl + 1 from by omega] at heqR ⊢
    simp only [heqR]
    have hsib : (canonicalNode mergeC padF allLeaves (yl + 1) (2 * x + 1)).newSiblingPaddingNode
        padF = canonicalNode mergeC padF allLeaves (yl + 1) (2 * x) := by
      unfold Node.newSiblingPaddingNode Coordinate.siblingCoord
      rw [hRcoord]
      rw [canonicalNode_pad mergeC padF allLeaves (yl + 1) (2 * x) (by omega)
        (by rw [← hAeq]; exact hAnil)]
      have ho : ¬ ((2 * x + 1) % 2 = 0) := by omega
      simp [ho]
    have hmp : matchedPairOf (canonicalNode mergeC padF allLeaves (yl + 1) (2 * x + 1))
        (canonicalNode mergeC padF allLeaves (yl + 1) (2 * x)) =
        (canonicalNode mergeC padF allLeaves (yl + 1) (2 * x),
          canonicalNode mergeC padF allLeaves (yl + 1) (2 * x + 1)) := by
      unfold matchedPairOf
      rw [hRcoord]
      have ho : ¬ ((2 * x + 1) % 2 = 0) := by omega
      simp [ho]
    rw [hsib, hmp]
    simp only []
    refine ⟨insR ++ (if (canonParams h sd (yl + 2) x).height -
          (canonParams h sd (yl + 2) x).storeDepth < (canonParams h sd (yl + 2) x).y then
        [((canonicalNode mergeC padF allLeaves (yl + 1) (2 * x)).coord,
            canonicalNode mergeC padF allLeaves (yl + 1) (2 * x)),
          ((canonicalNode mergeC padF allLeaves (yl + 1) (2 * x + 1)).coord,
            canonicalNode mergeC padF allLeaves (yl + 1) (2 * x + 1))]
      else []), ?_, ?_, ?_, ?_⟩
    · rw [hcanon]
    · intro q hq
      rcases List.mem_append.mp hq with hq | hq
      · exact hcanR q hq
      · by_cases hw : (canonParams h sd (yl + 2) x).height -
            (canonParams h sd (yl + 2) x).storeDepth < (canonParams h sd (yl + 2) x).y
        · rw [if_pos hw] at hq
          simp only [List.mem_cons, List.not_mem_nil, or_false] at hq
          rcases hq with hq | hq
          · rw [hq, hLcoord]
            exact ⟨rfl, rfl⟩
          · rw [hq, hRcoord]
            exact ⟨rfl, rfl⟩
        · rw [if_neg hw] at hq
          simp at hq
    · intro n hn
      exact List.mem_append_left _ (hinR n hn)
    · intro q hq hqy
      rcases List.mem_append.mp hq with hq | hq
      · exact hy0R q hq hqy
      · exfalso
        by_cases hw : (canonParams h sd (yl + 2) x).height -
            (canonParams h sd (yl + 2) x).storeDepth < (canonParams h sd (yl + 2) x).y
        · rw [if_pos hw] at hq
          simp only [List.mem_cons, List.not_mem_nil, or_false] at hq
          rcases hq with hq | hq
          · rw [hq, hLcoord] at hqy
            simp at hqy
          · rw [hq, hRcoord] at hqy
            simp at hqy
        · rw [if_neg hw] at hq
          simp at hq
  -- SPLIT: leaves on both sides
  · obtain ⟨htake, hdrop, hAne, hBne⟩ := numNodesLeftOf_split _ hls hnn
    rw [hfLe] at htake hAne
    rw [hfGt] at hdrop hBne
    obtain ⟨insL, heqL, hcanL, hinL, hy0L⟩ :=
      ih (yl + 1) (by omega) (by omega) (2 * x)
        (leavesInRange allLeaves (x * 2 ^ (yl + 2)) (2 ^ (yl + 1))) (by rw [hAeq]) hAne
    obtain ⟨insR, heqR, hcanR, hinR, hy0R⟩ :=
      ih (yl + 1) (by omega) (by omega) (2 * x + 1)
        (leavesInRange allLeaves (x * 2 ^ (yl + 2) + 2 ^ (yl + 1)) (2 ^ (yl + 1)))
        (by rw [hBeq]) hBne
    have hnn' : numNodesLeftOf (canonParams h sd (yl + 2) x).xMid leaves = .split i := by
      rw [hmid]; exact hnn
    unfold BuildInv
    rw [buildNodeGo_split_case mergeC padF spawn yl (canonParams h sd (yl + 2) x) leaves i
      g1 g2 g3 g4 g5 hnn']
    rw [canonParams_intoLeftChild h sd (yl + 2) x (by omega),
      canonParams_intoRightChild h sd (yl + 2) x (by omega)]
    simp only [show yl + 2 - 1 = yl + 1 from by omega] at heqL heqR ⊢
    rw [htake, hdrop]
    simp only [heqL, heqR]
    have hmp : matchedPairOf (canonicalNode mergeC padF allLeaves (yl + 1) (2 * x))
        (canonicalNode mergeC padF allLeaves (yl + 1) (2 * x + 1)) =
        (canonicalNode mergeC padF allLeaves (yl + 1) (2 * x),
          canonicalNode mergeC padF allLeaves (yl + 1) (2 * x + 1)) := by
      unfold matchedPairOf
      rw [hLcoord]
      have he : (2 * x) % 2 = 0 := by omega
      simp [he]
    have hmain : ∀ ins0 : StoreList C,
        (∀ q ∈ ins0, q ∈ insL ∨ q ∈ insR ∨
          q ∈ (if (canonParams h sd (yl + 2) x).height -
              (canonParams h sd (yl + 2) x).storeDepth < (canonParams h sd (yl + 2) x).y then
            [((canonicalNode mergeC padF allLeaves (yl + 1) (2 * x)).coord,
                canonicalNode mergeC padF allLeaves (yl + 1) (2 * x)),
              ((canonicalNode mergeC padF allLeaves (yl + 1) (2 * x + 1)).coord,
                canonicalNode mergeC padF allLeaves (yl + 1) (2 * x + 1))]
          else [])) →
        (∀ q ∈ insL, q ∈ ins0) → (∀ q ∈ insR, q ∈ ins0) →
        ((∀ q ∈ ins0, q.2.coord = q.1 ∧
            q.2 = canonicalNode mergeC padF allLeaves q.1.y q.1.x) ∧
          (∀ n ∈ leaves, (n.coord, n) ∈ ins0) ∧
          (∀ q ∈ ins0, q.1.y = 0 → (q.2 ∈ leaves ∨ sd = h))) := by
      intro ins0 hsub hL hR
      refine ⟨?_, ?_, ?_⟩
      · intro q hq
        rcases hsub q hq with hq1 | hq1 | hq1
        · exact hcanL q hq1
        · exact hcanR q hq1
        · by_cases hw : (canonParams h sd (yl + 2) x).height -
              (canonParams h sd (yl + 2) x).storeDepth < (canonParams h sd (yl + 2) x).y
          · rw [if_pos hw] at hq1
            simp only [List.mem_cons, List.not_mem_nil, or_false] at hq1
            rcases hq1 with hq1 | hq1
            · rw [hq1, hLcoord]
              exact ⟨rfl, rfl⟩
            · rw [hq1, hRcoord]
              exact ⟨rfl, rfl⟩
          · rw [if_neg hw] at hq1
            simp at hq1
      · intro n hn
        rw [hsplit] at hn
        rcases List.mem_append.mp hn with hn | hn
        · exact hL _ (hinL n hn)
        · exact hR _ (hinR n hn)
      · intro q hq hqy
        rcases hsub q hq with hq1 | hq1 | hq1
        · rcases hy0L q hq1 hqy with hq2 | hq2
          · left
            rw [hsplit]
            exact List.mem_append_left _ hq2
          · right; exact hq2
        · rcases hy0R q hq1 hqy with hq2 | hq2
          · left
            rw [hsplit]
            exact List.mem_append_right _ hq2
          · right; exact hq2
        · exfalso
          by_cases hw : (canonParams h sd (yl + 2) x).height -
              (canonParams h sd (yl + 2) x).storeDepth < (canonParams h sd (yl + 2) x).y
          · rw [if_pos hw] at hq1
            simp only [List.mem_cons, List.not_mem_nil, or_false] at hq1
            rcases hq1 with hq1 | hq1
            · rw [hq1, hLcoord] at hqy
              simp at hqy
            · rw [hq1, hRcoord] at hqy
              simp at hqy
          · rw [if_neg hw] at hq1
            simp at hq1
    by_cases hsp : spawn (canonParams h sd (yl + 2) x) = true
    · rw [if_pos hsp]
      rw [hmp]
      refine ⟨insL ++ insR ++ (if (canonParams h sd (yl + 2) x).height -
          (canonParams h sd (yl + 2) x).storeDepth < (canonParams h sd (yl + 2) x).y then
        [((canonicalNode mergeC padF allLeaves (yl + 1) (2 * x)).coord,
            canonicalNode mergeC padF allLeaves (yl + 1) (2 * x)),
          ((canonicalNode mergeC padF allLeaves (yl + 1) (2 * x + 1)).coord,
            canonicalNode mergeC padF allLeaves (yl + 1) (2 * x + 1))]
      else []), ?_, ?_⟩
      · rw [hcanon]
      · apply hmain
        · intro q hq
          rcases List.mem_append.mp hq with hq | hq
          · rcases List.mem_append.mp hq with hq | hq
            · exact Or.inl hq
            · exact Or.inr (Or.inl hq)
          · exact Or.inr (Or.inr hq)
        · intro q hq
          exact List.mem_append_left _ (List.mem_append_left _ hq)
        · intro q hq
          exact List.mem_append_left _ (List.mem_append_right _ hq)
    · rw [if_neg hsp]
      rw [hmp]
      refine ⟨insR ++ insL ++ (if (canonParams h sd (yl + 2) x).height -
          (canonParams h sd (yl + 2) x).storeDepth < (canonParams h sd (yl + 2) x).y then
        [((canonicalNode mergeC padF allLeaves (yl + 1) (2 * x)).coord,
            canonicalNode mergeC padF allLeaves (yl + 1) (2 * x)),
          ((canonicalNode mergeC padF allLeaves (yl + 1) (2 * x + 1)).coord,
            canonicalNode mergeC padF allLeaves (yl + 1) (2 * x + 1))]
      else []), ?_, ?_⟩
      · rw [hcanon]
      · apply hmain
        · intro q hq
          rcases List.mem_append.mp hq with hq | hq
          · rcases List.mem_append.mp hq with hq | hq
            · exact Or.inr (Or.inl hq)
            · exact Or.inl hq
          · exact Or.inr (Or.inr hq)
        · intro q hq
          exact List.mem_append_left _ (List.mem_append_right _ hq)
        · intro q hq
          exact List.mem_append_left _ (List.mem_append_left _ hq)

end MainInduction


-- -----------------------------------------------------------------------------------------------
-- The single-threaded builder computes the canonical tree.

section SingleThreadedCanonical

variable {C : Type} (mergeC : C → C → C) (padF : Coordinate → C)

/-- `pairUpStep` never returns an empty pair list. -/
theorem pairUpStep_ne_nil (pairs : List (MaybePair C)) (n : Node C) :
    pairUpStep pairs n ≠ [] := by
  unfold pairUpStep
  by_cases he : n.coord.x % 2 = 0
  · simp [he]
  · rw [if_neg he]
    rcases hl : pairs.getLast? with _ | ⟨lopt, r⟩
    · simp
    · cases lopt with
      | none => simp
      | some l =>
        by_cases hs : n.isRightSiblingOf l
        · simp [hs]
        · simp [hs]

/-- `pairUpStep` only inspects and edits the tail of the accumulator. -/
theorem pairUpStep_append (acc P : List (MaybePair C)) (hP : P ≠ []) (n : Node C) :
    pairUpStep (acc ++ P) n = acc ++ pairUpStep P n := by
  unfold pairUpStep
  rw [List.getLast?_append_of_ne_nil acc hP]
  by_cases he : n.coord.x % 2 = 0
  · simp [he]
  · rw [if_neg he, if_neg he]
    rcases hl : P.getLast? with _ | ⟨lopt, r⟩
    · simp
    · cases lopt with
      | none => simp
      | some l =>
        by_cases hs : n.isRightSiblingOf l
        · simp [hs, List.dropLast_append_of_ne_nil acc hP]
        · simp [hs]

/-- The pairing fold only inspects and edits the tail of the accumulator. -/
theorem foldl_pairUpStep_append (l : List (Node C)) :
    ∀ acc P : List (MaybePair C), P ≠ [] →
      l.foldl pairUpStep (acc ++ P) = acc ++ l.foldl pairUpStep P := by
  induction l with
  | nil => intro acc P hP; simp
  | cons n l ih =>
    intro acc P hP
    simp only [List.foldl_cons]
    rw [pairUpStep_append acc P hP n]
    exact ih acc _ (pairUpStep_ne_nil P n)

/-- A node that does not close the pair `P` pushes a fresh pair. -/
theorem pairUpStep_singleton_push (P : MaybePair C) (z : Node C)
    (h : z.coord.x % 2 = 0 ∨ ∀ l r, P = (some l, r) → z.isRightSiblingOf l = false) :
    pairUpStep [P] z = [P] ++ pairUpStep [] z := by
  unfold pairUpStep
  by_cases he : z.coord.x % 2 = 0
  · simp [he]
  · rw [if_neg he, if_neg he]
    obtain ⟨lopt, r⟩ := P
    cases lopt with
    | none => simp
    | some l =>
      rcases h with he' | hns
      · exact absurd he' he
      · have hsf := hns l r rfl
        simp [hsf]

/-- Once a pair is complete relative to the rest of the layer, the fold
carries it through unchanged. -/
theorem foldl_pairUpStep_singleton (P : MaybePair C) (l : List (Node C))
    (hc : ∀ z l'', l = z :: l'' → pairUpStep [P] z = [P] ++ pairUpStep [] z) :
    l.foldl pairUpStep [P] = P :: l.foldl pairUpStep [] := by
  cases l with
  | nil => rfl
  | cons z l' =>
    simp only [List.foldl_cons]
    rw [hc z l' rfl]
    rw [foldl_pairUpStep_append l' [P] (pairUpStep [] z) (pairUpStep_ne_nil _ _)]
    rfl

/-- The canonical node over any empty leaf range (bottom layer included) is a
padding node. -/
theorem canonicalNode_empty (l : List (Node C)) (y x : ℕ)
    (hempty : leavesInRange l (x * 2 ^ y) (2 ^ y) = []) :
    canonicalNode mergeC padF l y x = ⟨⟨y, x⟩, padF ⟨y, x⟩⟩ := by
  cases y with
  | zero =>
    apply canonicalNode_leaf_pad
    intro n hn hx
    have hmem : n ∈ leavesInRange l (x * 2 ^ 0) (2 ^ 0) := by
      rw [mem_leavesInRange]
      exact ⟨hn, by omega, by omega⟩
    rw [hempty] at hmem
    simp at hmem
  | succ y => exact canonicalNode_pad mergeC padF l (y + 1) x (by omega) hempty

/-- The sibling position of a bottom-layer position. -/
def sibX (x : ℕ) : ℕ := if x % 2 = 0 then x + 1 else x - 1

/-- Completing a lone left sibling with a padding node yields the canonical
node of the (empty) right position. -/
theorem padPair_left (allLeaves : List (Node C)) (k a : ℕ) (ha : a % 2 = 0)
    (hempty : leavesInRange allLeaves ((a + 1) * 2 ^ k) (2 ^ k) = []) :
    padPair padF (some (canonicalNode mergeC padF allLeaves k a), none) =
      some (canonicalNode mergeC padF allLeaves k a,
        canonicalNode mergeC padF allLeaves k (a + 1)) := by
  rw [canonicalNode_empty mergeC padF allLeaves k (a + 1) hempty]
  simp [padPair, Node.newSiblingPaddingNode, Coordinate.siblingCoord,
    canonicalNode_coord mergeC padF allLeaves, ha]

/-- Completing a lone right sibling with a padding node yields the canonical
node of the (empty) left position. -/
theorem padPair_right (allLeaves : List (Node C)) (k a : ℕ) (ha : a % 2 = 1)
    (hempty : leavesInRange allLeaves ((a - 1) * 2 ^ k) (2 ^ k) = []) :
    padPair padF (none, some (canonicalNode mergeC padF allLeaves k a)) =
      some (canonicalNode mergeC padF allLeaves k (a - 1),
        canonicalNode mergeC padF allLeaves k a) := by
  rw [canonicalNode_empty mergeC padF allLeaves k (a - 1) hempty]
  have ha' : a % 2 = 1 := ha
  simp [padPair, Node.newSiblingPaddingNode, Coordinate.siblingCoord,
    canonicalNode_coord mergeC padF allLeaves, ha']

end SingleThreadedCanonical

/-- The x-coordinates of the parent layer above an increasing list of
occupied x-coordinates: two consecutive siblings collapse into one parent. -/
def halveXs : List ℕ → List ℕ
  | [] => []
  | [x] => [x / 2]
  | x :: y :: t =>
    if x % 2 = 0 ∧ y = x + 1 then x / 2 :: halveXs t
    else x / 2 :: halveXs (y :: t)

/-- Iterated `halveXs`. -/
def halveIter : ℕ → List ℕ → List ℕ
  | 0, xs => xs
  | j + 1, xs => halveIter j (halveXs xs)

theorem halveXs_ne_nil : ∀ {xs : List ℕ}, xs ≠ [] → halveXs xs ≠ []
  | [], h => absurd rfl h
  | [x], _ => by simp [halveXs]
  | x :: y :: t, _ => by
    unfold halveXs
    split <;> simp

theorem halveXs_mem : ∀ {xs : List ℕ} {m : ℕ}, m ∈ halveXs xs → ∃ x ∈ xs, x / 2 = m
  | [], m, h => by simp [halveXs] at h
  | [x], m, h => by
    simp [halveXs] at h
    exact ⟨x, by simp, h.symm⟩
  | x :: y :: t, m, h => by
    unfold halveXs at h
    split at h
    · rcases List.mem_cons.mp h with h | h
      · exact ⟨x, by simp, h.symm⟩
      · obtain ⟨z, hz, hzm⟩ := halveXs_mem h
        exact ⟨z, by simp [hz], hzm⟩
    · rcases List.mem_cons.mp h with h | h
      · exact ⟨x, by simp, h.symm⟩
      · obtain ⟨z, hz, hzm⟩ := halveXs_mem h
        rcases List.mem_cons.mp hz with hz | hz
        · exact ⟨y, by simp, by omega⟩
        · exact ⟨z, by simp [hz], hzm⟩

theorem halveXs_mem_div : ∀ {xs : List ℕ} {x : ℕ}, x ∈ xs → x / 2 ∈ halveXs xs
  | [], x, h => by simp at h
  | [a], x, h => by
    simp at h
    simp [halveXs, h]
  | a :: b :: t, x, h => by
    unfold halveXs
    rcases List.mem_cons.mp h with h | h
    · subst h
      split <;> simp
    · rcases List.mem_cons.mp h with h | h
      · subst h
        split
        · next hc =>
          have : x / 2 = a / 2 := by omega
          simp [this]
        · exact List.mem_cons_of_mem _ (halveXs_mem_div (List.mem_cons_self _ _))
      · split
        · exact List.mem_cons_of_mem _ (halveXs_mem_div h)
        · exact List.mem_cons_of_mem _ (halveXs_mem_div (List.mem_cons_of_mem _ h))

theorem halveXs_pairwise : ∀ {xs : List ℕ}, xs.Pairwise (· < ·) →
    (halveXs xs).Pairwise (· < ·)
  | [], _ => by simp [halveXs]
  | [x], _ => by simp [halveXs]
  | x :: y :: t, h => by
    obtain ⟨hx, hrest⟩ := List.pairwise_cons.mp h
    obtain ⟨hy, ht⟩ := List.pairwise_cons.mp hrest
    have hxy : x < y := hx y (List.mem_cons_self _ _)
    unfold halveXs
    split
    · next hc =>
      rw [List.pairwise_cons]
      refine ⟨?_, halveXs_pairwise ht⟩
      intro m hm
      obtain ⟨z, hz, hzm⟩ := halveXs_mem hm
      have hz2 : y < z := hy z hz
      omega
    · next hc =>
      rw [List.pairwise_cons]
      refine ⟨?_, halveXs_pairwise hrest⟩
      intro m hm
      obtain ⟨z, hz, hzm⟩ := halveXs_mem hm
      have hz2 : y ≤ z := by
        rcases List.mem_cons.mp hz with hz | hz
        · omega
        · have := hy z hz
          omega
      omega

section SingleThreadedCanonical2

variable {C : Type} (mergeC : C → C → C) (padF : Coordinate → C)

/-- The pairing fold followed by pad completion turns the canonical nodes of
an occupied layer into the matched sibling pairs below the parent layer. -/
theorem pairUp_matched (allLeaves : List (Node C)) (k : ℕ) :
    ∀ (n : ℕ) (xs : List ℕ), xs.length = n → xs.Pairwise (· < ·) →
    (∀ x ∈ xs, sibX x ∉ xs → leavesInRange allLeaves (sibX x * 2 ^ k) (2 ^ k) = []) →
    ((xs.map (canonicalNode mergeC padF allLeaves k)).foldl pairUpStep []).mapM
        (padPair padF) =
      some ((halveXs xs).map (fun m =>
        (canonicalNode mergeC padF allLeaves k (2 * m),
          canonicalNode mergeC padF allLeaves k (2 * m + 1)))) := by
  intro n
  induction n using Nat.strong_induction_on with
  | _ n ih =>
  intro xs hlen hpw hsib
  rcases xs with _ | ⟨a, _ | ⟨b, t⟩⟩
  · simp [halveXs]
    rfl
  · -- a single occupied position: its sibling position is empty
    have hmem : a ∈ [a] := by simp
    by_cases hpar : a % 2 = 0
    · have hsx : sibX a = a + 1 := by simp [sibX, hpar]
      have hempty : leavesInRange allLeaves ((a + 1) * 2 ^ k) (2 ^ k) = [] := by
        have := hsib a hmem (by rw [hsx]; simp)
        rwa [hsx] at this
      have h1 : pairUpStep ([] : List (MaybePair C))
          (canonicalNode mergeC padF allLeaves k a) =
          [(some (canonicalNode mergeC padF allLeaves k a), none)] := by
        unfold pairUpStep
        simp [canonicalNode_coord mergeC padF allLeaves, hpar]
      simp only [List.map_cons, List.map_nil, List.foldl_cons, List.foldl_nil, h1]
      rw [List.mapM_cons, padPair_left mergeC padF allLeaves k a hpar hempty]
      have hh : halveXs [a] = [a / 2] := by simp [halveXs]
      rw [hh]
      simp only [List.map_cons, List.map_nil, List.mapM_nil]
      have h2 : 2 * (a / 2) = a := by omega
      simp [h2]
    · have hsx : sibX a = a - 1 := by simp [sibX, hpar]
      have hane : a - 1 ≠ a := by omega
      have hempty : leavesInRange allLeaves ((a - 1) * 2 ^ k) (2 ^ k) = [] := by
        have := hsib a hmem (by rw [hsx]; simp [hane])
        rwa [hsx] at this
      have h1 : pairUpStep ([] : List (MaybePair C))
          (canonicalNode mergeC padF allLeaves k a) =
          [(none, some (canonicalNode mergeC padF allLeaves k a))] := by
        unfold pairUpStep
        simp [canonicalNode_coord mergeC padF allLeaves, hpar]
      simp only [List.map_cons, List.map_nil, List.foldl_cons, List.foldl_nil, h1]
      rw [List.mapM_cons,
        padPair_right mergeC padF allLeaves k a (by omega) hempty]
      have hh : halveXs [a] = [a / 2] := by simp [halveXs]
      rw [hh]
      simp only [List.map_cons, List.map_nil, List.mapM_nil]
      have h2 : 2 * (a / 2) = a - 1 := by omega
      have h3 : 2 * (a / 2) + 1 = a := by omega
      have h4 : a - 1 + 1 = a := by omega
      simp [h2, h3, h4]
  · -- at least two occupied positions
    simp only [List.length_cons] at hlen
    obtain ⟨ha_lt, hpw'⟩ := List.pairwise_cons.mp hpw
    obtain ⟨hb_lt, hpwt⟩ := List.pairwise_cons.mp hpw'
    have hab' : a < b := ha_lt b (by simp)
    by_cases hab : a % 2 = 0 ∧ b = a + 1
    · -- the first two positions are siblings and pair up directly
      obtain ⟨hpar, hb⟩ := hab
      have h1 : pairUpStep ([] : List (MaybePair C))
          (canonicalNode mergeC padF allLeaves k a) =
          [(some (canonicalNode mergeC padF allLeaves k a), none)] := by
        unfold pairUpStep
        simp [canonicalNode_coord mergeC padF allLeaves, hpar]
      have h2 : pairUpStep [(some (canonicalNode mergeC padF allLeaves k a), none)]
          (canonicalNode mergeC padF allLeaves k b) =
          [(some (canonicalNode mergeC padF allLeaves k a),
            some (canonicalNode mergeC padF allLeaves k b))] := by
        unfold pairUpStep
        have hbne : ¬ (b % 2 = 0) := by omega
        have hsibl : (canonicalNode mergeC padF allLeaves k b).isRightSiblingOf
            (canonicalNode mergeC padF allLeaves k a) = true := by
          simp [Node.isRightSiblingOf, canonicalNode_coord mergeC padF allLeaves]
          omega
        simp [canonicalNode_coord mergeC padF allLeaves, hbne, hsibl]
      simp only [List.map_cons, List.foldl_cons, h1, h2]
      rw [foldl_pairUpStep_singleton _ _ ?hc]
      case hc =>
        intro z l'' hz
        rcases t with _ | ⟨z₀, t'⟩
        · simp at hz
        · simp only [List.map_cons, List.cons.injEq] at hz
          obtain ⟨hz1, -⟩ := hz
          subst hz1
          apply pairUpStep_singleton_push
          right
          intro l r hpr
          have hl : canonicalNode mergeC padF allLeaves k a = l := by
            have := congrArg Prod.fst hpr
            simpa using this
          subst hl
          have hz₀ : b < z₀ := hb_lt z₀ (by simp)
          have hne : z₀ - 1 ≠ a := by omega
          simp [Node.isRightSiblingOf, canonicalNode_coord mergeC padF allLeaves, hne]
      rw [List.mapM_cons]
      have hpad : padPair padF
          (some (canonicalNode mergeC padF allLeaves k a),
            some (canonicalNode mergeC padF allLeaves k b)) =
          some (canonicalNode mergeC padF allLeaves k a,
            canonicalNode mergeC padF allLeaves k b) := by
        simp [padPair]
      rw [hpad]
      have hsibt : ∀ x ∈ t, sibX x ∉ t →
          leavesInRange allLeaves (sibX x * 2 ^ k) (2 ^ k) = [] := by
        intro x hx hnx
        have hbx : b < x := hb_lt x hx
        apply hsib x (by simp [hx])
        intro hmem
        rcases List.mem_cons.mp hmem with hm | hm
        · by_cases hxp : x % 2 = 0 <;> simp [sibX, hxp] at hm <;> omega
        · rcases List.mem_cons.mp hm with hm | hm
          · by_cases hxp : x % 2 = 0 <;> simp [sibX, hxp] at hm <;> omega
          · exact hnx hm
      rw [ih t.length (by omega) t rfl hpwt hsibt]
      have hh : halveXs (a :: b :: t) = a / 2 :: halveXs t := by
        simp only [halveXs]
        rw [if_pos ⟨hpar, hb⟩]
      rw [hh]
      simp only [List.map_cons]
      have h3 : 2 * (a / 2) = a := by omega
      simp [h3, hb]
    · -- the head position pairs with a padding sibling
      have hh : halveXs (a :: b :: t) = a / 2 :: halveXs (b :: t) := by
        simp only [halveXs]
        rw [if_neg hab]
      by_cases hpar : a % 2 = 0
      · have hb2 : b ≠ a + 1 := fun hc => hab ⟨hpar, hc⟩
        have hsibbt : ∀ x ∈ b :: t, sibX x ∉ b :: t →
            leavesInRange allLeaves (sibX x * 2 ^ k) (2 ^ k) = [] := by
          intro x hx hnx
          have hbx : b ≤ x := by
            rcases List.mem_cons.mp hx with hm | hm
            · omega
            · have := hb_lt x hm; omega
          apply hsib x (by simp [hx])
          intro hmem
          rcases List.mem_cons.mp hmem with hm | hm
          · by_cases hxp : x % 2 = 0 <;> simp [sibX, hxp] at hm <;> omega
          · exact hnx hm
        have hempty : leavesInRange allLeaves ((a + 1) * 2 ^ k) (2 ^ k) = [] := by
          have hnx : sibX a ∉ a :: b :: t := by
            rw [show sibX a = a + 1 from by simp [sibX, hpar]]
            simp only [List.mem_cons, not_or]
            refine ⟨by omega, by omega, ?_⟩
            intro hmem
            have := hb_lt _ hmem
            omega
          have := hsib a (by simp) hnx
          rwa [show sibX a = a + 1 from by simp [sibX, hpar]] at this
        have h1 : pairUpStep ([] : List (MaybePair C))
            (canonicalNode mergeC padF allLeaves k a) =
            [(some (canonicalNode mergeC padF allLeaves k a), none)] := by
          unfold pairUpStep
          simp [canonicalNode_coord mergeC padF allLeaves, hpar]
        have hpush : pairUpStep [(some (canonicalNode mergeC padF allLeaves k a), none)]
            (canonicalNode mergeC padF allLeaves k b) =
            [(some (canonicalNode mergeC padF allLeaves k a), none)] ++
              pairUpStep [] (canonicalNode mergeC padF allLeaves k b) := by
          apply pairUpStep_singleton_push
          by_cases hbp : b % 2 = 0
          · left
            simp [canonicalNode_coord mergeC padF allLeaves, hbp]
          · right
            intro l r hpr
            have hl : canonicalNode mergeC padF allLeaves k a = l := by
              have := congrArg Prod.fst hpr
              simpa using this
            subst hl
            have hne : b - 1 ≠ a := by omega
            simp [Node.isRightSiblingOf, canonicalNode_coord mergeC padF allLeaves, hne]
        simp only [List.map_cons, List.foldl_cons, h1, hpush]
        rw [foldl_pairUpStep_append (List.map (canonicalNode mergeC padF allLeaves k) t)
          [(some (canonicalNode mergeC padF allLeaves k a), none)]
          (pairUpStep [] (canonicalNode mergeC padF allLeaves k b))
          (pairUpStep_ne_nil _ _)]
        rw [List.singleton_append, List.mapM_cons,
          padPair_left mergeC padF allLeaves k a hpar hempty]
        have hihinst := ih (t.length + 1) (by omega) (b :: t) (by simp) hpw' hsibbt
        simp only [List.map_cons, List.foldl_cons] at hihinst
        rw [hihinst, hh]
        simp only [List.map_cons]
        have h3 : 2 * (a / 2) = a := by omega
        simp [h3]
      · have hsibbt : ∀ x ∈ b :: t, sibX x ∉ b :: t →
            leavesInRange allLeaves (sibX x * 2 ^ k) (2 ^ k) = [] := by
          intro x hx hnx
          have hbx : b ≤ x := by
            rcases List.mem_cons.mp hx with hm | hm
            · omega
            · have := hb_lt x hm; omega
          apply hsib x (by simp [hx])
          intro hmem
          rcases List.mem_cons.mp hmem with hm | hm
          · by_cases hxp : x % 2 = 0 <;> simp [sibX, hxp] at hm <;> omega
          · exact hnx hm
        have hempty : leavesInRange allLeaves ((a - 1) * 2 ^ k) (2 ^ k) = [] := by
          have hnx : sibX a ∉ a :: b :: t := by
            rw [show sibX a = a - 1 from by simp [sibX, hpar]]
            simp only [List.mem_cons, not_or]
            refine ⟨by omega, by omega, ?_⟩
            intro hmem
            have := hb_lt _ hmem
            omega
          have := hsib a (by simp) hnx
          rwa [show sibX a = a - 1 from by simp [sibX, hpar]] at this
        have h1 : pairUpStep ([] : List (MaybePair C))
            (canonicalNode mergeC padF allLeaves k a) =
            [(none, some (canonicalNode mergeC padF allLeaves k a))] := by
          unfold pairUpStep
          simp [canonicalNode_coord mergeC padF allLeaves, hpar]
        have hpush : pairUpStep [(none, some (canonicalNode mergeC padF allLeaves k a))]
            (canonicalNode mergeC padF allLeaves k b) =
            [(none, some (canonicalNode mergeC padF allLeaves k a))] ++
              pairUpStep [] (canonicalNode mergeC padF allLeaves k b) := by
          apply pairUpStep_singleton_push
          right
          intro l r hpr
          exact absurd (congrArg Prod.fst hpr) (by simp)
        simp only [List.map_cons, List.foldl_cons, h1, hpush]
        rw [foldl_pairUpStep_append (List.map (canonicalNode mergeC padF allLeaves k) t)
          [(none, some (canonicalNode mergeC padF allLeaves k a))]
          (pairUpStep [] (canonicalNode mergeC padF allLeaves k b))
          (pairUpStep_ne_nil _ _)]
        rw [List.singleton_append, List.mapM_cons,
          padPair_right mergeC padF allLeaves k a (by omega) hempty]
        have hihinst := ih (t.length + 1) (by omega) (b :: t) (by simp) hpw' hsibbt
        simp only [List.map_cons, List.foldl_cons] at hihinst
        rw [hihinst, hh]
        simp only [List.map_cons]
        have h3 : 2 * (a / 2) = a - 1 := by omega
        have h4 : 2 * (a / 2) + 1 = a := by omega
        have h5 : a - 1 + 1 = a := by omega
        simp [h3, h4, h5]

/-- A member of a child leaf range is a member of the parent leaf range. -/
theorem mem_range_parent {l : List (Node C)} {n : Node C} {k x : ℕ}
    (hn : n ∈ leavesInRange l (x * 2 ^ k) (2 ^ k)) :
    n ∈ leavesInRange l ((x / 2) * 2 ^ (k + 1)) (2 ^ (k + 1)) := by
  rw [mem_leavesInRange] at hn ⊢
  obtain ⟨hnl, hlo, hhi⟩ := hn
  refine ⟨hnl, ?_, ?_⟩
  · calc (x / 2) * 2 ^ (k + 1) = (2 * (x / 2)) * 2 ^ k := by ring
    _ ≤ x * 2 ^ k := Nat.mul_le_mul_right _ (by omega)
    _ ≤ n.coord.x := hlo
  · calc n.coord.x < x * 2 ^ k + 2 ^ k := hhi
    _ = (x + 1) * 2 ^ k := by ring
    _ ≤ (2 * (x / 2) + 2) * 2 ^ k := Nat.mul_le_mul_right _ (by omega)
    _ = (x / 2) * 2 ^ (k + 1) + 2 ^ (k + 1) := by ring

/-- If both child leaf ranges are empty then the parent leaf range is
empty. -/
theorem leavesInRange_parent_empty (l : List (Node C)) (k m : ℕ)
    (h1 : leavesInRange l ((2 * m) * 2 ^ k) (2 ^ k) = [])
    (h2 : leavesInRange l ((2 * m + 1) * 2 ^ k) (2 ^ k) = []) :
    leavesInRange l (m * 2 ^ (k + 1)) (2 ^ (k + 1)) = [] := by
  rw [List.eq_nil_iff_forall_not_mem]
  intro n hn
  rw [mem_leavesInRange] at hn
  obtain ⟨hnl, hlo, hhi⟩ := hn
  have e1 : m * 2 ^ (k + 1) = (2 * m) * 2 ^ k := by ring
  have e2 : m * 2 ^ (k + 1) + 2 ^ (k + 1) = (2 * m + 1) * 2 ^ k + 2 ^ k := by ring
  rcases lt_or_le n.coord.x ((2 * m + 1) * 2 ^ k) with hlt | hge
  · have hmem : n ∈ leavesInRange l ((2 * m) * 2 ^ k) (2 ^ k) := by
      rw [mem_leavesInRange]
      refine ⟨hnl, by omega, by omega⟩
    rw [h1] at hmem
    simp at hmem
  · have hmem : n ∈ leavesInRange l ((2 * m + 1) * 2 ^ k) (2 ^ k) := by
      rw [mem_leavesInRange]
      refine ⟨hnl, by omega, by omega⟩
    rw [h2] at hmem
    simp at hmem

/-- One single-threaded layer step maps the canonical nodes of the occupied
positions at one layer to those of the layer above, storing the matched
pairs. -/
theorem singleLayerUp_canonical (allLeaves : List (Node C)) (k : ℕ) (xs : List ℕ)
    (hpw : xs.Pairwise (· < ·))
    (hocc : ∀ x ∈ xs, leavesInRange allLeaves (x * 2 ^ k) (2 ^ k) ≠ [])
    (hsib : ∀ x ∈ xs, sibX x ∉ xs →
      leavesInRange allLeaves (sibX x * 2 ^ k) (2 ^ k) = []) :
    singleLayerUp mergeC padF (xs.map (canonicalNode mergeC padF allLeaves k)) =
      some ((((halveXs xs).map (fun m =>
          (canonicalNode mergeC padF allLeaves k (2 * m),
            canonicalNode mergeC padF allLeaves k (2 * m + 1)))).flatMap
            (fun p => [(p.1.coord, p.1), (p.2.coord, p.2)])),
        (halveXs xs).map (canonicalNode mergeC padF allLeaves (k + 1))) := by
  have hM := pairUp_matched mergeC padF allLeaves k xs.length xs rfl hpw hsib
  simp only [singleLayerUp, hM, Option.bind_eq_bind, Option.some_bind, Option.some.injEq,
    Prod.mk.injEq]
  refine ⟨trivial, ?_⟩
  rw [List.map_map]
  apply List.map_congr_left
  intro m hm
  obtain ⟨x, hx, hxm⟩ := halveXs_mem hm
  have hocc' : leavesInRange allLeaves (m * 2 ^ (k + 1)) (2 ^ (k + 1)) ≠ [] := by
    obtain ⟨n, hn⟩ := List.exists_mem_of_ne_nil _ (hocc x hx)
    exact List.ne_nil_of_mem (hxm ▸ mem_range_parent hn)
  have := canonicalNode_merge mergeC padF allLeaves (k + 1) m (by omega) hocc'
  simp only [Nat.add_sub_cancel] at this
  simp [this]

/-- Iterating the single-threaded layer step over the canonical nodes of the
occupied bottom positions produces the canonical nodes of the iterated parent
positions. -/
theorem singleLayers_canonical (allLeaves : List (Node C)) :
    ∀ (j k : ℕ) (xs : List ℕ), xs.Pairwise (· < ·) →
    (∀ x ∈ xs, leavesInRange allLeaves (x * 2 ^ k) (2 ^ k) ≠ []) →
    (∀ x, x ∉ xs → leavesInRange allLeaves (x * 2 ^ k) (2 ^ k) = []) →
    ∃ ins, singleLayers mergeC padF j (xs.map (canonicalNode mergeC padF allLeaves k)) =
      some (ins, (halveIter j xs).map (canonicalNode mergeC padF allLeaves (k + j))) := by
  intro j
  induction j with
  | zero =>
    intro k xs _ _ _
    exact ⟨[], by simp [singleLayers, halveIter]⟩
  | succ j ihj =>
    intro k xs hpw hocc hcompl
    have hsib : ∀ x ∈ xs, sibX x ∉ xs →
        leavesInRange allLeaves (sibX x * 2 ^ k) (2 ^ k) = [] :=
      fun x _ hnx => hcompl _ hnx
    have hlayer := singleLayerUp_canonical mergeC padF allLeaves k xs hpw hocc hsib
    have hpw' := halveXs_pairwise hpw
    have hocc' : ∀ m ∈ halveXs xs,
        leavesInRange allLeaves (m * 2 ^ (k + 1)) (2 ^ (k + 1)) ≠ [] := by
      intro m hm
      obtain ⟨x, hx, hxm⟩ := halveXs_mem hm
      obtain ⟨n, hn⟩ := List.exists_mem_of_ne_nil _ (hocc x hx)
      exact List.ne_nil_of_mem (hxm ▸ mem_range_parent hn)
    have hcompl' : ∀ m, m ∉ halveXs xs →
        leavesInRange allLeaves (m * 2 ^ (k + 1)) (2 ^ (k + 1)) = [] := by
      intro m hm
      have h1 : 2 * m ∉ xs := by
        intro hc
        have := halveXs_mem_div hc
        rw [show 2 * m / 2 = m from by omega] at this
        exact hm this
      have h2 : 2 * m + 1 ∉ xs := by
        intro hc
        have := halveXs_mem_div hc
        rw [show (2 * m + 1) / 2 = m from by omega] at this
        exact hm this
      exact leavesInRange_parent_empty allLeaves k m (hcompl _ h1) (hcompl _ h2)
    obtain ⟨ins2, hins2⟩ := ihj (k + 1) (halveXs xs) hpw' hocc' hcompl'
    refine ⟨(List.map (fun m =>
        (canonicalNode mergeC padF allLeaves k (2 * m),
          canonicalNode mergeC padF allLeaves k (2 * m + 1))) (halveXs xs)).flatMap
        (fun p => [(p.1.coord, p.1), (p.2.coord, p.2)]) ++ ins2, ?_⟩
    rw [show halveIter (j + 1) xs = halveIter j (halveXs xs) from rfl]
    rw [show k + (j + 1) = (k + 1) + j from by omega]
    simp only [singleLayers, Option.bind_eq_bind]
    rw [hlayer]
    simp only [Option.some_bind]
    rw [hins2]
    rfl

/-- Every position after `j` halvings comes from an original position. -/
theorem halveIter_mem : ∀ {j : ℕ} {xs : List ℕ} {m : ℕ},
    m ∈ halveIter j xs → ∃ x ∈ xs, x / 2 ^ j = m
  | 0, xs, m, h => ⟨m, h, by simp⟩
  | j + 1, xs, m, h => by
    have h' : m ∈ halveIter j (halveXs xs) := h
    obtain ⟨x', hx', hm⟩ := halveIter_mem h'
    obtain ⟨x, hx, hxx'⟩ := halveXs_mem hx'
    refine ⟨x, hx, ?_⟩
    rw [← hm, ← hxx']
    rw [show (2:ℕ) ^ (j + 1) = 2 * 2 ^ j from by ring, ← Nat.div_div_eq_div_mul]

theorem halveIter_pairwise : ∀ {j : ℕ} {xs : List ℕ}, xs.Pairwise (· < ·) →
    (halveIter j xs).Pairwise (· < ·)
  | 0, _, h => h
  | j + 1, xs, h => @halveIter_pairwise j (halveXs xs) (halveXs_pairwise h)

theorem halveIter_ne_nil : ∀ {j : ℕ} {xs : List ℕ}, xs ≠ [] → halveIter j xs ≠ []
  | 0, _, h => h
  | j + 1, xs, h => @halveIter_ne_nil j (halveXs xs) (halveXs_ne_nil h)

/-- `j` halvings of a nonempty increasing list bounded by `2 ^ j` reach
exactly the root position. -/
theorem halveIter_bounded_eq_root (j : ℕ) (xs : List ℕ)
    (hpw : xs.Pairwise (· < ·)) (hne : xs ≠ [])
    (hb : ∀ x ∈ xs, x < 2 ^ j) : halveIter j xs = [0] := by
  have hall : ∀ m ∈ halveIter j xs, m = 0 := by
    intro m hm
    obtain ⟨x, hx, hxm⟩ := halveIter_mem hm
    rw [← hxm]
    exact Nat.div_eq_of_lt (hb x hx)
  have hpw' := @halveIter_pairwise j xs hpw
  have hne' := @halveIter_ne_nil j xs hne
  rcases hl : halveIter j xs with _ | ⟨m, _ | ⟨r, rest'⟩⟩
  · exact absurd hl hne'
  · rw [hall m (by rw [hl]; simp)]
  · exfalso
    rw [hl] at hpw'
    obtain ⟨hlt, -⟩ := List.pairwise_cons.mp hpw'
    have h1 := hall m (by rw [hl]; simp)
    have h2 := hall r (by rw [hl]; simp)
    have := hlt r (by simp)
    omega

end SingleThreadedCanonical2

section SingleThreadedCanonical3

variable {C : Type} (mergeC : C → C → C) (padF : Coordinate → C)

/-- The single-threaded builder returns the canonical root when fed the
sorted, bounded, non-padding bottom layer. -/
theorem buildTreeSingle_canonical (allLeaves : List (Node C)) (hsort : XSorted allLeaves)
    (hy0 : ∀ n ∈ allLeaves, n.coord.y = 0) (h : ℕ)
    (hne : allLeaves ≠ [])
    (hbound : ∀ n ∈ allLeaves, n.coord.x < 2 ^ (h - 1)) :
    ∃ ins, buildTreeSingle mergeC padF allLeaves h =
      some (((canonicalNode mergeC padF allLeaves (h - 1) 0).coord,
          canonicalNode mergeC padF allLeaves (h - 1) 0) :: ins,
        canonicalNode mergeC padF allLeaves (h - 1) 0) := by
  have hmapid : (allLeaves.map (fun n => n.coord.x)).map
      (canonicalNode mergeC padF allLeaves 0) = allLeaves := by
    rw [List.map_map]
    have hcg : allLeaves.map
        ((canonicalNode mergeC padF allLeaves 0) ∘ (fun n => n.coord.x)) =
        allLeaves.map id := by
      apply List.map_congr_left
      intro n hn
      simp only [Function.comp_apply, id_eq]
      exact canonicalNode_leaf mergeC padF hsort hy0 hn
    rw [hcg, List.map_id]
  have hpw0 : (allLeaves.map (fun n => n.coord.x)).Pairwise (· < ·) := by
    rw [List.pairwise_map]
    exact hsort
  have hocc0 : ∀ x ∈ allLeaves.map (fun n => n.coord.x),
      leavesInRange allLeaves (x * 2 ^ 0) (2 ^ 0) ≠ [] := by
    intro x hx
    obtain ⟨n, hn, hnx⟩ := List.mem_map.mp hx
    have hmem : n ∈ leavesInRange allLeaves (x * 2 ^ 0) (2 ^ 0) := by
      rw [mem_leavesInRange]
      refine ⟨hn, ?_, ?_⟩ <;> rw [pow_zero, mul_one] <;> omega
    exact List.ne_nil_of_mem hmem
  have hcompl0 : ∀ x, x ∉ allLeaves.map (fun n => n.coord.x) →
      leavesInRange allLeaves (x * 2 ^ 0) (2 ^ 0) = [] := by
    intro x hx
    rw [List.eq_nil_iff_forall_not_mem]
    intro n hn
    rw [mem_leavesInRange] at hn
    obtain ⟨hnl, hlo, hhi⟩ := hn
    rw [pow_zero, mul_one] at hlo hhi
    exact hx (List.mem_map.mpr ⟨n, hnl, by omega⟩)
  obtain ⟨ins, hins⟩ := singleLayers_canonical mergeC padF allLeaves (h - 1) 0
    (allLeaves.map (fun n => n.coord.x)) hpw0 hocc0 hcompl0
  rw [hmapid] at hins
  have hb0 : ∀ x ∈ allLeaves.map (fun n => n.coord.x), x < 2 ^ (h - 1) := by
    intro x hx
    obtain ⟨n, hn, hnx⟩ := List.mem_map.mp hx
    rw [← hnx]
    exact hbound n hn
  have hne0 : allLeaves.map (fun n => n.coord.x) ≠ [] := by
    intro hc
    exact hne (by simpa using hc)
  have hroot := halveIter_bounded_eq_root (h - 1)
    (allLeaves.map (fun n => n.coord.x)) hpw0 hne0 hb0
  rw [hroot] at hins
  simp only [List.map_cons, List.map_nil, Nat.zero_add] at hins
  refine ⟨ins, ?_⟩
  simp only [buildTreeSingle, hins, Option.bind_eq_bind, Option.some_bind]

end SingleThreadedCanonical3


-- -----------------------------------------------------------------------------------------------
-- The multi-threaded build pipeline returns the canonical tree.

section MultiPipeline

variable {C : Type} (mergeC : C → C → C) (padF : Coordinate → C) (spawn : RecursionParams → Bool)

/-- The sorted bottom layer that both builders work on. -/
def sortedNodes {C : Type} (l : List (InputLeafNode C)) : List (Node C) :=
  (sortLeafNodes l).map InputLeafNode.toNode

/-- Adjacent x-coordinates in a strictly sorted layer never collide, so the
duplicate check passes. -/
theorem verifyNoDuplicateLeaves_ok :
    ∀ {l : List (InputLeafNode C)},
    l.Pairwise (fun a b => a.xCoord < b.xCoord) →
    verifyNoDuplicateLeaves l = .ok ()
  | [], _ => rfl
  | [a], _ => rfl
  | a :: b :: t, hpw => by
    obtain ⟨hab, hrest⟩ := List.pairwise_cons.mp hpw
    have h1 : a.xCoord ≠ b.xCoord := by
      have := hab b (by simp)
      omega
    have hih := verifyNoDuplicateLeaves_ok hrest
    unfold verifyNoDuplicateLeaves at hih ⊢
    simp only [List.tail_cons, List.zip_cons_cons, List.any_cons] at hih ⊢
    simp only [decide_eq_false h1, Bool.false_or]
    exact hih

/-- The sorted bottom layer is strictly sorted by x-coordinate whenever the
input x-coordinates are distinct. -/
theorem sortLeafNodes_pairwise_lt {l : List (InputLeafNode C)}
    (hnodup : (l.map (fun n => n.xCoord)).Nodup) :
    (sortLeafNodes l).Pairwise (fun a b => a.xCoord < b.xCoord) := by
  haveI : IsTotal (InputLeafNode C) (fun a b => a.xCoord ≤ b.xCoord) :=
    ⟨fun a b => Nat.le_total _ _⟩
  haveI : IsTrans (InputLeafNode C) (fun a b => a.xCoord ≤ b.xCoord) :=
    ⟨fun a b c hab hbc => le_trans hab hbc⟩
  have hsorted : (sortLeafNodes l).Pairwise (fun a b => a.xCoord ≤ b.xCoord) :=
    List.sorted_insertionSort (fun a b : InputLeafNode C => a.xCoord ≤ b.xCoord) l
  have hperm : (sortLeafNodes l).Perm l := List.perm_insertionSort _ l
  have hnodup' : ((sortLeafNodes l).map (fun n => n.xCoord)).Nodup :=
    ((hperm.map _).nodup_iff).mpr hnodup
  have hne : (sortLeafNodes l).Pairwise (fun a b => a.xCoord ≠ b.xCoord) := by
    have h := hnodup'
    simp only [List.Nodup, List.pairwise_map] at h
    exact h
  exact (hsorted.and hne).imp (fun h => lt_of_le_of_ne h.1 h.2)

/-- The sorted bottom layer is `XSorted`. -/
theorem sortedNodes_xsorted {l : List (InputLeafNode C)}
    (hnodup : (l.map (fun n => n.xCoord)).Nodup) : XSorted (sortedNodes l) := by
  show ((sortLeafNodes l).map InputLeafNode.toNode).Pairwise
    (fun a b => a.coord.x < b.coord.x)
  rw [List.pairwise_map]
  exact sortLeafNodes_pairwise_lt hnodup

/-- The sorted bottom layer lives at `y = 0`. -/
theorem sortedNodes_y0 {l : List (InputLeafNode C)} :
    ∀ n ∈ sortedNodes l, n.coord.y = 0 := by
  intro n hn
  obtain ⟨i, _, hi⟩ := List.mem_map.mp hn
  rw [← hi]
  rfl

/-- Membership in the sorted bottom layer. -/
theorem mem_sortedNodes {l : List (InputLeafNode C)} {n : Node C} :
    n ∈ sortedNodes l ↔ ∃ i ∈ l, i.toNode = n := by
  unfold sortedNodes
  rw [List.mem_map]
  constructor
  · rintro ⟨i, hi, rfl⟩
    exact ⟨i, (List.perm_insertionSort _ l).mem_iff.mp hi, rfl⟩
  · rintro ⟨i, hi, rfl⟩
    exact ⟨i, (List.perm_insertionSort _ l).mem_iff.mpr hi, rfl⟩

/-- Bounds transfer to the sorted bottom layer. -/
theorem sortedNodes_bound {l : List (InputLeafNode C)} {B : ℕ}
    (hbound : ∀ n ∈ l, n.xCoord < B) :
    ∀ n ∈ sortedNodes l, n.coord.x < B := by
  intro n hn
  obtain ⟨i, hi, hin⟩ := mem_sortedNodes.mp hn
  rw [← hin]
  exact hbound i hi

/-- The sorted bottom layer of a nonempty input is nonempty. -/
theorem sortedNodes_ne_nil {l : List (InputLeafNode C)} (hl : l ≠ []) :
    sortedNodes l ≠ [] := by
  unfold sortedNodes
  intro hc
  apply hl
  have hlen := congrArg List.length hc
  simp only [List.length_map, List.length_nil] at hlen
  have hperm : (sortLeafNodes l).Perm l := List.perm_insertionSort _ l
  rw [hperm.length_eq] at hlen
  exact List.length_eq_zero.mp hlen

/-- The initial recursion parameters of `build_tree` are the canonical
parameters of the root subtree. -/
theorem buildTreeMulti_params (h sd : ℕ) (hh : 2 ≤ h) :
    ({ xMin := 0
       xMid := (0 + (maxBottomLayerNodes h - 1)) / 2
       xMax := maxBottomLayerNodes h - 1
       y := h - 1
       height := h
       storeDepth := sd } : RecursionParams) = canonParams h sd (h - 1) 0 := by
  obtain ⟨m, hm⟩ : ∃ m, h - 2 = m := ⟨_, rfl⟩
  have hm1 : h - 1 = m + 1 := by omega
  obtain ⟨p, hp0⟩ : ∃ p, (2:ℕ) ^ m = p := ⟨_, rfl⟩
  have hp1 : 1 ≤ p := hp0 ▸ Nat.one_le_two_pow
  have hp2 : (2:ℕ) ^ (m + 1) = 2 * p := by rw [pow_succ]; omega
  unfold canonParams maxBottomLayerNodes
  rw [hm1]
  have hmm : m + 1 - 1 = m := by omega
  rw [hmm, hp0, hp2]
  congr 1 <;> omega

/-- The full sorted bottom layer is its own leaf range at the root. -/
theorem sortedNodes_range (h : ℕ) (allLeaves : List (Node C))
    (hbound : ∀ n ∈ allLeaves, n.coord.x < 2 ^ (h - 1)) :
    allLeaves = leavesInRange allLeaves (0 * 2 ^ (h - 1)) (2 ^ (h - 1)) := by
  unfold leavesInRange
  rw [List.filter_eq_self.mpr]
  intro n hn
  have := hbound n hn
  simp
  omega

/-- `multi_threaded::build_tree` on distinct bounded leaves succeeds and
returns the canonical root together with a store holding canonical nodes,
including every bottom-layer leaf. -/
theorem buildTreeMulti_canonical (h sd : ℕ) (l : List (InputLeafNode C))
    (hh : 2 ≤ h) (hl : l ≠ [])
    (hnodup : (l.map (fun n => n.xCoord)).Nodup)
    (hbound : ∀ n ∈ l, n.xCoord < 2 ^ (h - 1)) :
    ∃ ins,
      buildTreeMulti mergeC padF spawn h sd l = .ok
        ⟨canonicalNode mergeC padF (sortedNodes l) (h - 1) 0,
          ((canonicalNode mergeC padF (sortedNodes l) (h - 1) 0).coord,
            canonicalNode mergeC padF (sortedNodes l) (h - 1) 0) :: ins, h⟩ ∧
      (∀ q ∈ ins, q.2.coord = q.1 ∧
        q.2 = canonicalNode mergeC padF (sortedNodes l) q.1.y q.1.x) ∧
      (∀ n ∈ sortedNodes l, (n.coord, n) ∈ ins) ∧
      (∀ q ∈ ins, q.1.y = 0 → (q.2 ∈ sortedNodes l ∨ sd = h)) := by
  have hpwlt := sortLeafNodes_pairwise_lt hnodup
  have hdup := verifyNoDuplicateLeaves_ok hpwlt
  have hsort : XSorted (sortedNodes l) := sortedNodes_xsorted hnodup
  have hy0 : ∀ n ∈ sortedNodes l, n.coord.y = 0 := sortedNodes_y0
  have hboundL : ∀ n ∈ sortedNodes l, n.coord.x < 2 ^ (h - 1) := sortedNodes_bound hbound
  have hneL : sortedNodes l ≠ [] := sortedNodes_ne_nil hl
  have hrange := sortedNodes_range h (sortedNodes l) hboundL
  obtain ⟨ins, heq, hcanon, hmemins, hy0ins⟩ :=
    buildNode_canonical mergeC padF spawn (sortedNodes l) hsort hy0 h sd (h - 1)
      (by omega) 0 (sortedNodes l) hrange hneL
  refine ⟨ins, ?_, hcanon, hmemins, hy0ins⟩
  simp only [buildTreeMulti, hdup]
  unfold buildNode
  rw [buildTreeMulti_params h sd hh]
  rw [show (canonParams h sd (h - 1) 0).y = h - 1 from rfl]
  rw [show (sortLeafNodes l).map InputLeafNode.toNode = sortedNodes l from rfl]
  simp only [heq]

end MultiPipeline

-- -----------------------------------------------------------------------------------------------
-- Store lookups in a canonical store.

section StoreLemmas

variable {C : Type} (mergeC : C → C → C) (padF : Coordinate → C)

/-- Lookup at the head key. -/
theorem storeGet_head (c : Coordinate) (n : Node C) (s : StoreList C) :
    storeGet ((c, n) :: s) c = some n := by
  unfold storeGet
  rw [List.find?_cons_of_pos _ (by simp)]
  rfl

/-- Lookup skips an entry with a different key. -/
theorem storeGet_cons_ne (c0 : Coordinate) (n0 : Node C) (s : StoreList C)
    (c : Coordinate) (h : c0 ≠ c) :
    storeGet ((c0, n0) :: s) c = storeGet s c := by
  unfold storeGet
  rw [List.find?_cons_of_neg _ (by simp [h])]

/-- In a store whose every entry holds the canonical node of its key, lookup
of a present key returns that canonical node. -/
theorem storeGet_all_canonical (allLeaves : List (Node C)) {s : StoreList C}
    (hall : ∀ q ∈ s, q.2 = canonicalNode mergeC padF allLeaves q.1.y q.1.x)
    {c : Coordinate} {n : Node C} (hmem : (c, n) ∈ s)
    (hn : canonicalNode mergeC padF allLeaves c.y c.x = n) :
    storeGet s c = some n := by
  unfold storeGet
  have hex : ∃ q ∈ s, (fun p => decide (p.1 = c)) q = true := ⟨(c, n), hmem, by simp⟩
  obtain ⟨q, hq⟩ := Option.isSome_iff_exists.mp (List.find?_isSome.mpr hex)
  rw [hq]
  have hqs := List.mem_of_find?_eq_some hq
  have hqc : q.1 = c := by simpa using List.find?_some hq
  have h2 := hall q hqs
  show some q.2 = some n
  rw [h2, hqc, hn]

end StoreLemmas


-- -----------------------------------------------------------------------------------------------
-- Heights, path siblings and path reconstruction.

/-- `MIN_STORE_DEPTH` (tree_builder.rs). -/
def MIN_STORE_DEPTH : ℕ := 1

/-- `Height::from_y_coord` (height.rs): `Height::from(y + 1)`, which panics
(`none`) outside `[MIN_HEIGHT, MAX_HEIGHT]`. -/
def heightFromYCoord (y : ℕ) : Option ℕ :=
  if MIN_HEIGHT ≤ y + 1 ∧ y + 1 ≤ MAX_HEIGHT then some (y + 1) else none

/-- `binary_tree::PathSiblingsError` (path_siblings.rs). -/
inductive PathSiblingsError : Type
  | InvalidSibling
  | TooFewSiblings
deriving DecidableEq, Repr

/-- `InclusionProofError` (inclusion_proof.rs); `PathError` wraps the
`TreePathError`/`PathSiblingsError` conversions. -/
inductive InclusionProofError : Type
  | PathError (e : PathSiblingsError)
  | RootMismatch
  | RangeProofError
  | MissingRangeProof
deriving DecidableEq, Repr

/-- Modelled from the spec: `Coordinate::subtree_x_coord_bounds` (defined in
a file absent from the snapshot) — the bottom-layer x-range of the subtree
rooted at a coordinate is `[x * 2^y, x * 2^y + 2^y - 1]` (spec §4.6 "the
leaves inside that subtree's x-range"). `build_with_coord`
(multi_threaded.rs) then assembles the recursion parameters with
`store_depth = MIN_STORE_DEPTH`. -/
def paramsWithCoord (h : ℕ) (c : Coordinate) : RecursionParams :=
  { xMin := c.x * 2 ^ c.y
    xMid := (c.x * 2 ^ c.y + (c.x * 2 ^ c.y + 2 ^ c.y - 1)) / 2
    xMax := c.x * 2 ^ c.y + 2 ^ c.y - 1
    y := c.y
    height := h
    storeDepth := MIN_STORE_DEPTH }

/-- The leaf nodes of the tree store that fall inside the subtree rooted at
`c` (path_siblings.rs `build_using_multi_threaded_algorithm`: the loop over
`params.x_coord_range()` collecting `tree.get_node((x, 0))`). -/
def gatherLeaves {C : Type} (tree : BinaryTree C) (c : Coordinate) : List (Node C) :=
  (List.range (2 ^ c.y)).filterMap (fun i => tree.getNode ⟨0, c.x * 2 ^ c.y + i⟩)

/-- The `node_builder` closure of
`PathSiblings::build_using_multi_threaded_algorithm` (path_siblings.rs):
collect the store's leaves of the subtree, return a padding node if there are
none, otherwise rebuild the subtree node with `build_node`;  `none` models a
panic inside the rebuild. -/
def nodeBuilderMulti {C : Type} (mergeC : C → C → C) (padF : Coordinate → C)
    (spawn : RecursionParams → Bool) (tree : BinaryTree C) (c : Coordinate) :
    Option (Node C) :=
  let leaves := gatherLeaves tree c
  if leaves.isEmpty then some ⟨c, padF c⟩
  else (buildNode mergeC padF spawn (paramsWithCoord tree.height c) leaves).map Prod.snd

/-- `tree.get_node(&sibling_coord).unwrap_or_else(|| node_builder(...))`
(path_siblings.rs `build`): the store lookup with regeneration fallback. -/
def lookupOrBuild {C : Type} (tree : BinaryTree C)
    (nodeBuilder : Coordinate → Option (Node C)) (c : Coordinate) :
    Option (Node C) :=
  match tree.getNode c with
  | some n => some n
  | none => nodeBuilder c

/-- The loop of `PathSiblings::build` (path_siblings.rs): walk up from the
leaf coordinate for `max_y_coord = height - 1` steps, at each layer taking
the sibling from the store or regenerating it with `node_builder`. -/
def pathSiblingsBuildGo {C : Type} (tree : BinaryTree C)
    (nodeBuilder : Coordinate → Option (Node C)) :
    ℕ → Coordinate → Option (List (Node C))
  | 0, _ => some []
  | k + 1, cur =>
    match lookupOrBuild tree nodeBuilder cur.siblingCoord with
    | none => none
    | some sibling =>
      match pathSiblingsBuildGo tree nodeBuilder k cur.parentCoord with
      | none => none
      | some rest => some (sibling :: rest)

/-- `PathSiblings::build` (multi-threaded variant): the sibling list of the
leaf's path, ordered bottom to top. -/
def pathSiblingsBuild {C : Type} (mergeC : C → C → C) (padF : Coordinate → C)
    (spawn : RecursionParams → Bool) (tree : BinaryTree C) (leafNode : Node C) :
    Option (List (Node C)) :=
  pathSiblingsBuildGo tree (nodeBuilderMulti mergeC padF spawn tree)
    (tree.height - 1) leafNode.coord

/-- `MatchedPairRef::from` (path_siblings.rs): orient two nodes into a
(left, right) sibling pair, or fail with `InvalidSibling`. -/
def matchedPairRefFrom {C : Type} (left right : Node C) :
    Except PathSiblingsError (Node C × Node C) :=
  if right.isRightSiblingOf left then .ok (left, right)
  else if right.isLeftSiblingOf left then .ok (right, left)
  else .error .InvalidSibling

/-- The loop of `PathSiblings::construct_path`: repeatedly pair the current
top node with the next sibling and merge; returns the path nodes from the
leaf upward (leaf first, root last). -/
def constructPathGo {C : Type} (mergeC : C → C → C) :
    Node C → List (Node C) → Except PathSiblingsError (List (Node C))
  | cur, [] => .ok [cur]
  | cur, s :: rest =>
    match matchedPairRefFrom s cur with
    | .error e => .error e
    | .ok (l, r) =>
      match constructPathGo mergeC (pairMergeNodes mergeC l r) rest with
      | .error e => .error e
      | .ok tail => .ok (cur :: tail)

/-- `PathSiblings::construct_path` (path_siblings.rs): requires at least
`MIN_HEIGHT` siblings, then reconstructs every node of the path. -/
def constructPath {C : Type} (mergeC : C → C → C) (siblings : List (Node C))
    (leaf : Node C) : Except PathSiblingsError (List (Node C)) :=
  if siblings.length < MIN_HEIGHT then .error .TooFewSiblings
  else constructPathGo mergeC leaf siblings

-- -----------------------------------------------------------------------------------------------
-- Range proofs and the aggregation factor.

/-- Modelled from the spec: the `AggregationFactor` enum
(inclusion_proof/aggregation_factor.rs is absent from the snapshot) — spec
§4.8: `Percent(p)` gives `k = floor(height * p / 100)`, `Divisor(d)` gives
`k = floor(height / d)`, the default is 100% aggregation. -/
inductive AggregationFactor : Type
  | Divisor (d : ℕ)
  | Percent (p : ℕ)
deriving DecidableEq, Repr

namespace AggregationFactor

/-- Modelled from the spec: `AggregationFactor::apply_to`. -/
def applyTo : AggregationFactor → ℕ → ℕ
  | .Divisor d, height => height / d
  | .Percent p, height => height * p / 100

/-- Modelled from the spec: the default aggregation factor (100%). -/
def default : AggregationFactor := .Percent 100

/-- Modelled from the spec: `is_zero` — no nodes go to the aggregated
proof. -/
def isZero (f : AggregationFactor) (height : ℕ) : Bool :=
  decide (f.applyTo height = 0)

/-- Modelled from the spec: `is_max` — all nodes go to the aggregated
proof. -/
def isMax (f : AggregationFactor) (height : ℕ) : Bool :=
  decide (f.applyTo height = height)

end AggregationFactor

/-- The smallest power of two that is at least `k` (the Bulletproofs
aggregation width). -/
def nextPow2 (k : ℕ) : ℕ :=
  (((List.range (k + 1)).map (fun e => 2 ^ e)).find? (fun p => decide (k ≤ p))).getD 1

/-- Modelled from the spec: an individual Bulletproofs range proof
(inclusion_proof/individual_range_proof.rs is absent from the snapshot).
Spec §4.7: the proof demonstrates `0 ≤ liability ≤ 2^n - 1` for the value
inside a Pedersen commitment; the model simply records the opening, and
verification checks that the opening matches the commitment and that the
value is in range. -/
structure IndividualRangeProof where
  value : ℕ
  blinding : Scalar
deriving DecidableEq

/-- Modelled from the spec: `IndividualRangeProof::generate`. -/
def IndividualRangeProof.generate (value : ℕ) (blinding : Scalar) :
    IndividualRangeProof := ⟨value, blinding⟩

/-- Modelled from the spec: `IndividualRangeProof::verify` against a
commitment with bit length `n`. -/
def IndividualRangeProof.verify (p : IndividualRangeProof) (com : Com) (n : ℕ) : Bool :=
  decide (pedersen p.value p.blinding = com) && decide (p.value < 2 ^ n)

/-- Modelled from the spec: an aggregated Bulletproofs range proof
(inclusion_proof/aggregated_range_proof.rs is absent from the snapshot).
Spec §4.7: inputs shorter than a power of two are zero-padded with `(0, 1)`
sentinel pairs whose commitment is `g1^0 * g2^1`. -/
structure AggregatedRangeProof where
  pairs : List (ℕ × Scalar)
deriving DecidableEq

/-- Modelled from the spec: `AggregatedRangeProof::generate` over the
`(liability, blinding)` pairs, padded to the next power of two. -/
def AggregatedRangeProof.generate (pairs : List (ℕ × Scalar)) :
    AggregatedRangeProof :=
  ⟨pairs ++ List.replicate (nextPow2 pairs.length - pairs.length) (0, 1)⟩

/-- Modelled from the spec: `AggregatedRangeProof::verify` against the
commitment list (padded the same way), with bit length `n`. -/
def AggregatedRangeProof.verify (p : AggregatedRangeProof) (coms : List Com)
    (n : ℕ) : Bool :=
  let padded := coms ++ List.replicate (nextPow2 coms.length - coms.length) (pedersen 0 1)
  decide (p.pairs.length = padded.length) &&
    (p.pairs.zip padded).all
      (fun q => decide (pedersen q.1.1 q.1.2 = q.2) && decide (q.1.1 < 2 ^ n))

-- -----------------------------------------------------------------------------------------------
-- The inclusion proof (inclusion_proof.rs).

/-- Node conversion `Node<FullNodeContent> -> Node<HiddenNodeContent>`. -/
def Node.toHidden (n : Node FullNodeContent) : Node HiddenNodeContent :=
  ⟨n.coord, n.content.toHidden⟩

/-- `InclusionProof` (inclusion_proof.rs). -/
structure InclusionProof where
  pathSiblings : List (Node HiddenNodeContent)
  leafNode : Node FullNodeContent
  individualRangeProofs : Option (List IndividualRangeProof)
  aggregatedRangeProof : Option AggregatedRangeProof
  aggregationFactor : AggregationFactor
  upperBoundBitLength : ℕ

/-- `InclusionProof::generate` (inclusion_proof.rs): reconstruct the full
path, split it at the aggregation index (`split_off` panics — `none` — if the
index exceeds the path length), build the range proofs, convert the siblings
to hidden content.  `Height::from_y_coord` panicking is also `none`. -/
def InclusionProof.generate (leafNode : Node FullNodeContent)
    (pathSiblings : List (Node FullNodeContent))
    (aggregationFactor : AggregationFactor) (upperBoundBitLength : ℕ) :
    Option (Except InclusionProofError InclusionProof) :=
  match heightFromYCoord pathSiblings.length with
  | none => none
  | some treeHeight =>
    let aggregationIndex := aggregationFactor.applyTo treeHeight
    match constructPath FullNodeContent.merge pathSiblings leafNode with
    | .error e => some (.error (.PathError e))
    | .ok nodes =>
      if nodes.length < aggregationIndex then none
      else
        let nodesForAggregation := nodes.take aggregationIndex
        let nodesForIndividualProofs := nodes.drop aggregationIndex
        let aggregatedRangeProof :=
          if aggregationFactor.isZero treeHeight then none
          else some (AggregatedRangeProof.generate
            (nodesForAggregation.map
              (fun nd => (nd.content.liability, nd.content.blindingFactor))))
        let individualRangeProofs :=
          if aggregationFactor.isMax treeHeight then none
          else some (nodesForIndividualProofs.map
            (fun nd => IndividualRangeProof.generate nd.content.liability
              nd.content.blindingFactor))
        some (.ok
          { pathSiblings := pathSiblings.map Node.toHidden
            leafNode := leafNode
            individualRangeProofs := individualRangeProofs
            aggregatedRangeProof := aggregatedRangeProof
            aggregationFactor := aggregationFactor
            upperBoundBitLength := upperBoundBitLength })

/-- The derived `PartialEq` on `Node<HiddenNodeContent>`: coordinates are
compared with their own equality and contents with `HiddenNodeContent`'s
hash-only `PartialEq`. -/
def nodeHiddenEq (a b : Node HiddenNodeContent) : Bool :=
  decide (a.coord = b.coord) && HiddenNodeContent.partialEq a.content b.content

/-- `InclusionProof::verify_merkle_path` (inclusion_proof.rs): compare the
last reconstructed path node against a root node assembled from the given
root hash, a dummy commitment and coordinate `(height - 1, 0)`;  `none`
models the `expect` on an empty path. -/
def InclusionProof.verifyMerklePath (rootHash : HashVal) (treeHeight : ℕ)
    (pathNodes : List (Node HiddenNodeContent)) :
    Option (Except InclusionProofError Unit) :=
  let dummyCommitment := pedersen 0 0
  let root : Node HiddenNodeContent :=
    ⟨⟨treeHeight - 1, 0⟩, ⟨dummyCommitment, rootHash⟩⟩
  match pathNodes.getLast? with
  | none => none
  | some constructedRoot =>
    some (if nodeHiddenEq constructedRoot root then .ok () else .error .RootMismatch)

/-- `InclusionProof::verify_range_proofs` (inclusion_proof.rs): split the
path commitments at the aggregation index (`split_off` panic modelled by
`none`), check whichever optional proofs are present (the individual proofs
are zipped with their commitments, silently truncating to the shorter list),
and fail with `MissingRangeProof` when neither was checked. -/
def InclusionProof.verifyRangeProofs (p : InclusionProof) (treeHeight : ℕ)
    (pathNodes : List (Node HiddenNodeContent)) :
    Option (Except InclusionProofError Unit) :=
  let aggregationIndex := p.aggregationFactor.applyTo treeHeight
  let commitments := pathNodes.map (fun node => node.content.commitment)
  if commitments.length < aggregationIndex then none
  else
    let commitmentsForAggregatedProofs := commitments.take aggregationIndex
    let commitmentsForIndividualProofs := commitments.drop aggregationIndex
    let step1 : Except InclusionProofError Bool :=
      match p.individualRangeProofs with
      | none => .ok false
      | some proofs =>
        if (commitmentsForIndividualProofs.zip proofs).all
            (fun q => q.2.verify q.1 p.upperBoundBitLength) then .ok true
        else .error .RangeProofError
    some (match step1 with
    | .error e => .error e
    | .ok atLeastOneChecked1 =>
      match p.aggregatedRangeProof with
      | none =>
        if atLeastOneChecked1 then .ok () else .error .MissingRangeProof
      | some proof =>
        if proof.verify commitmentsForAggregatedProofs p.upperBoundBitLength then .ok ()
        else .error .RangeProofError)

/-- `InclusionProof::verify` (inclusion_proof.rs): reconstruct the hidden
path from the revealed leaf and the hidden siblings, then check the Merkle
path and the range proofs. -/
def InclusionProof.verify (p : InclusionProof) (rootHash : HashVal) :
    Option (Except InclusionProofError Unit) :=
  match heightFromYCoord p.pathSiblings.length with
  | none => none
  | some treeHeight =>
    let hiddenLeaf := p.leafNode.toHidden
    match constructPath HiddenNodeContent.merge p.pathSiblings hiddenLeaf with
    | .error e => some (.error (.PathError e))
    | .ok constructedPath =>
      match InclusionProof.verifyMerklePath rootHash treeHeight constructedPath with
      | none => none
      | some (.error e) => some (.error e)
      | some (.ok _) => p.verifyRangeProofs treeHeight constructedPath

-- -----------------------------------------------------------------------------------------------
-- NDM-SMT accumulator (accumulators/ndm_smt.rs) and the tree facade
-- (dapol_tree.rs).

/-- `Entity` (entity.rs). -/
structure Entity where
  liability : ℕ
  id : String
deriving DecidableEq, Repr

/-- Modelled from the spec: `OutOfBoundsError` of the x-coord generator
(accumulators/ndm_smt/x_coord_generator.rs is absent from the snapshot). -/
inductive OutOfBoundsError : Type
  | OutOfBounds
deriving DecidableEq, Repr

/-- `NdmSmtError` (accumulators/ndm_smt.rs). -/
inductive NdmSmtError : Type
  | TreeError (e : TreeBuildError)
  | HeightTooSmall (e : OutOfBoundsError)
  | InclusionProofPathSiblingsGenerationError
  | InclusionProofGenerationError (e : InclusionProofError)
  | EntityIdNotFound
  | DuplicateEntityIds (id : String)
deriving DecidableEq, Repr

/-- Modelled from the spec: `RandomXCoordGenerator` (spec §4.4) — the lazy
Fisher-Yates state: the swap map, the call counter `i` and
`N = 2^(height-1)`. -/
structure RandomXCoordGenerator where
  swapMap : List (ℕ × ℕ)
  i : ℕ
  maxValue : ℕ
deriving DecidableEq, Repr

namespace RandomXCoordGenerator

/-- Modelled from the spec: `RandomXCoordGenerator::new`. -/
def new (height : ℕ) : RandomXCoordGenerator :=
  ⟨[], 0, 2 ^ (height - 1)⟩

/-- Modelled from the spec: follow the swap-map chain
(`while swap_map[x] exists: x = swap_map[x]`), with enough fuel for any
reachable chain. -/
def followChain (swapMap : List (ℕ × ℕ)) : ℕ → ℕ → ℕ
  | 0, x => x
  | fuel + 1, x =>
    match swapMap.lookup x with
    | none => x
    | some x' => followChain swapMap fuel x'

/-- Modelled from the spec: `new_unique_x_coord` — fail with `OutOfBounds`
when `i ≥ N`, otherwise sample `k ∈ [i, N)` (via the randomness oracle's
value for this call), resolve the chain starting at `swap_map[k].getD k`,
record `swap_map[k] = i` and return the resolved coordinate. -/
def newUniqueXCoord (rand : ℕ) (g : RandomXCoordGenerator) :
    Except OutOfBoundsError (ℕ × RandomXCoordGenerator) :=
  if g.maxValue ≤ g.i then .error .OutOfBounds
  else
    let k := g.i + rand % (g.maxValue - g.i)
    let x := followChain g.swapMap g.swapMap.length ((g.swapMap.lookup k).getD k)
    .ok (x, ⟨(k, g.i) :: g.swapMap, g.i + 1, g.maxValue⟩)

end RandomXCoordGenerator

/-- The x-coord generation loop of `NdmSmt::new`: one `new_unique_x_coord`
call per entity, with the randomness oracle giving each call's sample. -/
def genXCoords (rand : ℕ → ℕ) :
    RandomXCoordGenerator → ℕ → Except OutOfBoundsError (List ℕ)
  | _, 0 => .ok []
  | g, count + 1 => do
    let (x, g') ← RandomXCoordGenerator.newUniqueXCoord (rand g.i) g
    let rest ← genXCoords rand g' count
    .ok (x :: rest)

/-- `NdmSmt` (accumulators/ndm_smt.rs): the tree and the entity-to-x-coord
mapping (an association list standing for the `HashMap`). -/
structure NdmSmt where
  binaryTree : BinaryTree FullNodeContent
  entityMapping : List (String × ℕ)

/-- The duplicate-entity-id check of `NdmSmt::new`: walk the
`(entity, x_coord)` tuples, erroring on the first `entity.id` already in the
mapping, otherwise inserting it. -/
def buildEntityMapping :
    List (String × ℕ) → List (Entity × ℕ) → Except NdmSmtError (List (String × ℕ))
  | acc, [] => .ok acc
  | acc, (e, x) :: rest =>
    if (acc.lookup e.id).isSome then .error (.DuplicateEntityIds e.id)
    else buildEntityMapping (acc ++ [(e.id, x)]) rest

/-- The KDF-derived per-leaf secrets of `NdmSmt::new` (kdf.rs computes them
from the master secret, the salts and the leaf's x-coord; the embedding
abstracts the byte-level derivation into the functions `blind` and `esalt`
of the x-coord). -/
def ndmLeafNode (blind : ℕ → Scalar) (esalt : ℕ → ℕ) (e : Entity) (x : ℕ) :
    InputLeafNode FullNodeContent :=
  ⟨FullNodeContent.new_leaf e.liability (blind x) e.id (esalt x), x⟩

/-- The padding-node closure `new_padding_node_content_closure`
(accumulators/ndm_smt.rs): `FullNodeContent::new_pad` at the coordinate, with
KDF-derived blinding factor and salt (abstracted into `padBlind` and
`padSalt`). -/
def ndmPadF (padBlind : Coordinate → Scalar) (padSalt : Coordinate → ℕ)
    (c : Coordinate) : FullNodeContent :=
  FullNodeContent.new_pad (padBlind c) c (padSalt c)

/-- `NdmSmt::new` (accumulators/ndm_smt.rs): generate one random x-coord per
entity (this is the step that fails first when the height is too small),
convert entities to leaf nodes, reject duplicate entity ids, and build the
tree with the multi-threaded algorithm at the default store depth;  `none` is
a build panic. -/
def ndmSmtNew (rand : ℕ → ℕ) (blind : ℕ → Scalar) (esalt : ℕ → ℕ)
    (padBlind : Coordinate → Scalar) (padSalt : Coordinate → ℕ)
    (spawn : RecursionParams → Bool) (height : ℕ) (entities : List Entity) :
    Option (Except NdmSmtError NdmSmt) :=
  match genXCoords rand (RandomXCoordGenerator.new height) entities.length with
  | .error e => some (.error (.HeightTooSmall e))
  | .ok xCoords =>
    let entityCoordTuples := entities.zip xCoords
    let leafNodes := entityCoordTuples.map (fun p => ndmLeafNode blind esalt p.1 p.2)
    match buildEntityMapping [] entityCoordTuples with
    | .error e => some (.error e)
    | .ok entityMapping =>
      match buildUsingMultiThreadedAlgorithm FullNodeContent.merge
          (ndmPadF padBlind padSalt) spawn (some height) none (some leafNodes) with
      | .panic => none
      | .err e => some (.error (.TreeError e))
      | .ok tree => some (.ok ⟨tree, entityMapping⟩)

/-- `NdmSmt::generate_inclusion_proof` (accumulators/ndm_smt.rs): map the
entity id to its leaf, build the path siblings with the multi-threaded
algorithm, and assemble the inclusion proof;  `none` is a panic in the
sibling regeneration or proof generation. -/
def ndmSmtGenerateInclusionProof (padBlind : Coordinate → Scalar)
    (padSalt : Coordinate → ℕ) (spawn : RecursionParams → Bool)
    (smt : NdmSmt) (entityId : String)
    (aggregationFactor : AggregationFactor) (upperBoundBitLength : ℕ) :
    Option (Except NdmSmtError InclusionProof) :=
  match (smt.entityMapping.lookup entityId).bind
      (fun x => smt.binaryTree.getLeafNode x) with
  | none => some (.error .EntityIdNotFound)
  | some leafNode =>
    match pathSiblingsBuild FullNodeContent.merge (ndmPadF padBlind padSalt) spawn
        smt.binaryTree leafNode with
    | none => none
    | some pathSiblings =>
      match InclusionProof.generate leafNode pathSiblings aggregationFactor
          upperBoundBitLength with
      | none => none
      | some (.error e) => some (.error (.InclusionProofGenerationError e))
      | some (.ok proof) => some (.ok proof)

/-- `NdmSmt::root_hash` (accumulators/ndm_smt.rs). -/
def NdmSmt.rootHash (smt : NdmSmt) : HashVal :=
  smt.binaryTree.root.content.hash

/-- `DapolTreeError` (dapol_tree.rs). -/
inductive DapolTreeError : Type
  | AccumulatorError (e : NdmSmtError)
  | RootVerificationError
deriving DecidableEq, Repr

/-- `DapolTree::verify_root_commitment` (dapol_tree.rs): recompute the
Pedersen commitment from the secret root data and compare with the public
commitment. -/
def verifyRootCommitment (publicCommitment : Com) (liability : ℕ)
    (blindingFactor : Scalar) : Except DapolTreeError Unit :=
  if pedersen liability blindingFactor = publicCommitment then .ok ()
  else .error .RootVerificationError

-- -----------------------------------------------------------------------------------------------
-- Liability sums and commitment consistency of the canonical tree.

/-- Total liability of a list of full-content nodes. -/
def liabilitySum (l : List (Node FullNodeContent)) : ℕ :=
  (l.map (fun n => n.content.liability)).sum

/-- A range's liability is bounded by the total liability. -/
theorem liabilitySum_range_le (l : List (Node FullNodeContent)) (lo size : ℕ) :
    liabilitySum (leavesInRange l lo size) ≤ liabilitySum l := by
  unfold liabilitySum leavesInRange
  exact List.Sublist.sum_le_sum
    ((List.filter_sublist l).map (fun n => n.content.liability))
    (by intro x _; exact Nat.zero_le x)

/-- Splitting a liability sum over a range split. -/
theorem liabilitySum_append (l1 l2 : List (Node FullNodeContent)) :
    liabilitySum (l1 ++ l2) = liabilitySum l1 + liabilitySum l2 := by
  unfold liabilitySum
  rw [List.map_append, List.sum_append]

/-- The bottom leaf range of an `XSorted` layer at an occupied position is
exactly that leaf. -/
theorem leavesInRange_bottom_found {C : Type} {l : List (Node C)}
    (hs : XSorted l) {n : Node C} (hn : n ∈ l) :
    leavesInRange l (n.coord.x * 2 ^ 0) (2 ^ 0) = [n] := by
  induction l with
  | nil => simp at hn
  | cons a t ih =>
    obtain ⟨ha, ht⟩ := List.pairwise_cons.mp hs
    rcases List.mem_cons.mp hn with hn | hn
    · subst hn
      unfold leavesInRange
      rw [List.filter_cons_of_pos (by simp)]
      rw [List.filter_eq_nil_iff.mpr]
      intro m hm
      have := ha m hm
      simp
      omega
    · have hlt : a.coord.x < n.coord.x := ha n hn
      unfold leavesInRange at ih ⊢
      rw [List.filter_cons_of_neg (by simp; omega)]
      exact ih ht hn

/-- The bottom leaf range at an unoccupied position is empty. -/
theorem leavesInRange_bottom_none {C : Type} {l : List (Node C)} {x : ℕ}
    (hnone : ∀ n ∈ l, n.coord.x ≠ x) :
    leavesInRange l (x * 2 ^ 0) (2 ^ 0) = [] := by
  unfold leavesInRange
  rw [List.filter_eq_nil_iff]
  intro n hn
  have := hnone n hn
  simp
  omega

/-- Contents whose commitment opens to their liability and blinding factor:
the invariant maintained by `new_leaf`, `new_pad` and `merge`. -/
def ContentConsistent (c : FullNodeContent) : Prop :=
  c.commitment = pedersen c.liability c.blindingFactor

/-- In a canonical tree whose leaves have consistent contents, whose padding
closure produces zero-liability consistent contents, and whose total
liability fits in a `u64`, every canonical node's liability is the exact
(unwrapped) sum of its leaf range and its commitment opens to its liability
and blinding factor. -/
theorem canonicalNode_content (padF : Coordinate → FullNodeContent)
    (allLeaves : List (Node FullNodeContent)) (hsort : XSorted allLeaves)
    (hy0 : ∀ n ∈ allLeaves, n.coord.y = 0)
    (hleaf : ∀ n ∈ allLeaves, ContentConsistent n.content)
    (hpad : ∀ c, ContentConsistent (padF c) ∧ (padF c).liability = 0)
    (hsum : liabilitySum allLeaves < U64) :
    ∀ y x,
      (canonicalNode FullNodeContent.merge padF allLeaves y x).content.liability =
        liabilitySum (leavesInRange allLeaves (x * 2 ^ y) (2 ^ y)) ∧
      ContentConsistent
        (canonicalNode FullNodeContent.merge padF allLeaves y x).content := by
  intro y
  induction y with
  | zero =>
    intro x
    by_cases hocc : ∃ n ∈ allLeaves, n.coord.x = x
    · obtain ⟨n, hn, hnx⟩ := hocc
      subst hnx
      rw [canonicalNode_leaf FullNodeContent.merge padF hsort hy0 hn]
      rw [leavesInRange_bottom_found hsort hn]
      refine ⟨?_, hleaf n hn⟩
      unfold liabilitySum
      simp
    · push_neg at hocc
      rw [canonicalNode_leaf_pad FullNodeContent.merge padF allLeaves x hocc]
      rw [leavesInRange_bottom_none hocc]
      exact ⟨(hpad ⟨0, x⟩).2, (hpad ⟨0, x⟩).1⟩
  | succ y ih =>
    intro x
    by_cases hemp : leavesInRange allLeaves (x * 2 ^ (y + 1)) (2 ^ (y + 1)) = []
    · rw [canonicalNode_pad FullNodeContent.merge padF allLeaves (y + 1) x
        (by omega) hemp, hemp]
      exact ⟨(hpad ⟨y + 1, x⟩).2, (hpad ⟨y + 1, x⟩).1⟩
    · rw [canonicalNode_merge FullNodeContent.merge padF allLeaves (y + 1) x
        (by omega) hemp]
      simp only [Nat.add_sub_cancel]
      obtain ⟨ihLl, ihLc⟩ := ih (2 * x)
      obtain ⟨ihRl, ihRc⟩ := ih (2 * x + 1)
      have hsplit := leavesInRange_split hsort (x * 2 ^ (y + 1)) (2 ^ y) (2 ^ y)
      rw [show (2 : ℕ) ^ y + 2 ^ y = 2 ^ (y + 1) from by ring,
        show x * 2 ^ (y + 1) + 2 ^ y = (2 * x + 1) * 2 ^ y from by ring] at hsplit
      rw [show x * 2 ^ (y + 1) = (2 * x) * 2 ^ y from by ring] at hsplit ⊢
      have hb : liabilitySum (leavesInRange allLeaves ((2 * x) * 2 ^ y) (2 ^ y)) +
          liabilitySum (leavesInRange allLeaves ((2 * x + 1) * 2 ^ y) (2 ^ y)) < U64 := by
        have h1 := liabilitySum_range_le allLeaves ((2 * x) * 2 ^ y) (2 ^ (y + 1))
        rw [hsplit, liabilitySum_append] at h1
        omega
      constructor
      · show ((canonicalNode FullNodeContent.merge padF allLeaves y (2 * x)).content.liability +
            (canonicalNode FullNodeContent.merge padF allLeaves y (2 * x + 1)).content.liability) %
            U64 = _
        rw [ihLl, ihRl, hsplit, liabilitySum_append]
        exact Nat.mod_eq_of_lt hb
      · show (canonicalNode FullNodeContent.merge padF allLeaves y (2 * x)).content.commitment +
            (canonicalNode FullNodeContent.merge padF allLeaves y (2 * x + 1)).content.commitment =
          pedersen
            (((canonicalNode FullNodeContent.merge padF allLeaves y (2 * x)).content.liability +
              (canonicalNode FullNodeContent.merge padF allLeaves y
                (2 * x + 1)).content.liability) % U64)
            ((canonicalNode FullNodeContent.merge padF allLeaves y
                (2 * x)).content.blindingFactor +
              (canonicalNode FullNodeContent.merge padF allLeaves y
                (2 * x + 1)).content.blindingFactor)
        rw [ihLc, ihRc, ihLl, ihRl]
        have hmod : (liabilitySum (leavesInRange allLeaves ((2 * x) * 2 ^ y) (2 ^ y)) +
            liabilitySum (leavesInRange allLeaves ((2 * x + 1) * 2 ^ y) (2 ^ y))) % U64 =
            liabilitySum (leavesInRange allLeaves ((2 * x) * 2 ^ y) (2 ^ y)) +
            liabilitySum (leavesInRange allLeaves ((2 * x + 1) * 2 ^ y) (2 ^ y)) :=
          Nat.mod_eq_of_lt hb
        rw [hmod]
        simp [Com.add_def, pedersen, Nat.cast_add]

-- -----------------------------------------------------------------------------------------------
-- Path-sibling construction on a canonically built tree.

section PathResolution

variable {C : Type} (mergeC : C → C → C) (padF : Coordinate → C) (spawn : RecursionParams → Bool)

/-- The shape `multi_threaded::build_tree` gives a tree (root and store hold
the canonical nodes; at store depths below the height no bottom-layer padding
node is stored). -/
def CanonicalTree (allLeaves : List (Node C)) (t : BinaryTree C) : Prop :=
  XSorted allLeaves ∧
  (∀ n ∈ allLeaves, n.coord.y = 0) ∧
  (∀ n ∈ allLeaves, n.coord.x < 2 ^ (t.height - 1)) ∧
  2 ≤ t.height ∧
  t.root = canonicalNode mergeC padF allLeaves (t.height - 1) 0 ∧
  ∃ ins,
    t.store = ((canonicalNode mergeC padF allLeaves (t.height - 1) 0).coord,
      canonicalNode mergeC padF allLeaves (t.height - 1) 0) :: ins ∧
    (∀ q ∈ ins, q.2.coord = q.1 ∧
      q.2 = canonicalNode mergeC padF allLeaves q.1.y q.1.x) ∧
    (∀ n ∈ allLeaves, (n.coord, n) ∈ ins) ∧
    (∀ q ∈ ins, q.1.y = 0 → q.2 ∈ allLeaves)

/-- Every store entry of a canonical tree holds the canonical node of its
key. -/
theorem canonicalTree_store_all {allLeaves : List (Node C)} {t : BinaryTree C}
    (hct : CanonicalTree mergeC padF allLeaves t) :
    ∀ q ∈ t.store, q.2 = canonicalNode mergeC padF allLeaves q.1.y q.1.x := by
  obtain ⟨-, -, -, -, -, ins, hstore, hcanon, -, -⟩ := hct
  intro q hq
  rw [hstore] at hq
  rcases List.mem_cons.mp hq with hq | hq
  · rw [hq]
    rw [canonicalNode_coord]
  · exact (hcanon q hq).2

/-- A successful store lookup on a canonical tree returns the canonical node
of the requested coordinate. -/
theorem canonicalTree_getNode_some {allLeaves : List (Node C)} {t : BinaryTree C}
    (hct : CanonicalTree mergeC padF allLeaves t) {c : Coordinate} {n : Node C}
    (h : t.getNode c = some n) :
    n = canonicalNode mergeC padF allLeaves c.y c.x := by
  have hall := canonicalTree_store_all mergeC padF hct
  unfold BinaryTree.getNode storeGet at h
  rcases hfind : t.store.find? (fun p => decide (p.1 = c)) with _ | q
  · rw [hfind] at h
    simp at h
  · rw [hfind] at h
    have hqs := List.mem_of_find?_eq_some hfind
    have hqc : q.1 = c := by simpa using List.find?_some hfind
    have hval := hall q hqs
    have hn : n = q.2 := by
      have : some q.2 = some n := h
      exact (Option.some.inj this).symm
    rw [hn, hval, hqc]

/-- Looking up an occupied bottom position on a canonical tree finds the
input leaf. -/
theorem canonicalTree_getNode_leaf {allLeaves : List (Node C)} {t : BinaryTree C}
    (hct : CanonicalTree mergeC padF allLeaves t) {n : Node C} (hn : n ∈ allLeaves) :
    t.getNode ⟨0, n.coord.x⟩ = some n := by
  obtain ⟨hsort, hy0, -, hh2, -, ins, hstore, hcanon, hmem, -⟩ := hct
  unfold BinaryTree.getNode
  rw [hstore]
  rw [storeGet_cons_ne _ _ _ _ (by
    rw [canonicalNode_coord]
    intro hc
    have : t.height - 1 = 0 := congrArg Coordinate.y hc
    omega)]
  apply storeGet_all_canonical mergeC padF allLeaves (fun q hq => (hcanon q hq).2)
  · have hcoord : n.coord = ⟨0, n.coord.x⟩ := by
      have := hy0 n hn
      cases hc : n.coord with
      | mk cy cx =>
        rw [hc] at this
        simp at this
        simp [this]
    rw [← hcoord]
    exact hmem n hn
  · exact canonicalNode_leaf mergeC padF hsort hy0 hn

/-- Looking up an unoccupied bottom position on a canonical tree finds
nothing (at partial store depth no bottom padding node is stored). -/
theorem canonicalTree_getNode_bottom_none {allLeaves : List (Node C)}
    {t : BinaryTree C} (hct : CanonicalTree mergeC padF allLeaves t) {x : ℕ}
    (hnone : ∀ n ∈ allLeaves, n.coord.x ≠ x) :
    t.getNode ⟨0, x⟩ = none := by
  obtain ⟨-, -, -, hh2, -, ins, hstore, hcanon, -, hy0ins⟩ := hct
  unfold BinaryTree.getNode storeGet
  rw [List.find?_eq_none.mpr]
  · rfl
  · intro q hq
    simp only [decide_eq_true_eq]
    intro hqc
    rw [hstore] at hq
    rcases List.mem_cons.mp hq with hq | hq
    · have : q.1 = (canonicalNode mergeC padF allLeaves (t.height - 1) 0).coord := by
        rw [hq]
      rw [canonicalNode_coord] at this
      rw [hqc] at this
      have hy := congrArg Coordinate.y this
      simp at hy
      omega
    · have hy : q.1.y = 0 := by rw [hqc]
      have hleaf := hy0ins q hq hy
      have hcq := (hcanon q hq).1
      apply hnone q.2 hleaf
      rw [hcq, hqc]

/-- The bottom-layer x-coordinate of any node the store resolves. -/
theorem canonicalTree_getNode_bottom_coord {allLeaves : List (Node C)}
    {t : BinaryTree C} (hct : CanonicalTree mergeC padF allLeaves t) {x : ℕ}
    {n : Node C} (h : t.getNode ⟨0, x⟩ = some n) : n.coord = ⟨0, x⟩ := by
  have := canonicalTree_getNode_some mergeC padF hct h
  rw [this]
  exact canonicalNode_coord mergeC padF allLeaves 0 x

/-- The leaves the sibling regeneration gathers from the store are exactly
the canonical leaf range of the subtree. -/
theorem gatherLeaves_eq {allLeaves : List (Node C)} {t : BinaryTree C}
    (hct : CanonicalTree mergeC padF allLeaves t) (c : Coordinate) :
    gatherLeaves t c = leavesInRange allLeaves (c.x * 2 ^ c.y) (2 ^ c.y) := by
  have hsort : XSorted allLeaves := hct.1
  have hmemiff : ∀ n, n ∈ gatherLeaves t c ↔
      n ∈ allLeaves ∧ c.x * 2 ^ c.y ≤ n.coord.x ∧
        n.coord.x < c.x * 2 ^ c.y + 2 ^ c.y := by
    intro n
    unfold gatherLeaves
    rw [List.mem_filterMap]
    constructor
    · rintro ⟨i, hi, hget⟩
      by_cases hocc : ∃ m ∈ allLeaves, m.coord.x = c.x * 2 ^ c.y + i
      · obtain ⟨m, hm, hmx⟩ := hocc
        have hsome := canonicalTree_getNode_leaf mergeC padF hct hm
        rw [hmx] at hsome
        rw [hsome] at hget
        obtain rfl := Option.some.inj hget
        rw [List.mem_range] at hi
        exact ⟨hm, by omega, by omega⟩
      · push_neg at hocc
        rw [canonicalTree_getNode_bottom_none mergeC padF hct hocc] at hget
        simp at hget
    · rintro ⟨hn, hlo, hhi⟩
      refine ⟨n.coord.x - c.x * 2 ^ c.y, by rw [List.mem_range]; omega, ?_⟩
      have := canonicalTree_getNode_leaf mergeC padF hct hn
      rw [show c.x * 2 ^ c.y + (n.coord.x - c.x * 2 ^ c.y) = n.coord.x from by omega]
      exact this
  have hgpw : (gatherLeaves t c).Pairwise (fun a b => a.coord.x < b.coord.x) := by
    unfold gatherLeaves
    refine List.Pairwise.filterMap _ ?_ (List.pairwise_lt_range _)
    intro i j hij m hm m' hm'
    have h1 := canonicalTree_getNode_bottom_coord mergeC padF hct hm
    have h2 := canonicalTree_getNode_bottom_coord mergeC padF hct hm'
    rw [h1, h2]
    simp
    omega
  have hrpw : (leavesInRange allLeaves (c.x * 2 ^ c.y) (2 ^ c.y)).Pairwise
      (fun a b => a.coord.x < b.coord.x) := hsort.leavesInRange _ _
  haveI : IsAntisymm (Node C) (fun a b => a.coord.x < b.coord.x) :=
    ⟨fun a b h1 h2 => absurd h2 (by omega)⟩
  have hnodup1 : (gatherLeaves t c).Nodup :=
    hgpw.imp (fun hab hc => by rw [hc] at hab; omega)
  have hnodup2 : (leavesInRange allLeaves (c.x * 2 ^ c.y) (2 ^ c.y)).Nodup :=
    hrpw.imp (fun hab hc => by rw [hc] at hab; omega)
  apply List.eq_of_perm_of_sorted _ hgpw hrpw
  rw [List.perm_ext_iff_of_nodup hnodup1 hnodup2]
  intro n
  rw [hmemiff n, mem_leavesInRange]

/-- The recursion parameters the sibling regeneration builds from a
coordinate are the canonical parameters at the minimum store depth. -/
theorem paramsWithCoord_canon (h : ℕ) (c : Coordinate) :
    paramsWithCoord h c = canonParams h MIN_STORE_DEPTH c.y c.x := by
  unfold paramsWithCoord canonParams
  rcases c with ⟨y, x⟩
  rcases y with _ | y
  · simp
    omega
  · obtain ⟨p, hp0⟩ : ∃ p, (2:ℕ) ^ y = p := ⟨_, rfl⟩
    have hp1 : 1 ≤ p := hp0 ▸ Nat.one_le_two_pow
    have hp2 : (2:ℕ) ^ (y + 1) = 2 * p := by rw [pow_succ]; omega
    simp only [Nat.add_sub_cancel]
    rw [hp0, hp2]
    congr 1
    have hx : x * (2 * p) = 2 * (x * p) := by ring
    rw [hx]
    generalize x * p = u
    omega

/-- The store lookup with `node_builder` fallback resolves any coordinate of
a canonical tree to its canonical node. -/
theorem canonicalTree_resolve {allLeaves : List (Node C)} {t : BinaryTree C}
    (hct : CanonicalTree mergeC padF allLeaves t) (c : Coordinate) :
    lookupOrBuild t (nodeBuilderMulti mergeC padF spawn t) c =
      some (canonicalNode mergeC padF allLeaves c.y c.x) := by
  unfold lookupOrBuild
  rcases hget : t.getNode c with _ | n
  · simp only []
    unfold nodeBuilderMulti
    rw [gatherLeaves_eq mergeC padF hct c]
    by_cases hemp : leavesInRange allLeaves (c.x * 2 ^ c.y) (2 ^ c.y) = []
    · rw [if_pos (by rw [hemp]; rfl)]
      rw [canonicalNode_empty mergeC padF allLeaves c.y c.x hemp]
    · rw [if_neg (by simpa [List.isEmpty_iff] using hemp)]
      rcases hy : c.y with _ | y
      · exfalso
        obtain ⟨n, hn⟩ := List.exists_mem_of_ne_nil _ hemp
        rw [hy] at hn
        rw [mem_leavesInRange] at hn
        obtain ⟨hnl, hlo, hhi⟩ := hn
        have hx : n.coord.x = c.x := by
          simp only [pow_zero, mul_one] at hlo hhi
          omega
        have := canonicalTree_getNode_leaf mergeC padF hct hnl
        rw [hx] at this
        have hc : c = ⟨0, c.x⟩ := by
          cases c with
          | mk cy cx =>
            simp at hy
            simp [hy]
        rw [← hc] at this
        rw [hget] at this
        simp at this
      · obtain ⟨ins', heq, -, -, -⟩ :=
          buildNode_canonical mergeC padF spawn allLeaves hct.1 hct.2.1 t.height
            MIN_STORE_DEPTH (y + 1) (by omega) c.x
            (leavesInRange allLeaves (c.x * 2 ^ (y + 1)) (2 ^ (y + 1))) rfl
            (by rw [← hy]; exact hemp)
        unfold buildNode
        rw [paramsWithCoord_canon t.height c, hy]
        rw [show (canonParams t.height MIN_STORE_DEPTH (y + 1) c.x).y = y + 1 from rfl]
        rw [hy] at hemp
        rw [heq]
        rfl
  · simp only []
    rw [canonicalTree_getNode_some mergeC padF hct hget]

/-- The canonical sibling list of the path that starts at layer `j`,
position `x`, and climbs `k` layers. -/
def canonSiblings (allLeaves : List (Node C)) : ℕ → ℕ → ℕ → List (Node C)
  | _, _, 0 => []
  | j, x, k + 1 =>
    canonicalNode mergeC padF allLeaves j (sibX x) ::
      canonSiblings allLeaves (j + 1) (x / 2) k

/-- `PathSiblings::build` walks up the canonical tree collecting exactly the
canonical sibling nodes. -/
theorem pathSiblingsBuildGo_canonical {allLeaves : List (Node C)} {t : BinaryTree C}
    (hct : CanonicalTree mergeC padF allLeaves t) :
    ∀ (k j x : ℕ),
      pathSiblingsBuildGo t (nodeBuilderMulti mergeC padF spawn t) k ⟨j, x⟩ =
        some (canonSiblings mergeC padF allLeaves j x k) := by
  intro k
  induction k with
  | zero => intro j x; rfl
  | succ k ih =>
    intro j x
    rw [pathSiblingsBuildGo]
    have hsib : Coordinate.siblingCoord ⟨j, x⟩ = ⟨j, sibX x⟩ := by
      unfold Coordinate.siblingCoord sibX
      by_cases hx : x % 2 = 0 <;> simp [hx]
    have hpar : Coordinate.parentCoord ⟨j, x⟩ = ⟨j + 1, x / 2⟩ := rfl
    rw [hsib, hpar]
    rw [canonicalTree_resolve mergeC padF spawn hct ⟨j, sibX x⟩]
    simp only []
    rw [ih (j + 1) (x / 2)]
    rfl

end PathResolution

-- -----------------------------------------------------------------------------------------------
-- Reconstructing the canonical path from the leaf and the canonical siblings.

/-- One successful step of `construct_path`: when the sibling pairs up with
the current node and the remaining reconstruction succeeds. -/
theorem constructPathGo_cons_ok {C : Type} (mergeC : C → C → C)
    (cur s : Node C) (rest : List (Node C)) (l r : Node C)
    (hm : matchedPairRefFrom s cur = .ok (l, r)) (tail : List (Node C))
    (ht : constructPathGo mergeC (pairMergeNodes mergeC l r) rest = .ok tail) :
    constructPathGo mergeC cur (s :: rest) = .ok (cur :: tail) := by
  simp only [constructPathGo, hm, ht]

section PathReconstruction

variable {C : Type} (mergeC : C → C → C) (padF : Coordinate → C)

/-- The canonical path nodes from layer `j`, position `x`, climbing `k`
layers (the reconstructed node list is one longer than the sibling list). -/
def canonPath (allLeaves : List (Node C)) : ℕ → ℕ → ℕ → List (Node C)
  | j, x, 0 => [canonicalNode mergeC padF allLeaves j x]
  | j, x, k + 1 =>
    canonicalNode mergeC padF allLeaves j x ::
      canonPath allLeaves (j + 1) (x / 2) k

/-- The canonical path as a map over the layer offsets. -/
theorem canonPath_eq_map (allLeaves : List (Node C)) :
    ∀ (k j x : ℕ), canonPath mergeC padF allLeaves j x k =
      (List.range (k + 1)).map
        (fun m => canonicalNode mergeC padF allLeaves (j + m) (x / 2 ^ m)) := by
  intro k
  induction k with
  | zero =>
    intro j x
    simp [canonPath, List.range_succ]
  | succ k ih =>
    intro j x
    rw [canonPath, List.range_succ_eq_map, List.map_cons, List.map_map]
    congr 1
    · simp
    · rw [ih (j + 1) (x / 2)]
      apply List.map_congr_left
      intro m hm
      simp only [Function.comp_apply]
      have h1 : j + 1 + m = j + (m + 1) := by omega
      have h2 : x / 2 / 2 ^ m = x / 2 ^ (m + 1) := by
        rw [Nat.div_div_eq_div_mul, ← pow_succ']
      rw [h1, h2]

/-- The length of the canonical path. -/
theorem canonPath_length (allLeaves : List (Node C)) (k j x : ℕ) :
    (canonPath mergeC padF allLeaves j x k).length = k + 1 := by
  rw [canonPath_eq_map]
  simp

/-- The length of the canonical sibling list. -/
theorem canonSiblings_length (allLeaves : List (Node C)) :
    ∀ (k j x : ℕ), (canonSiblings mergeC padF allLeaves j x k).length = k := by
  intro k
  induction k with
  | zero => intro j x; rfl
  | succ k ih =>
    intro j x
    rw [canonSiblings]
    simp [ih (j + 1) (x / 2)]

/-- Reconstruction succeeds on the canonical siblings and produces the
canonical path. -/
theorem constructPathGo_canonical (allLeaves : List (Node C)) :
    ∀ (k j x : ℕ),
      leavesInRange allLeaves (x * 2 ^ j) (2 ^ j) ≠ [] →
      constructPathGo mergeC (canonicalNode mergeC padF allLeaves j x)
        (canonSiblings mergeC padF allLeaves j x k) =
        .ok (canonPath mergeC padF allLeaves j x k) := by
  intro k
  induction k with
  | zero => intro j x _; rfl
  | succ k ih =>
    intro j x hocc
    rw [canonSiblings, canonPath]
    have hoccP : leavesInRange allLeaves (x / 2 * 2 ^ (j + 1)) (2 ^ (j + 1)) ≠ [] := by
      obtain ⟨n, hn⟩ := List.exists_mem_of_ne_nil _ hocc
      exact List.ne_nil_of_mem (mem_range_parent hn)
    have hL := canonicalNode_coord mergeC padF allLeaves j x
    have hS := canonicalNode_coord mergeC padF allLeaves j (sibX x)
    by_cases hpar : x % 2 = 0
    · have hsx : sibX x = x + 1 := by simp [sibX, hpar]
      have hm : matchedPairRefFrom (canonicalNode mergeC padF allLeaves j (sibX x))
          (canonicalNode mergeC padF allLeaves j x) =
          .ok (canonicalNode mergeC padF allLeaves j x,
            canonicalNode mergeC padF allLeaves j (sibX x)) := by
        unfold matchedPairRefFrom Node.isRightSiblingOf Node.isLeftSiblingOf
        rw [hL, hS, hsx]
        simp
        omega
      have hmerge : pairMergeNodes mergeC (canonicalNode mergeC padF allLeaves j x)
          (canonicalNode mergeC padF allLeaves j (sibX x)) =
          canonicalNode mergeC padF allLeaves (j + 1) (x / 2) := by
        rw [canonicalNode_merge mergeC padF allLeaves (j + 1) (x / 2) (by omega) hoccP]
        simp only [Nat.add_sub_cancel]
        rw [hsx, show 2 * (x / 2) + 1 = x + 1 from by omega,
          show 2 * (x / 2) = x from by omega]
      exact constructPathGo_cons_ok mergeC _ _ _ _ _ hm _
        (by rw [hmerge]; exact ih (j + 1) (x / 2) hoccP)
    · have hsx : sibX x = x - 1 := by simp [sibX, hpar]
      have hm : matchedPairRefFrom (canonicalNode mergeC padF allLeaves j (sibX x))
          (canonicalNode mergeC padF allLeaves j x) =
          .ok (canonicalNode mergeC padF allLeaves j (sibX x),
            canonicalNode mergeC padF allLeaves j x) := by
        unfold matchedPairRefFrom Node.isRightSiblingOf
        rw [hL, hS, hsx]
        simp
        omega
      have hmerge : pairMergeNodes mergeC (canonicalNode mergeC padF allLeaves j (sibX x))
          (canonicalNode mergeC padF allLeaves j x) =
          canonicalNode mergeC padF allLeaves (j + 1) (x / 2) := by
        rw [canonicalNode_merge mergeC padF allLeaves (j + 1) (x / 2) (by omega) hoccP]
        simp only [Nat.add_sub_cancel]
        rw [hsx, show 2 * (x / 2) + 1 = x from by omega,
          show 2 * (x / 2) = x - 1 from by omega]
      exact constructPathGo_cons_ok mergeC _ _ _ _ _ hm _
        (by rw [hmerge]; exact ih (j + 1) (x / 2) hoccP)

end PathReconstruction

section HiddenFunctor

/-- Sibling orientation only looks at coordinates, which `toHidden`
preserves. -/
theorem matchedPairRefFrom_toHidden (a b : Node FullNodeContent) :
    matchedPairRefFrom a.toHidden b.toHidden =
      (matchedPairRefFrom a b).map (fun p => (p.1.toHidden, p.2.toHidden)) := by
  unfold matchedPairRefFrom
  have h1 : b.toHidden.isRightSiblingOf a.toHidden = b.isRightSiblingOf a := rfl
  have h2 : b.toHidden.isLeftSiblingOf a.toHidden = b.isLeftSiblingOf a := rfl
  rw [h1, h2]
  by_cases hr : b.isRightSiblingOf a
  · simp [hr, Except.map]
  · by_cases hl : b.isLeftSiblingOf a
    · simp [hr, hl, Except.map]
    · simp [hr, hl, Except.map]

/-- Merging commutes with hiding. -/
theorem pairMergeNodes_toHidden (l r : Node FullNodeContent) :
    pairMergeNodes HiddenNodeContent.merge l.toHidden r.toHidden =
      (pairMergeNodes FullNodeContent.merge l r).toHidden := by
  unfold pairMergeNodes Node.toHidden
  rw [toHidden_merge]

/-- Reconstructing with hidden content is the hiding of the full
reconstruction. -/
theorem constructPathGo_toHidden :
    ∀ (siblings : List (Node FullNodeContent)) (cur : Node FullNodeContent),
      constructPathGo HiddenNodeContent.merge cur.toHidden
          (siblings.map Node.toHidden) =
        (constructPathGo FullNodeContent.merge cur siblings).map
          (List.map Node.toHidden) := by
  intro siblings
  induction siblings with
  | nil => intro cur; rfl
  | cons s rest ih =>
    intro cur
    simp only [List.map_cons]
    have hrec := ih (pairMergeNodes FullNodeContent.merge s cur)
    rcases hm : matchedPairRefFrom s cur with e | ⟨l, r⟩
    · have hmH : matchedPairRefFrom s.toHidden cur.toHidden = .error e := by
        rw [matchedPairRefFrom_toHidden, hm]
        rfl
      simp only [constructPathGo, hm, hmH]
      rfl
    · have hmH : matchedPairRefFrom s.toHidden cur.toHidden =
          .ok (l.toHidden, r.toHidden) := by
        rw [matchedPairRefFrom_toHidden, hm]
        rfl
      have hrec2 := ih (pairMergeNodes FullNodeContent.merge l r)
      rw [← pairMergeNodes_toHidden] at hrec2
      simp only [constructPathGo, hm, hmH, hrec2]
      rcases hgo : constructPathGo FullNodeContent.merge
          (pairMergeNodes FullNodeContent.merge l r) rest with e | tail
      · rfl
      · rfl

/-- `construct_path` with hidden content is the hiding of the full one. -/
theorem constructPath_toHidden (siblings : List (Node FullNodeContent))
    (leaf : Node FullNodeContent) :
    constructPath HiddenNodeContent.merge (siblings.map Node.toHidden)
        leaf.toHidden =
      (constructPath FullNodeContent.merge siblings leaf).map
        (List.map Node.toHidden) := by
  unfold constructPath
  rw [List.length_map]
  by_cases hlen : siblings.length < MIN_HEIGHT
  · rw [if_pos hlen, if_pos hlen]
    rfl
  · rw [if_neg hlen, if_neg hlen]
    exact constructPathGo_toHidden siblings leaf

end HiddenFunctor

-- -----------------------------------------------------------------------------------------------
-- Generating and verifying an inclusion proof on a canonical tree.

/-- `Height::from_y_coord` on the top layer of a tree of admissible height. -/
theorem heightFromYCoord_eq {h : ℕ} (h2 : 2 ≤ h) (h64 : h ≤ 64) :
    heightFromYCoord (h - 1) = some h := by
  unfold heightFromYCoord MIN_HEIGHT MAX_HEIGHT
  rw [show h - 1 + 1 = h from by omega, if_pos ⟨h2, h64⟩]

/-- The last node of the canonical path is the canonical top node. -/
theorem canonPath_getLast {C : Type} (mergeC : C → C → C) (padF : Coordinate → C)
    (allLeaves : List (Node C)) (k j x : ℕ) :
    (canonPath mergeC padF allLeaves j x k).getLast? =
      some (canonicalNode mergeC padF allLeaves (j + k) (x / 2 ^ k)) := by
  rw [canonPath_eq_map, List.range_succ, List.map_append]
  simp [List.getLast?_concat]

/-- `PathSiblings::build` on a canonical tree returns the canonical sibling
list of the leaf. -/
theorem pathSiblingsBuild_canonical {C : Type} (mergeC : C → C → C)
    (padF : Coordinate → C) (spawn : RecursionParams → Bool)
    {allLeaves : List (Node C)} {t : BinaryTree C}
    (hct : CanonicalTree mergeC padF allLeaves t) {n : Node C}
    (hn : n ∈ allLeaves) :
    pathSiblingsBuild mergeC padF spawn t n =
      some (canonSiblings mergeC padF allLeaves 0 n.coord.x (t.height - 1)) := by
  unfold pathSiblingsBuild
  have hy := hct.2.1 n hn
  obtain ⟨⟨cy, cx⟩, cont⟩ := n
  simp only at hy
  subst hy
  exact pathSiblingsBuildGo_canonical mergeC padF spawn hct (t.height - 1) 0 cx

/-- `construct_path` on the canonical siblings of an input leaf succeeds and
returns the canonical path. -/
theorem constructPath_canonical {C : Type} (mergeC : C → C → C)
    (padF : Coordinate → C) {allLeaves : List (Node C)} (hsort : XSorted allLeaves)
    (hy0 : ∀ n ∈ allLeaves, n.coord.y = 0) {h : ℕ} (hh : 3 ≤ h) {n : Node C}
    (hn : n ∈ allLeaves) :
    constructPath mergeC (canonSiblings mergeC padF allLeaves 0 n.coord.x (h - 1)) n =
      .ok (canonPath mergeC padF allLeaves 0 n.coord.x (h - 1)) := by
  unfold constructPath
  rw [canonSiblings_length]
  rw [if_neg (by unfold MIN_HEIGHT; omega)]
  have hocc : leavesInRange allLeaves (n.coord.x * 2 ^ 0) (2 ^ 0) ≠ [] := by
    rw [leavesInRange_bottom_found hsort hn]
    simp
  calc constructPathGo mergeC n (canonSiblings mergeC padF allLeaves 0 n.coord.x (h - 1))
      = constructPathGo mergeC (canonicalNode mergeC padF allLeaves 0 n.coord.x)
          (canonSiblings mergeC padF allLeaves 0 n.coord.x (h - 1)) := by
        rw [canonicalNode_leaf mergeC padF hsort hy0 hn]
    _ = .ok (canonPath mergeC padF allLeaves 0 n.coord.x (h - 1)) :=
        constructPathGo_canonical mergeC padF allLeaves (h - 1) 0 n.coord.x hocc

/-- Every node of a canonical path has consistent content with liability
bounded by the total. -/
theorem canonPath_content (padF : Coordinate → FullNodeContent)
    {allLeaves : List (Node FullNodeContent)} (hsort : XSorted allLeaves)
    (hy0 : ∀ m ∈ allLeaves, m.coord.y = 0)
    (hleafc : ∀ m ∈ allLeaves, ContentConsistent m.content)
    (hpadc : ∀ c, ContentConsistent (padF c) ∧ (padF c).liability = 0)
    (hsum64 : liabilitySum allLeaves < U64) {k j x : ℕ}
    {nd : Node FullNodeContent}
    (hmem : nd ∈ canonPath FullNodeContent.merge padF allLeaves j x k) :
    ContentConsistent nd.content ∧
      nd.content.liability ≤ liabilitySum allLeaves := by
  rw [canonPath_eq_map, List.mem_map] at hmem
  obtain ⟨m, hm, rfl⟩ := hmem
  obtain ⟨hliab, hcons⟩ := canonicalNode_content padF allLeaves hsort hy0 hleafc
    hpadc hsum64 (j + m) (x / 2 ^ m)
  refine ⟨hcons, ?_⟩
  rw [hliab]
  exact liabilitySum_range_le allLeaves _ _

/-- Pointwise verification of the modelled aggregated range proof over a
list of consistent bounded contents. -/
theorem aggVerify_pointwise (ns : List (Node FullNodeContent)) (ubl : ℕ)
    (hc : ∀ nd ∈ ns, ContentConsistent nd.content ∧
      nd.content.liability < 2 ^ ubl) :
    (AggregatedRangeProof.generate
        (ns.map (fun nd => (nd.content.liability, nd.content.blindingFactor)))).verify
      (ns.map (fun nd => nd.content.commitment)) ubl = true := by
  simp only [AggregatedRangeProof.generate, AggregatedRangeProof.verify,
    List.length_map]
  rw [Bool.and_eq_true]
  constructor
  · simp
  · rw [List.zip_append (by simp), List.zip_map', List.zip_replicate',
      List.all_append, Bool.and_eq_true]
    constructor
    · rw [List.all_eq_true]
      intro q hq
      rw [List.mem_map] at hq
      obtain ⟨nd, hnd, rfl⟩ := hq
      obtain ⟨hcons, hlt⟩ := hc nd hnd
      have hcons' : nd.content.commitment =
          pedersen nd.content.liability nd.content.blindingFactor := hcons
      simp [hcons', hlt]
    · rw [List.all_eq_true]
      intro q hq
      rw [List.eq_of_mem_replicate hq]
      have hpos : 0 < 2 ^ ubl := Nat.one_le_two_pow
      simp [hpos]

/-- Pointwise verification of the modelled individual range proofs over a
list of consistent bounded contents. -/
theorem indivVerify_pointwise (ns : List (Node FullNodeContent)) (ubl : ℕ)
    (hc : ∀ nd ∈ ns, ContentConsistent nd.content ∧
      nd.content.liability < 2 ^ ubl) :
    ((ns.map (fun nd => nd.content.commitment)).zip
        (ns.map (fun nd => IndividualRangeProof.generate nd.content.liability
          nd.content.blindingFactor))).all
      (fun q => q.2.verify q.1 ubl) = true := by
  rw [List.zip_map', List.all_eq_true]
  intro q hq
  rw [List.mem_map] at hq
  obtain ⟨nd, hnd, rfl⟩ := hq
  obtain ⟨hcons, hlt⟩ := hc nd hnd
  have hcons' : nd.content.commitment =
      pedersen nd.content.liability nd.content.blindingFactor := hcons
  simp [IndividualRangeProof.generate, IndividualRangeProof.verify, hcons', hlt]

/-- The inclusion proof `InclusionProof::generate` assembles on a canonical
tree for the leaf at `x`. -/
def canonProof (padF : Coordinate → FullNodeContent)
    (allLeaves : List (Node FullNodeContent)) (n : Node FullNodeContent)
    (h : ℕ) (f : AggregationFactor) (ubl : ℕ) : InclusionProof :=
  let nodes := canonPath FullNodeContent.merge padF allLeaves 0 n.coord.x (h - 1)
  let aggregationIndex := f.applyTo h
  { pathSiblings :=
      (canonSiblings FullNodeContent.merge padF allLeaves 0 n.coord.x
        (h - 1)).map Node.toHidden
    leafNode := n
    individualRangeProofs :=
      if f.isMax h then none
      else some ((nodes.drop aggregationIndex).map
        (fun nd => IndividualRangeProof.generate nd.content.liability
          nd.content.blindingFactor))
    aggregatedRangeProof :=
      if f.isZero h then none
      else some (AggregatedRangeProof.generate
        ((nodes.take aggregationIndex).map
          (fun nd => (nd.content.liability, nd.content.blindingFactor))))
    aggregationFactor := f
    upperBoundBitLength := ubl }

/-- On a canonical tree `InclusionProof::generate` succeeds and produces
exactly `canonProof`. -/
theorem inclusionProof_generate_canonical (padF : Coordinate → FullNodeContent)
    {allLeaves : List (Node FullNodeContent)} {t : BinaryTree FullNodeContent}
    (hct : CanonicalTree FullNodeContent.merge padF allLeaves t)
    {n : Node FullNodeContent} (hn : n ∈ allLeaves) (f : AggregationFactor)
    (ubl : ℕ) (hh3 : 3 ≤ t.height) (h64 : t.height ≤ 64)
    (hagg : f.applyTo t.height ≤ t.height) :
    InclusionProof.generate n
      (canonSiblings FullNodeContent.merge padF allLeaves 0 n.coord.x
        (t.height - 1)) f ubl =
      some (.ok (canonProof padF allLeaves n t.height f ubl)) := by
  obtain ⟨hsort, hy0, hbound, hh2, hroot, -⟩ := hct
  have hH : heightFromYCoord
      (canonSiblings FullNodeContent.merge padF allLeaves 0 n.coord.x
        (t.height - 1)).length = some t.height := by
    rw [canonSiblings_length]
    exact heightFromYCoord_eq (by omega) h64
  have hCP := constructPath_canonical FullNodeContent.merge padF hsort hy0 hh3 hn
  have hif : ¬((canonPath FullNodeContent.merge padF allLeaves 0 n.coord.x
      (t.height - 1)).length < f.applyTo t.height) := by
    rw [canonPath_length]
    omega
  simp only [InclusionProof.generate, hH, hCP]
  rw [if_neg hif]
  rfl

/-- `verify_merkle_path` accepts the hidden canonical path against the
canonical root hash. -/
theorem verifyMerklePath_canonPath (padF : Coordinate → FullNodeContent)
    {allLeaves : List (Node FullNodeContent)} {t : BinaryTree FullNodeContent}
    (hct : CanonicalTree FullNodeContent.merge padF allLeaves t) {x : ℕ}
    (hx : x < 2 ^ (t.height - 1)) :
    InclusionProof.verifyMerklePath t.root.content.hash t.height
      ((canonPath FullNodeContent.merge padF allLeaves 0 x
        (t.height - 1)).map Node.toHidden) = some (.ok ()) := by
  obtain ⟨-, -, -, -, hroot, -⟩ := hct
  unfold InclusionProof.verifyMerklePath
  rw [List.getLast?_map, canonPath_getLast]
  simp only [Nat.zero_add, Option.map_some', Nat.div_eq_of_lt hx]
  have hEq : nodeHiddenEq
      ((canonicalNode FullNodeContent.merge padF allLeaves (t.height - 1) 0).toHidden)
      ⟨⟨t.height - 1, 0⟩, ⟨pedersen 0 0, t.root.content.hash⟩⟩ = true := by
    unfold nodeHiddenEq HiddenNodeContent.partialEq
    rw [hroot]
    have hco : ((canonicalNode FullNodeContent.merge padF allLeaves
        (t.height - 1) 0).toHidden).coord = ⟨t.height - 1, 0⟩ :=
      canonicalNode_coord FullNodeContent.merge padF allLeaves (t.height - 1) 0
    rw [hco]
    simp
    rfl
  simp [hEq]

/-- `verify_range_proofs` accepts the proofs of `canonProof` against the
hidden canonical path. -/
theorem verifyRangeProofs_canonical (padF : Coordinate → FullNodeContent)
    {allLeaves : List (Node FullNodeContent)} (hsort : XSorted allLeaves)
    (hy0 : ∀ m ∈ allLeaves, m.coord.y = 0)
    (hleafc : ∀ m ∈ allLeaves, ContentConsistent m.content)
    (hpadc : ∀ c, ContentConsistent (padF c) ∧ (padF c).liability = 0)
    (hsum64 : liabilitySum allLeaves < U64) {ubl : ℕ}
    (hsumN : liabilitySum allLeaves < 2 ^ ubl)
    (n : Node FullNodeContent) {h : ℕ} (hh3 : 3 ≤ h) (f : AggregationFactor)
    (hagg : f.applyTo h ≤ h) :
    (canonProof padF allLeaves n h f ubl).verifyRangeProofs h
      ((canonPath FullNodeContent.merge padF allLeaves 0 n.coord.x
        (h - 1)).map Node.toHidden) = some (.ok ()) := by
  have hcontent : ∀ nd ∈ canonPath FullNodeContent.merge padF allLeaves 0
      n.coord.x (h - 1), ContentConsistent nd.content ∧
      nd.content.liability < 2 ^ ubl := by
    intro nd hmem
    obtain ⟨hcons, hle⟩ := canonPath_content padF hsort hy0 hleafc hpadc hsum64 hmem
    exact ⟨hcons, lt_of_le_of_lt hle hsumN⟩
  have hcom : ((canonPath FullNodeContent.merge padF allLeaves 0 n.coord.x
        (h - 1)).map Node.toHidden).map (fun node => node.content.commitment) =
      (canonPath FullNodeContent.merge padF allLeaves 0 n.coord.x
        (h - 1)).map (fun nd => nd.content.commitment) := by
    rw [List.map_map]
    rfl
  have hTake : ∀ kk : ℕ, ((canonPath FullNodeContent.merge padF allLeaves 0
        n.coord.x (h - 1)).map (fun nd => nd.content.commitment)).take kk =
      ((canonPath FullNodeContent.merge padF allLeaves 0 n.coord.x
        (h - 1)).take kk).map (fun nd => nd.content.commitment) := by
    intro kk
    rw [← List.map_take]
  have hDrop : ∀ kk : ℕ, ((canonPath FullNodeContent.merge padF allLeaves 0
        n.coord.x (h - 1)).map (fun nd => nd.content.commitment)).drop kk =
      ((canonPath FullNodeContent.merge padF allLeaves 0 n.coord.x
        (h - 1)).drop kk).map (fun nd => nd.content.commitment) := by
    intro kk
    rw [← List.map_drop]
  have hAgg : ∀ kk : ℕ,
      (AggregatedRangeProof.generate
        (((canonPath FullNodeContent.merge padF allLeaves 0 n.coord.x
          (h - 1)).take kk).map
          (fun nd => (nd.content.liability, nd.content.blindingFactor)))).verify
        (((canonPath FullNodeContent.merge padF allLeaves 0 n.coord.x
          (h - 1)).take kk).map (fun nd => nd.content.commitment)) ubl = true := by
    intro kk
    apply aggVerify_pointwise
    intro nd hnd
    exact hcontent nd (List.take_subset _ _ hnd)
  have hIndiv : ∀ kk : ℕ,
      ((((canonPath FullNodeContent.merge padF allLeaves 0 n.coord.x
          (h - 1)).drop kk).map (fun nd => nd.content.commitment)).zip
        (((canonPath FullNodeContent.merge padF allLeaves 0 n.coord.x
          (h - 1)).drop kk).map
          (fun nd => IndividualRangeProof.generate nd.content.liability
            nd.content.blindingFactor))).all
        (fun q => q.2.verify q.1 ubl) = true := by
    intro kk
    apply indivVerify_pointwise
    intro nd hnd
    exact hcontent nd (List.drop_subset _ _ hnd)
  have hnotboth : ¬(f.isZero h = true ∧ f.isMax h = true) := by
    rintro ⟨hz, hm⟩
    unfold AggregationFactor.isZero at hz
    unfold AggregationFactor.isMax at hm
    simp at hz hm
    omega
  have hguard : ¬(((canonPath FullNodeContent.merge padF allLeaves 0 n.coord.x
      (h - 1)).map (fun nd => nd.content.commitment)).length < f.applyTo h) := by
    rw [List.length_map, canonPath_length]
    omega
  by_cases hMax : f.isMax h = true
  · have hZero : f.isZero h = false := by
      cases hzb : f.isZero h with
      | false => rfl
      | true => exact absurd ⟨hzb, hMax⟩ hnotboth
    simp only [InclusionProof.verifyRangeProofs, canonProof, hcom, hTake, hDrop,
      hMax, hZero, eq_self_iff_true, if_true, Bool.false_eq_true, if_false,
      hAgg, if_neg hguard]
  · have hMaxf : f.isMax h = false := by
      revert hMax
      cases f.isMax h <;> simp
    by_cases hZero : f.isZero h = true
    · simp only [InclusionProof.verifyRangeProofs, canonProof, hcom, hTake, hDrop,
        hMaxf, hZero, eq_self_iff_true, if_true, Bool.false_eq_true, if_false,
        hIndiv, if_neg hguard]
    · have hZerof : f.isZero h = false := by
        revert hZero
        cases f.isZero h <;> simp
      simp only [InclusionProof.verifyRangeProofs, canonProof, hcom, hTake, hDrop,
        hMaxf, hZerof, eq_self_iff_true, if_true, Bool.false_eq_true, if_false,
        hIndiv, hAgg, if_neg hguard]

/-- The full verification of `canonProof` against the canonical root hash
succeeds. -/
theorem inclusionProof_verify_canonical (padF : Coordinate → FullNodeContent)
    {allLeaves : List (Node FullNodeContent)} {t : BinaryTree FullNodeContent}
    (hct : CanonicalTree FullNodeContent.merge padF allLeaves t)
    (hleafc : ∀ m ∈ allLeaves, ContentConsistent m.content)
    (hpadc : ∀ c, ContentConsistent (padF c) ∧ (padF c).liability = 0)
    (hsum64 : liabilitySum allLeaves < U64) {ubl : ℕ}
    (hsumN : liabilitySum allLeaves < 2 ^ ubl)
    {n : Node FullNodeContent} (hn : n ∈ allLeaves) (f : AggregationFactor)
    (hh3 : 3 ≤ t.height) (h64 : t.height ≤ 64)
    (hagg : f.applyTo t.height ≤ t.height) :
    (canonProof padF allLeaves n t.height f ubl).verify t.root.content.hash =
      some (.ok ()) := by
  have hsort := hct.1
  have hy0 := hct.2.1
  have hx : n.coord.x < 2 ^ (t.height - 1) := hct.2.2.1 n hn
  have hH : heightFromYCoord
      ((canonSiblings FullNodeContent.merge padF allLeaves 0 n.coord.x
        (t.height - 1)).map Node.toHidden).length = some t.height := by
    rw [List.length_map, canonSiblings_length]
    exact heightFromYCoord_eq (by omega) h64
  have hCP : constructPath HiddenNodeContent.merge
      ((canonSiblings FullNodeContent.merge padF allLeaves 0 n.coord.x
        (t.height - 1)).map Node.toHidden) n.toHidden =
      .ok ((canonPath FullNodeContent.merge padF allLeaves 0 n.coord.x
        (t.height - 1)).map Node.toHidden) := by
    rw [constructPath_toHidden,
      constructPath_canonical FullNodeContent.merge padF hsort hy0 hh3 hn]
    rfl
  have hVM := verifyMerklePath_canonPath padF hct hx
  have hVR := verifyRangeProofs_canonical padF hsort hy0 hleafc hpadc hsum64
    hsumN n hh3 f hagg
  have hps : (canonProof padF allLeaves n t.height f ubl).pathSiblings =
      (canonSiblings FullNodeContent.merge padF allLeaves 0 n.coord.x
        (t.height - 1)).map Node.toHidden := rfl
  have hlf : (canonProof padF allLeaves n t.height f ubl).leafNode = n := rfl
  unfold InclusionProof.verify
  rw [hps, hlf, hH]
  simp only [hCP, hVM]
  exact hVR

-- -----------------------------------------------------------------------------------------------
-- Inverting a successful build: what the pipeline checks guarantee.

/-- Bind of a literal error in `Except`. -/
theorem except_bind_error {ε α β : Type} (e : ε) (f : α → Except ε β) :
    (Except.error e >>= f) = Except.error e := rfl

/-- Bind of a literal success in `Except`. -/
theorem except_bind_ok {ε α β : Type} (a : α) (f : α → Except ε β) :
    (Except.ok a >>= f) = f a := rfl

/-- A successful association-list lookup means the pair is present. -/
theorem lookup_mem {α β : Type} [BEq α] [LawfulBEq α] {l : List (α × β)}
    {k : α} {b : β} (h : l.lookup k = some b) : (k, b) ∈ l := by
  rw [List.lookup_eq_some_iff] at h
  obtain ⟨l1, l2, rfl, -⟩ := h
  simp

/-- A passed duplicate check means no adjacent equal x-coords. -/
theorem verifyNoDuplicateLeaves_ok_any {C : Type} {s : List (InputLeafNode C)}
    (h : verifyNoDuplicateLeaves s = .ok ()) :
    (s.zip s.tail).any (fun p => decide (p.1.xCoord = p.2.xCoord)) = false := by
  unfold verifyNoDuplicateLeaves at h
  cases hc : (s.zip s.tail).any (fun p => decide (p.1.xCoord = p.2.xCoord)) with
  | false => rfl
  | true =>
    rw [if_pos hc] at h
    cases h

/-- A weakly sorted list with no adjacent equal x-coords is strictly
sorted. -/
theorem sorted_nodup_pairwise_lt {C : Type} :
    ∀ {s : List (InputLeafNode C)},
      s.Pairwise (fun a b => a.xCoord ≤ b.xCoord) →
      (s.zip s.tail).any (fun p => decide (p.1.xCoord = p.2.xCoord)) = false →
      s.Pairwise (fun a b => a.xCoord < b.xCoord)
  | [], _, _ => List.Pairwise.nil
  | [a], _, _ => by simp
  | a :: b :: t, hpw, hany => by
    obtain ⟨hab, hrest⟩ := List.pairwise_cons.mp hpw
    simp only [List.tail_cons, List.zip_cons_cons, List.any_cons,
      Bool.or_eq_false_iff] at hany
    obtain ⟨hne, hany'⟩ := hany
    have hne' : a.xCoord ≠ b.xCoord := by simpa using hne
    have hany'' : ((b :: t).zip (b :: t).tail).any
        (fun p => decide (p.1.xCoord = p.2.xCoord)) = false := by
      simpa using hany'
    have hih := sorted_nodup_pairwise_lt hrest hany''
    rw [List.pairwise_cons]
    refine ⟨?_, hih⟩
    intro c hc
    have hab' : a.xCoord ≤ b.xCoord := hab b (by simp)
    rcases List.mem_cons.mp hc with rfl | hc
    · omega
    · have hbc := (List.pairwise_cons.mp hih).1 c hc
      omega

/-- A successful `multi_threaded::build_tree` implies the input x-coords were
distinct (the sorted duplicate check passed). -/
theorem buildTreeMulti_ok_nodup {C : Type} {mergeC : C → C → C}
    {padF : Coordinate → C} {spawn : RecursionParams → Bool} {h sd : ℕ}
    {l : List (InputLeafNode C)} {t : BinaryTree C}
    (hb : buildTreeMulti mergeC padF spawn h sd l = .ok t) :
    (l.map (fun n => n.xCoord)).Nodup := by
  haveI : IsTotal (InputLeafNode C) (fun a b => a.xCoord ≤ b.xCoord) :=
    ⟨fun a b => Nat.le_total _ _⟩
  haveI : IsTrans (InputLeafNode C) (fun a b => a.xCoord ≤ b.xCoord) :=
    ⟨fun a b c hab hbc => le_trans hab hbc⟩
  have hsorted : (sortLeafNodes l).Pairwise (fun a b => a.xCoord ≤ b.xCoord) :=
    List.sorted_insertionSort (fun a b : InputLeafNode C => a.xCoord ≤ b.xCoord) l
  rcases hv : verifyNoDuplicateLeaves (sortLeafNodes l) with e | u
  · exfalso
    simp only [buildTreeMulti, hv] at hb
    cases hb
  · obtain ⟨⟩ := u
    have hany := verifyNoDuplicateLeaves_ok_any hv
    have hlt := sorted_nodup_pairwise_lt hsorted hany
    have hsortedNodup : ((sortLeafNodes l).map (fun n => n.xCoord)).Nodup := by
      show ((sortLeafNodes l).map (fun n => n.xCoord)).Pairwise (· ≠ ·)
      exact (List.pairwise_map).mpr (hlt.imp (fun hab => Nat.ne_of_lt hab))
    have hperm : (sortLeafNodes l).Perm l := List.perm_insertionSort _ l
    exact ((hperm.map _).nodup_iff).mp hsortedNodup

/-- Inverting `TreeBuilder::leaf_nodes` on a provided list. -/
theorem treeBuilderLeafNodes_ok {C : Type} {h : ℕ}
    {l l' : List (InputLeafNode C)}
    (ht : treeBuilderLeafNodes h (some l) = .ok l') : l' = l ∧ l ≠ [] := by
  simp only [treeBuilderLeafNodes] at ht
  by_cases h0 : l.length = 0
  · rw [if_pos h0] at ht
    cases ht
  · rw [if_neg h0] at ht
    by_cases h1 : maxBottomLayerNodes h < l.length
    · rw [if_pos h1] at ht
      cases ht
    · rw [if_neg h1] at ht
      rcases hlast : l.getLast? with _ | ln
      · simp only [hlast] at ht
        cases ht
      · simp only [hlast] at ht
        by_cases h2 : ln.xCoord < maxBottomLayerNodes h
        · rw [if_pos h2] at ht
          refine ⟨(Except.ok.inj ht).symm, fun hc => h0 (by rw [hc]; rfl)⟩
        · rw [if_neg h2] at ht
          cases ht

/-- Inverting `build_using_multi_threaded_algorithm` with a provided height
and leaves and the default store depth. -/
theorem buildMultiAlg_ok {C : Type} {mergeC : C → C → C}
    {padF : Coordinate → C} {spawn : RecursionParams → Bool} {h : ℕ}
    {l : List (InputLeafNode C)} {t : BinaryTree C}
    (hb : buildUsingMultiThreadedAlgorithm mergeC padF spawn (some h) none
      (some l) = .ok t) :
    2 ≤ h ∧ l ≠ [] ∧ buildTreeMulti mergeC padF spawn h (h / 2) l = .ok t := by
  by_cases hh : h < MIN_HEIGHT
  · exfalso
    have hth : treeBuilderHeight (some h) = .error .HeightTooSmall := by
      simp only [treeBuilderHeight]
      rw [if_pos hh]
    simp only [buildUsingMultiThreadedAlgorithm, hth] at hb
    cases hb
  · have hth : treeBuilderHeight (some h) = .ok h := by
      simp only [treeBuilderHeight]
      rw [if_neg hh]
    rcases htl : treeBuilderLeafNodes h (some l) with e | l'
    · exfalso
      simp only [buildUsingMultiThreadedAlgorithm, hth, htl] at hb
      cases hb
    · obtain ⟨rfl, hlne⟩ := treeBuilderLeafNodes_ok htl
      simp only [buildUsingMultiThreadedAlgorithm, hth, htl,
        treeBuilderStoreDepth, Option.getD_none] at hb
      unfold MIN_HEIGHT at hh
      exact ⟨by omega, hlne, hb⟩

-- -----------------------------------------------------------------------------------------------
-- The x-coord generator stays in bounds and yields one coordinate per call.

/-- Following the swap chain from an in-bounds start stays in bounds when
all swap-map values are in bounds. -/
theorem followChain_lt {sm : List (ℕ × ℕ)} {N : ℕ}
    (hsm : ∀ p ∈ sm, p.2 < N) :
    ∀ (fuel x : ℕ), x < N → RandomXCoordGenerator.followChain sm fuel x < N := by
  intro fuel
  induction fuel with
  | zero => intro x hx; exact hx
  | succ fuel ih =>
    intro x hx
    rw [RandomXCoordGenerator.followChain]
    rcases hl : sm.lookup x with _ | v
    · simp only [hl]
      exact hx
    · simp only [hl]
      exact ih v (hsm (x, v) (lookup_mem hl))

/-- Inverting a successful `new_unique_x_coord` call. -/
theorem newUniqueXCoord_ok {r : ℕ} {g : RandomXCoordGenerator} {x : ℕ}
    {g' : RandomXCoordGenerator}
    (hinv : ∀ p ∈ g.swapMap, p.2 < g.maxValue)
    (h : RandomXCoordGenerator.newUniqueXCoord r g = .ok (x, g')) :
    x < g.maxValue ∧ g'.maxValue = g.maxValue ∧
      (∀ p ∈ g'.swapMap, p.2 < g'.maxValue) := by
  by_cases hle : g.maxValue ≤ g.i
  · exfalso
    unfold RandomXCoordGenerator.newUniqueXCoord at h
    rw [if_pos hle] at h
    cases h
  · simp only [RandomXCoordGenerator.newUniqueXCoord, if_neg hle,
      Except.ok.injEq, Prod.mk.injEq] at h
    obtain ⟨hx, hg'⟩ := h
    subst hg'
    have hstart : (g.swapMap.lookup (g.i + r % (g.maxValue - g.i))).getD
        (g.i + r % (g.maxValue - g.i)) < g.maxValue := by
      rcases hlk : g.swapMap.lookup (g.i + r % (g.maxValue - g.i)) with _ | v
      · simp only [Option.getD_none]
        have : r % (g.maxValue - g.i) < g.maxValue - g.i :=
          Nat.mod_lt _ (by omega)
        omega
      · simp only [Option.getD_some]
        exact hinv _ (lookup_mem hlk)
    refine ⟨?_, rfl, ?_⟩
    · rw [← hx]
      exact followChain_lt hinv _ _ hstart
    · intro p hp
      rcases List.mem_cons.mp hp with rfl | hp
      · show g.i < g.maxValue
        omega
      · exact hinv p hp

/-- A successful x-coord generation run yields one in-bounds coordinate per
entity. -/
theorem genXCoords_ok {rand : ℕ → ℕ} :
    ∀ (count : ℕ) (g : RandomXCoordGenerator) (xs : List ℕ),
      (∀ p ∈ g.swapMap, p.2 < g.maxValue) →
      genXCoords rand g count = .ok xs →
      xs.length = count ∧ ∀ x ∈ xs, x < g.maxValue := by
  intro count
  induction count with
  | zero =>
    intro g xs hinv hg
    simp only [genXCoords, Except.ok.injEq] at hg
    subst hg
    simp
  | succ count ih =>
    intro g xs hinv hg
    rw [genXCoords] at hg
    rcases hn : RandomXCoordGenerator.newUniqueXCoord (rand g.i) g with e | p
    · rw [hn, except_bind_error] at hg
      cases hg
    · obtain ⟨x, g'⟩ := p
      obtain ⟨hxlt, hmax, hinv'⟩ := newUniqueXCoord_ok hinv hn
      simp only [hn, except_bind_ok] at hg
      rcases hrest : genXCoords rand g' count with e | rest
      · simp only [hrest, except_bind_error] at hg
        cases hg
      · simp only [hrest, except_bind_ok] at hg
        obtain ⟨hlen, hbound⟩ := ih g' rest hinv' hrest
        have hxs : xs = x :: rest := (Except.ok.inj hg).symm
        subst hxs
        refine ⟨by simp [hlen], ?_⟩
        intro y hy
        rcases List.mem_cons.mp hy with rfl | hy
        · exact hxlt
        · rw [← hmax]
          exact hbound y hy

-- -----------------------------------------------------------------------------------------------
-- The entity mapping only holds pairs that came from the input tuples.

/-- Every pair of a successfully built entity mapping comes from the
accumulator or from an input `(entity, x_coord)` tuple. -/
theorem buildEntityMapping_mem :
    ∀ (tuples : List (Entity × ℕ)) (acc em : List (String × ℕ)),
      buildEntityMapping acc tuples = .ok em →
      ∀ p ∈ em, p ∈ acc ∨ ∃ e, (e, p.2) ∈ tuples ∧ e.id = p.1
  | [], acc, em, hb, p, hp => by
    rw [buildEntityMapping] at hb
    rw [← Except.ok.inj hb] at hp
    exact .inl hp
  | (e, x) :: rest, acc, em, hb, p, hp => by
    rw [buildEntityMapping] at hb
    by_cases hdup : ((acc.lookup e.id).isSome : Bool) = true
    · rw [if_pos hdup] at hb
      cases hb
    · rw [if_neg hdup] at hb
      rcases buildEntityMapping_mem rest (acc ++ [(e.id, x)]) em hb p hp with
        hacc | ⟨e', he', hid⟩
      · rcases List.mem_append.mp hacc with hacc | hone
        · exact .inl hacc
        · have hpe : p = (e.id, x) := by simpa using hone
          subst hpe
          exact .inr ⟨e, by simp, rfl⟩
      · exact .inr ⟨e', List.mem_cons_of_mem _ he', hid⟩

-- -----------------------------------------------------------------------------------------------
-- The NDM-SMT bottom layer: consistency and liability bounds.

/-- Leaf nodes produced by the NDM-SMT leaf constructor have consistent
contents. -/
theorem ndm_leaf_consistent (blind : ℕ → Scalar) (esalt : ℕ → ℕ)
    (tuples : List (Entity × ℕ)) :
    ∀ n ∈ sortedNodes (tuples.map (fun p => ndmLeafNode blind esalt p.1 p.2)),
      ContentConsistent n.content := by
  intro n hn
  obtain ⟨i, hi, rfl⟩ := mem_sortedNodes.mp hn
  obtain ⟨p, hp, rfl⟩ := List.mem_map.mp hi
  rfl

/-- The NDM-SMT padding closure produces consistent zero-liability
contents. -/
theorem ndmPadF_consistent (padBlind : Coordinate → Scalar)
    (padSalt : Coordinate → ℕ) :
    ∀ c, ContentConsistent (ndmPadF padBlind padSalt c) ∧
      (ndmPadF padBlind padSalt c).liability = 0 :=
  fun _ => ⟨rfl, rfl⟩

/-- The total liability of the built bottom layer is bounded by the sum of
the entity liabilities. -/
theorem liabilitySum_ndm (blind : ℕ → Scalar) (esalt : ℕ → ℕ)
    (entities : List Entity) (xs : List ℕ) (hlen : entities.length = xs.length) :
    liabilitySum (sortedNodes ((entities.zip xs).map
        (fun p => ndmLeafNode blind esalt p.1 p.2))) ≤
      (entities.map Entity.liability).sum := by
  unfold liabilitySum sortedNodes
  rw [List.map_map]
  have hperm : (sortLeafNodes ((entities.zip xs).map  
      (fun p => ndmLeafNode blind esalt p.1 p.2))).Perm
      ((entities.zip xs).map (fun p => ndmLeafNode blind esalt p.1 p.2)) :=
    List.perm_insertionSort _ _
  rw [(hperm.map ((fun n : Node FullNodeContent => n.content.liability) ∘
    InputLeafNode.toNode)).sum_eq]
  rw [List.map_map]
  have h2 : ((entities.zip xs).map (((fun n : Node FullNodeContent =>
      n.content.liability) ∘ InputLeafNode.toNode) ∘
        (fun p : Entity × ℕ => ndmLeafNode blind esalt p.1 p.2))).sum ≤
      ((entities.zip xs).map (fun p : Entity × ℕ => p.1.liability)).sum :=
    List.sum_le_sum (fun p _ => Nat.mod_le _ _)
  refine le_trans (le_of_eq ?_) (le_trans h2 ?_)
  · rfl
  · have h3 : (fun p : Entity × ℕ => p.1.liability) =
        Entity.liability ∘ Prod.fst := rfl
    rw [h3, ← List.map_map, List.map_fst_zip entities xs (le_of_eq hlen)]

-- -----------------------------------------------------------------------------------------------
-- A successfully constructed NDM-SMT is the canonical tree of its leaves.

/-- Inverting `NdmSmt::new`: the generated x-coords, the entity mapping and
the canonical shape of the built tree. -/
theorem ndmSmtNew_canonical {rand : ℕ → ℕ} {blind : ℕ → Scalar}
    {esalt : ℕ → ℕ} {padBlind : Coordinate → Scalar} {padSalt : Coordinate → ℕ}
    {spawn : RecursionParams → Bool} {height : ℕ} {entities : List Entity}
    {smt : NdmSmt}
    (hnew : ndmSmtNew rand blind esalt padBlind padSalt spawn height entities =
      some (.ok smt)) :
    ∃ xCoords,
      genXCoords rand (RandomXCoordGenerator.new height) entities.length =
        .ok xCoords ∧
      entities.length = xCoords.length ∧
      buildEntityMapping [] (entities.zip xCoords) = .ok smt.entityMapping ∧
      CanonicalTree FullNodeContent.merge (ndmPadF padBlind padSalt)
        (sortedNodes ((entities.zip xCoords).map
          (fun p => ndmLeafNode blind esalt p.1 p.2))) smt.binaryTree ∧
      smt.binaryTree.height = height := by
  rcases hgen : genXCoords rand (RandomXCoordGenerator.new height)
      entities.length with e | xs
  · exfalso
    simp only [ndmSmtNew, hgen] at hnew
    simp at hnew
  · refine ⟨xs, rfl, ?_⟩
    simp only [ndmSmtNew, hgen] at hnew
    rcases hmap : buildEntityMapping [] (entities.zip xs) with e | em
    · exfalso
      simp only [hmap] at hnew
      simp at hnew
    · simp only [hmap] at hnew
      rcases hbuild : buildUsingMultiThreadedAlgorithm FullNodeContent.merge
          (ndmPadF padBlind padSalt) spawn (some height) none
          (some ((entities.zip xs).map
            (fun p => ndmLeafNode blind esalt p.1 p.2))) with tree | e | ⟨⟩
      · simp only [hbuild, Option.some.injEq, Except.ok.injEq] at hnew
        subst hnew
        obtain ⟨hh2, hlne, hbm⟩ := buildMultiAlg_ok hbuild
        obtain ⟨hxlen, hxbound⟩ := genXCoords_ok entities.length
          (RandomXCoordGenerator.new height) xs (by intro p hp; cases hp) hgen
        have hlen : entities.length = xs.length := hxlen.symm
        have hnodup := buildTreeMulti_ok_nodup hbm
        have hbound : ∀ n ∈ (entities.zip xs).map
            (fun p => ndmLeafNode blind esalt p.1 p.2),
            n.xCoord < 2 ^ (height - 1) := by
          intro n hn
          obtain ⟨p, hp, rfl⟩ := List.mem_map.mp hn
          obtain ⟨a, b⟩ := p
          exact hxbound b (List.of_mem_zip hp).2
        obtain ⟨ins, hok, hcanon, hmem, hy0ins⟩ := buildTreeMulti_canonical
          FullNodeContent.merge (ndmPadF padBlind padSalt) spawn height
          (height / 2) ((entities.zip xs).map
            (fun p => ndmLeafNode blind esalt p.1 p.2)) hh2 hlne hnodup hbound
        rw [hbm] at hok
        have htree := BuildResult.ok.inj hok
        refine ⟨hlen, rfl, ?_, by rw [htree]⟩
        refine ⟨sortedNodes_xsorted hnodup, sortedNodes_y0, ?_, ?_, ?_, ?_⟩
        · rw [htree]
          exact sortedNodes_bound hbound
        · rw [htree]
          exact hh2
        · rw [htree]
        · refine ⟨ins, by rw [htree], hcanon, hmem, ?_⟩
          intro q hq hqy
          rcases hy0ins q hq hqy with hmem' | hsd
          · exact hmem'
          · exfalso
            omega
      · exfalso
        simp only [hbuild] at hnew
        simp at hnew
      · exfalso
        simp only [hbuild] at hnew
        simp at hnew

-- -----------------------------------------------------------------------------------------------
-- End-to-end inclusion soundness of the NDM-SMT.

/-- For a successfully constructed NDM-SMT of height `3 ≤ h ≤ 64` whose
total entity liability fits both the `u64` and the range-proof bound, every
entity id of the mapping yields an inclusion proof that verifies against the
root hash. -/
theorem ndmSmt_inclusion_sound {rand : ℕ → ℕ} {blind : ℕ → Scalar}
    {esalt : ℕ → ℕ} {padBlind : Coordinate → Scalar} {padSalt : Coordinate → ℕ}
    {spawn : RecursionParams → Bool} {height : ℕ} {entities : List Entity}
    {smt : NdmSmt}
    (hnew : ndmSmtNew rand blind esalt padBlind padSalt spawn height entities =
      some (.ok smt))
    (hh3 : 3 ≤ height) (h64 : height ≤ 64)
    (hsum64 : (entities.map Entity.liability).sum < U64) {ubl : ℕ}
    (hsumN : (entities.map Entity.liability).sum < 2 ^ ubl)
    {entityId : String} {x : ℕ}
    (hlook : smt.entityMapping.lookup entityId = some x)
    (f : AggregationFactor) (hagg : f.applyTo height ≤ height) :
    ∃ proof,
      ndmSmtGenerateInclusionProof padBlind padSalt spawn smt entityId f ubl =
        some (.ok proof) ∧
      proof.verify smt.rootHash = some (.ok ()) := by
  obtain ⟨xs, hgen, hlen, hmap, hct, hheight⟩ := ndmSmtNew_canonical hnew
  obtain ⟨hxlen, -⟩ := genXCoords_ok entities.length
    (RandomXCoordGenerator.new height) xs (by intro p hp; cases hp) hgen
  -- the looked-up pair comes from an input tuple
  have hpair : (entityId, x) ∈ smt.entityMapping := lookup_mem hlook
  rcases buildEntityMapping_mem (entities.zip xs) [] smt.entityMapping hmap
      (entityId, x) hpair with hacc | ⟨e, he, hid⟩
  · cases hacc
  -- the corresponding leaf node is in the bottom layer
  have hleafmem : (ndmLeafNode blind esalt e x).toNode ∈
      sortedNodes ((entities.zip xs).map
        (fun p => ndmLeafNode blind esalt p.1 p.2)) := by
    rw [mem_sortedNodes]
    exact ⟨ndmLeafNode blind esalt e x, List.mem_map.mpr ⟨(e, x), he, rfl⟩, rfl⟩
  have hxcoord : ((ndmLeafNode blind esalt e x).toNode).coord.x = x := rfl
  -- resolve the leaf through the store
  have hget : smt.binaryTree.getLeafNode x =
      some ((ndmLeafNode blind esalt e x).toNode) := by
    show smt.binaryTree.getNode ⟨0, x⟩ = _
    have := canonicalTree_getNode_leaf FullNodeContent.merge
      (ndmPadF padBlind padSalt) hct hleafmem
    rw [hxcoord] at this
    exact this
  have hlookbind : (smt.entityMapping.lookup entityId).bind
      (fun x => smt.binaryTree.getLeafNode x) =
      some ((ndmLeafNode blind esalt e x).toNode) := by
    rw [hlook, Option.some_bind]
    exact hget
  -- hypotheses about the canonical bottom layer
  have hsumL : liabilitySum (sortedNodes ((entities.zip xs).map
      (fun p => ndmLeafNode blind esalt p.1 p.2))) ≤
      (entities.map Entity.liability).sum :=
    liabilitySum_ndm blind esalt entities xs hlen
  have hsum64L : liabilitySum (sortedNodes ((entities.zip xs).map
      (fun p => ndmLeafNode blind esalt p.1 p.2))) < U64 := lt_of_le_of_lt hsumL hsum64
  have hsumNL : liabilitySum (sortedNodes ((entities.zip xs).map
      (fun p => ndmLeafNode blind esalt p.1 p.2))) < 2 ^ ubl :=
    lt_of_le_of_lt hsumL hsumN
  have hh3t : 3 ≤ smt.binaryTree.height := by omega
  have h64t : smt.binaryTree.height ≤ 64 := by omega
  have haggt : f.applyTo smt.binaryTree.height ≤ smt.binaryTree.height := by
    rw [hheight]
    exact hagg
  -- the sibling build and the proof generation
  have hsib := pathSiblingsBuild_canonical FullNodeContent.merge
    (ndmPadF padBlind padSalt) spawn hct hleafmem
  have hgenp := inclusionProof_generate_canonical (ndmPadF padBlind padSalt)
    hct hleafmem f ubl hh3t h64t haggt
  have hver := inclusionProof_verify_canonical (ndmPadF padBlind padSalt) hct
    (ndm_leaf_consistent blind esalt (entities.zip xs))
    (ndmPadF_consistent padBlind padSalt) hsum64L hsumNL hleafmem f hh3t h64t haggt
  refine ⟨canonProof (ndmPadF padBlind padSalt)
    (sortedNodes ((entities.zip xs).map
      (fun p => ndmLeafNode blind esalt p.1 p.2)))
    ((ndmLeafNode blind esalt e x).toNode) smt.binaryTree.height f ubl, ?_, ?_⟩
  · unfold ndmSmtGenerateInclusionProof
    rw [hlookbind]
    simp only [hsib, hgenp]
  · exact hver

/-- `NdmSmt::root_hash` exposes the hash of the tree's root node. -/
theorem ndmSmt_rootHash_eq (smt : NdmSmt) :
    smt.rootHash = smt.binaryTree.root.content.hash := rfl

-- -----------------------------------------------------------------------------------------------
-- The x-coord generator fails once the bottom layer is exhausted.

/-- `new_unique_x_coord` errors as soon as more coordinates are requested
than the bottom layer holds. -/
theorem genXCoords_exhausted {rand : ℕ → ℕ} :
    ∀ (count : ℕ) (g : RandomXCoordGenerator), g.maxValue ≤ g.i + count →
      genXCoords rand g (count + 1) = .error .OutOfBounds := by
  intro count
  induction count with
  | zero =>
    intro g hg
    rw [genXCoords]
    have hn : RandomXCoordGenerator.newUniqueXCoord (rand g.i) g =
        .error .OutOfBounds := by
      unfold RandomXCoordGenerator.newUniqueXCoord
      rw [if_pos (by omega)]
    rw [hn, except_bind_error]
  | succ count ih =>
    intro g hg
    rw [genXCoords]
    by_cases hle : g.maxValue ≤ g.i
    · have hn : RandomXCoordGenerator.newUniqueXCoord (rand g.i) g =
          .error .OutOfBounds := by
        unfold RandomXCoordGenerator.newUniqueXCoord
        rw [if_pos hle]
      rw [hn, except_bind_error]
    · have hn : RandomXCoordGenerator.newUniqueXCoord (rand g.i) g =
          .ok (RandomXCoordGenerator.followChain g.swapMap g.swapMap.length
              ((g.swapMap.lookup (g.i + rand g.i % (g.maxValue - g.i))).getD
                (g.i + rand g.i % (g.maxValue - g.i))),
            ⟨(g.i + rand g.i % (g.maxValue - g.i), g.i) :: g.swapMap,
              g.i + 1, g.maxValue⟩) := by
        simp only [RandomXCoordGenerator.newUniqueXCoord, if_neg hle]
      simp only [hn, except_bind_ok]
      rw [ih _ (by show g.maxValue ≤ g.i + 1 + count; omega), except_bind_error]

-- -----------------------------------------------------------------------------------------------
-- Concrete instances shared by the claims below.

def witRand : ℕ → ℕ := fun _ => 0
def witBlind : ℕ → Scalar := fun _ => 1
def witEsalt : ℕ → ℕ := fun _ => 0
def witPadBlind : Coordinate → Scalar := fun _ => 1
def witPadSalt : Coordinate → ℕ := fun _ => 0
def witSpawn : RecursionParams → Bool := fun _ => false

/-- A fallback tree for the extraction matches below. -/
def witFallback : NdmSmt :=
  ⟨⟨⟨⟨0, 0⟩, FullNodeContent.new_pad 0 ⟨0, 0⟩ 0⟩, [], 0⟩, []⟩

/-- The NDM-SMT built at height 3 over the single entity `("a", 10)`. -/
def witSmt : NdmSmt :=
  match ndmSmtNew witRand witBlind witEsalt witPadBlind witPadSalt witSpawn 3
      [⟨10, "a"⟩] with
  | some (.ok s) => s
  | _ => witFallback

/-- The NDM-SMT built at the minimum height 2 over the same entity. -/
def witSmt2 : NdmSmt :=
  match ndmSmtNew witRand witBlind witEsalt witPadBlind witPadSalt witSpawn 2
      [⟨10, "a"⟩] with
  | some (.ok s) => s
  | _ => witFallback

/-- The NDM-SMT built at height 3 over two entities of liability `2^63`
(total `2^64`, overflowing a `u64`). -/
def witSmtOv : NdmSmt :=
  match ndmSmtNew witRand witBlind witEsalt witPadBlind witPadSalt witSpawn 3
      [⟨2 ^ 63, "a"⟩, ⟨2 ^ 63, "b"⟩] with
  | some (.ok s) => s
  | _ => witFallback

/-- The NDM-SMT built at height 8 over the single entity `("a", 10)`. -/
def witSmt8 : NdmSmt :=
  match ndmSmtNew witRand witBlind witEsalt witPadBlind witPadSalt witSpawn 8
      [⟨10, "a"⟩] with
  | some (.ok s) => s
  | _ => witFallback

/-- The inclusion proof of `("a", 10)` in `witSmt8` at aggregation factor
`Divisor 2`. -/
def witProof8 : InclusionProof :=
  match ndmSmtGenerateInclusionProof witPadBlind witPadSalt witSpawn witSmt8
      "a" (AggregationFactor.Divisor 2) 64 with
  | some (.ok p) => p
  | _ => ⟨[], ⟨⟨0, 0⟩, FullNodeContent.new_pad 0 ⟨0, 0⟩ 0⟩, none, none,
      .Divisor 1, 0⟩

-- -----------------------------------------------------------------------------------------------
-- C1

/-- C1: for every successfully built NDM-SMT of admissible height
(`3 ≤ height ≤ 64`, the spec's claim fails at height 2) whose total entity
liability fits the `u64` and the range-proof bound, and whose aggregation
index does not exceed the height, every entity id present in the entity
mapping yields an inclusion proof, and verifying it against the tree's root
hash returns `Ok`. -/
theorem inclusion_soundness {rand : ℕ → ℕ} {blind : ℕ → Scalar}
    {esalt : ℕ → ℕ} {padBlind : Coordinate → Scalar} {padSalt : Coordinate → ℕ}
    {spawn : RecursionParams → Bool} {height : ℕ} {entities : List Entity}
    {smt : NdmSmt}
    (hnew : ndmSmtNew rand blind esalt padBlind padSalt spawn height entities =
      some (.ok smt))
    (hh3 : 3 ≤ height) (h64 : height ≤ 64)
    (hsum64 : (entities.map Entity.liability).sum < U64) {ubl : ℕ}
    (hsumN : (entities.map Entity.liability).sum < 2 ^ ubl)
    {entityId : String} {x : ℕ}
    (hlook : smt.entityMapping.lookup entityId = some x)
    (f : AggregationFactor) (hagg : f.applyTo height ≤ height) :
    ∃ proof,
      ndmSmtGenerateInclusionProof padBlind padSalt spawn smt entityId f ubl =
        some (.ok proof) ∧
      proof.verify smt.rootHash = some (.ok ()) :=
  ndmSmt_inclusion_sound hnew hh3 h64 hsum64 hsumN hlook f hagg

/-- C1 witness: the height-3 tree over `("a", 10)`. -/
theorem inclusion_soundness_witness :
    ndmSmtNew witRand witBlind witEsalt witPadBlind witPadSalt witSpawn 3
      [⟨10, "a"⟩] = some (.ok witSmt) ∧
    ∃ proof,
      ndmSmtGenerateInclusionProof witPadBlind witPadSalt witSpawn witSmt "a"
        (AggregationFactor.Percent 100) 64 = some (.ok proof) ∧
      proof.verify witSmt.rootHash = some (.ok ()) :=
  ⟨rfl, @inclusion_soundness witRand witBlind witEsalt witPadBlind witPadSalt
    witSpawn 3 [⟨10, "a"⟩] witSmt rfl (by decide) (by decide) (by decide) 64
    (by decide) "a" 0 rfl (AggregationFactor.Percent 100) (by decide)⟩

/-- C1 counterexample: at the minimum height 2 the build succeeds and the
entity is present in the mapping, yet generating its inclusion proof fails
with `TooFewSiblings` — the claim is false without a height lower bound. -/
theorem inclusion_generation_height2_fails :
    ndmSmtNew witRand witBlind witEsalt witPadBlind witPadSalt witSpawn 2
      [⟨10, "a"⟩] = some (.ok witSmt2) ∧
    witSmt2.entityMapping.lookup "a" = some 0 ∧
    ndmSmtGenerateInclusionProof witPadBlind witPadSalt witSpawn witSmt2 "a"
      (AggregationFactor.Percent 100) 64 =
      some (.error (.InclusionProofGenerationError (.PathError .TooFewSiblings))) :=
  ⟨rfl, rfl, rfl⟩

-- -----------------------------------------------------------------------------------------------
-- C2

/-- C2: on any fixed height, padding function and duplicate-free in-bounds
leaf set, the multi-threaded and the single-threaded build algorithms return
the identical root node, for every thread-scheduling oracle `spawn` (the
multi-threaded result does not depend on `spawn` at all). -/
theorem multi_single_root_agree {C : Type} (mergeC : C → C → C)
    (padF : Coordinate → C) (spawn : RecursionParams → Bool) (h sd : ℕ)
    (l : List (InputLeafNode C)) (hh : 2 ≤ h) (hl : l ≠ [])
    (hnodup : (l.map (fun n => n.xCoord)).Nodup)
    (hbound : ∀ n ∈ l, n.xCoord < 2 ^ (h - 1)) :
    ∃ root store1 store2,
      buildTreeMulti mergeC padF spawn h sd l = .ok ⟨root, store1, h⟩ ∧
      buildTreeSingle mergeC padF (sortedNodes l) h = some (store2, root) := by
  obtain ⟨ins, hok, -, -, -⟩ :=
    buildTreeMulti_canonical mergeC padF spawn h sd l hh hl hnodup hbound
  obtain ⟨ins2, hok2⟩ := buildTreeSingle_canonical mergeC padF (sortedNodes l)
    (sortedNodes_xsorted hnodup) sortedNodes_y0 h (sortedNodes_ne_nil hl)
    (sortedNodes_bound hbound)
  exact ⟨canonicalNode mergeC padF (sortedNodes l) (h - 1) 0,
    ((canonicalNode mergeC padF (sortedNodes l) (h - 1) 0).coord,
      canonicalNode mergeC padF (sortedNodes l) (h - 1) 0) :: ins,
    ((canonicalNode mergeC padF (sortedNodes l) (h - 1) 0).coord,
      canonicalNode mergeC padF (sortedNodes l) (h - 1) 0) :: ins2,
    hok, hok2⟩

/-- C2 witness: two leaves in a height-2 tree with integer contents. -/
theorem multi_single_root_agree_witness :
    ([(⟨5, 0⟩ : InputLeafNode ℕ), ⟨7, 1⟩] ≠ []) ∧
    ∃ root store1 store2,
      buildTreeMulti (fun a b : ℕ => a + b) (fun _ => 0) (fun _ => true) 2 1
        [⟨5, 0⟩, ⟨7, 1⟩] = .ok ⟨root, store1, 2⟩ ∧
      buildTreeSingle (fun a b : ℕ => a + b) (fun _ => 0)
        (sortedNodes [⟨5, 0⟩, ⟨7, 1⟩]) 2 = some (store2, root) :=
  ⟨by decide, multi_single_root_agree (fun a b : ℕ => a + b) (fun _ => 0)
    (fun _ => true) 2 1 [⟨5, 0⟩, ⟨7, 1⟩] (by decide) (by decide) (by decide)
    (by decide)⟩

-- -----------------------------------------------------------------------------------------------
-- C3

/-- C3: for every successfully built NDM-SMT whose total entity liability
fits a `u64` (the claim fails on overflow), recomputing the Pedersen
commitment from the secret root liability and blinding factor equals the
public root commitment, i.e. `verify_root_commitment` returns `Ok`. -/
theorem root_commitment_opening {rand : ℕ → ℕ} {blind : ℕ → Scalar}
    {esalt : ℕ → ℕ} {padBlind : Coordinate → Scalar} {padSalt : Coordinate → ℕ}
    {spawn : RecursionParams → Bool} {height : ℕ} {entities : List Entity}
    {smt : NdmSmt}
    (hnew : ndmSmtNew rand blind esalt padBlind padSalt spawn height entities =
      some (.ok smt))
    (hsum64 : (entities.map Entity.liability).sum < U64) :
    verifyRootCommitment smt.binaryTree.root.content.commitment
      smt.binaryTree.root.content.liability
      smt.binaryTree.root.content.blindingFactor = .ok () := by
  obtain ⟨xs, hgen, hlen, hmap, hct, hheight⟩ := ndmSmtNew_canonical hnew
  obtain ⟨hsort, hy0, hbound, hh2, hroot, -⟩ := hct
  have hsum64L := lt_of_le_of_lt (liabilitySum_ndm blind esalt entities xs hlen)
    hsum64
  have hcons := (canonicalNode_content (ndmPadF padBlind padSalt) _ hsort hy0
    (ndm_leaf_consistent blind esalt (entities.zip xs))
    (ndmPadF_consistent padBlind padSalt) hsum64L
    (smt.binaryTree.height - 1) 0).2
  rw [← hroot] at hcons
  unfold verifyRootCommitment
  rw [if_pos hcons.symm]

/-- C3 witness: the height-3 tree over `("a", 10)`. -/
theorem root_commitment_opening_witness :
    ndmSmtNew witRand witBlind witEsalt witPadBlind witPadSalt witSpawn 3
      [⟨10, "a"⟩] = some (.ok witSmt) ∧
    verifyRootCommitment witSmt.binaryTree.root.content.commitment
      witSmt.binaryTree.root.content.liability
      witSmt.binaryTree.root.content.blindingFactor = .ok () :=
  ⟨rfl, @root_commitment_opening witRand witBlind witEsalt witPadBlind
    witPadSalt witSpawn 3 [⟨10, "a"⟩] witSmt rfl (by decide)⟩

/-- C3 counterexample: two entities of liability `2^63` build successfully,
but the wrapped root liability 0 no longer opens the root commitment (whose
exponent is the true total `2^64`), so `verify_root_commitment` errors. -/
theorem root_commitment_overflow_counterexample :
    ndmSmtNew witRand witBlind witEsalt witPadBlind witPadSalt witSpawn 3
      [⟨2 ^ 63, "a"⟩, ⟨2 ^ 63, "b"⟩] = some (.ok witSmtOv) ∧
    witSmtOv.binaryTree.root.content.liability = 0 ∧
    verifyRootCommitment witSmtOv.binaryTree.root.content.commitment
      witSmtOv.binaryTree.root.content.liability
      witSmtOv.binaryTree.root.content.blindingFactor =
      .error .RootVerificationError :=
  ⟨rfl, rfl, rfl⟩

-- -----------------------------------------------------------------------------------------------
-- C4

/-- C4: the x-coord bound check of `TreeBuilder::leaf_nodes` inspects only
the *last* element of the input vector before sorting, so a leaf with
out-of-bounds `x = 8 ≥ 2^(4-1)` placed before an in-bounds last leaf passes
validation, and the whole build then completes without the `InvalidXCoord`
error the spec requires. -/
theorem invalid_xcoord_not_enforced :
    treeBuilderLeafNodes 4 (some [(⟨0, 8⟩ : InputLeafNode ℕ), ⟨0, 0⟩]) =
      .ok [⟨0, 8⟩, ⟨0, 0⟩] ∧
    ∃ t, buildUsingMultiThreadedAlgorithm (fun a b : ℕ => a + b) (fun _ => 0)
      (fun _ => false) (some 4) none (some [⟨0, 8⟩, ⟨0, 0⟩]) = .ok t :=
  ⟨rfl, ⟨_, rfl⟩⟩

-- -----------------------------------------------------------------------------------------------
-- C5

/-- C5: at height 3 and five entities the facade constructor fails, but with
`HeightTooSmall (OutOfBounds)` raised by the random x-coord generator (which
runs before the tree builder), not with `TooManyLeaves` as the spec
claims. -/
theorem height3_five_entities_height_too_small (rand : ℕ → ℕ)
    (blind : ℕ → Scalar) (esalt : ℕ → ℕ) (padBlind : Coordinate → Scalar)
    (padSalt : Coordinate → ℕ) (spawn : RecursionParams → Bool)
    (entities : List Entity) (hlen : entities.length = 5) :
    ndmSmtNew rand blind esalt padBlind padSalt spawn 3 entities =
      some (.error (.HeightTooSmall .OutOfBounds)) := by
  have hx : genXCoords rand (RandomXCoordGenerator.new 3) entities.length =
      .error .OutOfBounds := by
    rw [hlen]
    exact genXCoords_exhausted 4 (RandomXCoordGenerator.new 3) (by decide)
  simp only [ndmSmtNew, hx]

/-- C5 witness: five concrete entities. -/
theorem height3_five_entities_witness :
    ([⟨1, "a"⟩, ⟨1, "b"⟩, ⟨1, "c"⟩, ⟨1, "d"⟩, ⟨1, "e"⟩] : List Entity).length
      = 5 ∧
    ndmSmtNew witRand witBlind witEsalt witPadBlind witPadSalt witSpawn 3
      [⟨1, "a"⟩, ⟨1, "b"⟩, ⟨1, "c"⟩, ⟨1, "d"⟩, ⟨1, "e"⟩] =
      some (.error (.HeightTooSmall .OutOfBounds)) :=
  ⟨rfl, height3_five_entities_height_too_small witRand witBlind witEsalt
    witPadBlind witPadSalt witSpawn
    [⟨1, "a"⟩, ⟨1, "b"⟩, ⟨1, "c"⟩, ⟨1, "d"⟩, ⟨1, "e"⟩] rfl⟩

/-- C5 counterexample: the concrete result is `HeightTooSmall`, a different
error constructor from the `TooManyLeaves` the spec names. -/
theorem height3_five_entities_not_toomanyleaves :
    ndmSmtNew witRand witBlind witEsalt witPadBlind witPadSalt witSpawn 3
      [⟨1, "a"⟩, ⟨1, "b"⟩, ⟨1, "c"⟩, ⟨1, "d"⟩, ⟨1, "e"⟩] =
      some (.error (.HeightTooSmall .OutOfBounds)) ∧
    (NdmSmtError.HeightTooSmall .OutOfBounds) ≠
      (NdmSmtError.TreeError .TooManyLeaves) :=
  ⟨rfl, by decide⟩

-- -----------------------------------------------------------------------------------------------
-- C6

/-- C6: at height 8 with aggregation factor `Divisor 2`, the inclusion proof
puts the first `8 / 2 = 4` path nodes into the aggregated range proof and
the remaining **4** (not 3) into individual range proofs, and the proof
verifies against the root hash. -/
theorem partial_aggregation_height8 :
    ndmSmtGenerateInclusionProof witPadBlind witPadSalt witSpawn witSmt8 "a"
      (AggregationFactor.Divisor 2) 64 = some (.ok witProof8) ∧
    (∃ ips, witProof8.individualRangeProofs = some ips ∧ ips.length = 4) ∧
    (∃ agg, witProof8.aggregatedRangeProof = some agg ∧ agg.pairs.length = 4) ∧
    witProof8.verify witSmt8.rootHash = some (.ok ()) :=
  ⟨rfl, ⟨_, rfl, rfl⟩, ⟨_, rfl, rfl⟩, rfl⟩

/-- C6 counterexample: `Divisor 2` at height 8 leaves `8 - 4 = 4` nodes for
individual proofs, not the 3 the spec states. -/
theorem partial_aggregation_split_counts :
    (AggregationFactor.Divisor 2).applyTo 8 = 4 ∧
    ¬(8 - (AggregationFactor.Divisor 2).applyTo 8 = 3) := by
  decide

-- -----------------------------------------------------------------------------------------------
-- C7

/-- C7: the Merkle-path root check compares the reconstructed top node's
*coordinate and hash* against the assembled root (the derived `PartialEq`
on `Node` includes the coordinate); the commitment is ignored, so changing
the last node's commitment never changes the verdict. -/
theorem merkle_root_check_ignores_commitment (rootHash : HashVal)
    (treeHeight : ℕ) (pre : List (Node HiddenNodeContent)) (c : Coordinate)
    (com com' : Com) (hsh : HashVal) :
    InclusionProof.verifyMerklePath rootHash treeHeight
        (pre ++ [⟨c, ⟨com, hsh⟩⟩]) =
      InclusionProof.verifyMerklePath rootHash treeHeight
        (pre ++ [⟨c, ⟨com', hsh⟩⟩]) := by
  unfold InclusionProof.verifyMerklePath
  rw [List.getLast?_concat, List.getLast?_concat]
  rfl

/-- C7 counterexample: a reconstructed top node whose hash equals the root
hash but whose coordinate is not `(height - 1, 0)` is rejected — the check
does not succeed "whenever the hash matches". -/
theorem merkle_root_coordinate_counterexample :
    InclusionProof.verifyMerklePath (HashVal.raw 7) 2
      [⟨⟨0, 1⟩, ⟨pedersen 0 0, HashVal.raw 7⟩⟩] =
      some (.error .RootMismatch) := rfl

-- -----------------------------------------------------------------------------------------------
-- C8

/-- C8: for every store depth, a successful multi-threaded build stores the
root node and every input leaf node (the leaves are inserted at `y = 0`
regardless of the store depth), so proof generation can always find the
leaf. -/
theorem store_contains_root_and_leaves {C : Type} (mergeC : C → C → C)
    (padF : Coordinate → C) (spawn : RecursionParams → Bool) (h sd : ℕ)
    (l : List (InputLeafNode C)) (hh : 2 ≤ h) (hsd1 : 1 ≤ sd) (hsd2 : sd ≤ h)
    (hl : l ≠ []) (hnodup : (l.map (fun n => n.xCoord)).Nodup)
    (hbound : ∀ n ∈ l, n.xCoord < 2 ^ (h - 1)) :
    ∃ root store,
      buildTreeMulti mergeC padF spawn h sd l = .ok ⟨root, store, h⟩ ∧
      (root.coord, root) ∈ store ∧
      ∀ n ∈ sortedNodes l, (n.coord, n) ∈ store := by
  obtain ⟨ins, hok, -, hmem, -⟩ :=
    buildTreeMulti_canonical mergeC padF spawn h sd l hh hl hnodup hbound
  refine ⟨canonicalNode mergeC padF (sortedNodes l) (h - 1) 0,
    ((canonicalNode mergeC padF (sortedNodes l) (h - 1) 0).coord,
      canonicalNode mergeC padF (sortedNodes l) (h - 1) 0) :: ins,
    hok, List.mem_cons_self _ _, ?_⟩
  intro n hn
  exact List.mem_cons_of_mem _ (hmem n hn)

/-- C8 witness: two integer leaves at height 2, store depth 1. -/
theorem store_contains_root_and_leaves_witness :
    ([(⟨5, 0⟩ : InputLeafNode ℕ), ⟨7, 1⟩] ≠ []) ∧
    ∃ root store,
      buildTreeMulti (fun a b : ℕ => a + b) (fun _ => 0) (fun _ => false) 2 1
        [⟨5, 0⟩, ⟨7, 1⟩] = .ok ⟨root, store, 2⟩ ∧
      (root.coord, root) ∈ store ∧
      ∀ n ∈ sortedNodes [(⟨5, 0⟩ : InputLeafNode ℕ), ⟨7, 1⟩],
        (n.coord, n) ∈ store :=
  ⟨by decide, store_contains_root_and_leaves (fun a b : ℕ => a + b)
    (fun _ => 0) (fun _ => false) 2 1 [⟨5, 0⟩, ⟨7, 1⟩] (by decide) (by decide)
    (by decide) (by decide) (by decide) (by decide)⟩

-- -----------------------------------------------------------------------------------------------
-- C9

/-- A hidden-content path of three nodes with pairwise different
commitments. -/
def c9Nodes : List (Node HiddenNodeContent) :=
  [⟨⟨0, 0⟩, ⟨pedersen 5 1, HashVal.raw 0⟩⟩,
   ⟨⟨1, 0⟩, ⟨pedersen 6 2, HashVal.raw 1⟩⟩,
   ⟨⟨2, 0⟩, ⟨pedersen 7 3, HashVal.raw 2⟩⟩]

/-- A shared dummy revealed leaf. -/
def c9Leaf : Node FullNodeContent := ⟨⟨0, 0⟩, FullNodeContent.new_pad 0 ⟨0, 0⟩ 0⟩

/-- A proof whose individual field is the vacuous `some []` and whose
aggregated field is absent, at full aggregation index. -/
def c9VacuousProof : InclusionProof :=
  ⟨[], c9Leaf, some [], none, AggregationFactor.Divisor 1, 0⟩

/-- A proof carrying a single individual range proof against a three-node
path at aggregation index 0: the zip truncates and only the first commitment
is ever checked. -/
def c9TruncProof : InclusionProof :=
  ⟨[], c9Leaf, some [IndividualRangeProof.generate 5 1], none,
    AggregationFactor.Divisor 4, 64⟩

/-- A proof with both range-proof fields absent. -/
def c9MissingProof : InclusionProof :=
  ⟨[], c9Leaf, none, none, AggregationFactor.Divisor 1, 0⟩

/-- C9: `verify_range_proofs` returns `MissingRangeProof` only when both the
aggregated and the individual fields are absent (first conjunct, and the
concrete both-absent instance in the last); when either field is present it
can return `Ok` while checking no commitment at all (`some []` zips to
nothing at full aggregation index) or only a truncated prefix (a single
proof against three commitments checks just the first). -/
theorem missing_range_proof_behaviour :
    (∀ (p : InclusionProof) (th : ℕ) (pathNodes : List (Node HiddenNodeContent)),
      p.verifyRangeProofs th pathNodes = some (.error .MissingRangeProof) →
      p.individualRangeProofs = none ∧ p.aggregatedRangeProof = none) ∧
    c9VacuousProof.verifyRangeProofs 3 c9Nodes = some (.ok ()) ∧
    c9TruncProof.verifyRangeProofs 3 c9Nodes = some (.ok ()) ∧
    c9MissingProof.verifyRangeProofs 3 c9Nodes =
      some (.error .MissingRangeProof) := by
  refine ⟨?_, rfl, rfl, rfl⟩
  intro p th pathNodes h
  simp only [InclusionProof.verifyRangeProofs] at h
  by_cases hlen : (pathNodes.map (fun node => node.content.commitment)).length <
      p.aggregationFactor.applyTo th
  · rw [if_pos hlen] at h
    cases h
  · rw [if_neg hlen, Option.some.injEq] at h
    rcases hind : p.individualRangeProofs with _ | proofs <;>
      rcases hagg : p.aggregatedRangeProof with _ | proof <;>
        simp only [hind, hagg] at h
    · exact ⟨rfl, rfl⟩
    · split at h <;> simp_all
    · split at h <;> rename_i b hb <;> split at hb <;> simp_all
    · split at h <;> rename_i b hb <;>
        (try split at hb) <;> (try split at h) <;> simp_all

-- -----------------------------------------------------------------------------------------------
-- C10

/-- C10: `FullNodeContent::merge` computes the parent liability by wrapping
`u64` addition — always `(left + right) mod 2^64`, with no error path — and
on a true total of `2^64` the stored liability 0 no longer matches the
homomorphically added commitment, whose exponent is the true total. -/
theorem merge_liability_wraps :
    (∀ lch rch : FullNodeContent, (FullNodeContent.merge lch rch).liability =
      (lch.liability + rch.liability) % U64) ∧
    (FullNodeContent.merge (FullNodeContent.new_leaf (2 ^ 63) 1 "a" 0)
      (FullNodeContent.new_leaf (2 ^ 63) 2 "b" 0)).liability = 0 ∧
    (FullNodeContent.merge (FullNodeContent.new_leaf (2 ^ 63) 1 "a" 0)
        (FullNodeContent.new_leaf (2 ^ 63) 2 "b" 0)).commitment ≠
      pedersen
        (FullNodeContent.merge (FullNodeContent.new_leaf (2 ^ 63) 1 "a" 0)
          (FullNodeContent.new_leaf (2 ^ 63) 2 "b" 0)).liability
        (FullNodeContent.merge (FullNodeContent.new_leaf (2 ^ 63) 1 "a" 0)
          (FullNodeContent.new_leaf (2 ^ 63) 2 "b" 0)).blindingFactor :=
  ⟨fun lch rch => rfl, by decide, by decide⟩

end Dapol
